import Mathlib

/-!
# Verification of the `marimo_anywhere` segmentation / minification pipeline

This file is a shallow embedding, in Lean 4, of the core logic of
`src/marimo_anywhere/cli.py` and `src/marimo_anywhere/web.py`:

* the segmenter `yield_next_function_block` (boundary arithmetic over the
  normalized source lines, driven by the line numbers that Python's `ast`
  module reports for `FunctionDef` and `Return` nodes);
* the transform orchestrator `minify_to_file` (whitelist filtering,
  dedent/minify/indent of each block, the output writes and the fixed
  closing trailer, and the abort-on-`IndentationError` path);
* `kill_process_id` and `make_marimo_url_read_only` from `web.py`.

External collaborators (the `python_minifier` minifier, the `re` regex
engine used for whitelist matching, the operating system's `os.kill`) are
modelled as explicit function parameters / outcome lists; everything the
repository itself computes is translated directly from the source.
-/

deriving instance DecidableEq for Except

namespace MarimoAnywhere

/-! ## Python list slicing and `'\n'.join`

`sliceList l a b` is the Python slice `l[a:b]` for `0 ≤ a`, `0 ≤ b`
(the segmenter only ever slices with nonnegative indices: its cursors are
`0` and values `end_line - 1` with `end_line ≥ 1`).  Python slices clamp
out-of-range bounds, which `drop`/`take` do as well. -/
def sliceList {α : Type} (l : List α) (a b : Nat) : List α :=
  (l.drop a).take (b - a)

/-- `new_lines` from `cli.py`: `'\n'.join(code_lines)`. -/
def new_lines (code_lines : List String) : String :=
  String.intercalate "\n" code_lines

/-! ## The segmenter (`yield_next_function_block`)

The Python function normalizes the source, splits it into lines
(`org_souce_code = formatted_source_code.split('\n')`, a 0-indexed list of
lines), parses it with `ast.parse` and walks the tree.  The parser is an
external collaborator; we model each `ast.FunctionDef` node encountered by
`ast.walk` by the data the segmenter reads from it: its header line number
`node.lineno` (1-based, the whole header is one line after normalization),
its last line `node.end_lineno`, and the list of `n.lineno` for every
`ast.Return` node `n` in `ast.walk(node)`. -/
structure FunctionDef where
  lineno : Nat
  end_lineno : Nat
  returnLines : List Nat
deriving DecidableEq, Repr

/-- The `end_line` computation of `yield_next_function_block`:
`end_line = 0`, then `end_line = max(end_line, n.lineno)` for every
`Return` node, then `if end_line == 0: end_line = node.end_lineno`. -/
def endLineOf (d : FunctionDef) : Nat :=
  let e := d.returnLines.foldl max 0
  if e = 0 then d.end_lineno else e

/-- The loop body of `yield_next_function_block`, yielding the raw line
lists.  `last` is the `last_processed_line` cursor (initially `0`).  For
each declaration:

* `lines_before_func = org_souce_code[last_processed_line:start_line]`
* `func_lines = org_souce_code[start_line:end_line - 1]`
* `last_processed_line = end_line - 1`
* if `'\n'.join(lines_before_func) == ''` the generator `return`s
  (yielding nothing for this and all later declarations), else it yields.
-/
def blockLines (org : List String) : Nat → List FunctionDef → List (List String × List String)
  | _, [] => []
  | last, d :: rest =>
    let start_line := d.lineno
    let end_line := endLineOf d
    let lines_before_func := sliceList org last start_line
    let func_lines := sliceList org start_line (end_line - 1)
    if new_lines lines_before_func = "" then []
    else (lines_before_func, func_lines) :: blockLines org (end_line - 1) rest

/-- `yield_next_function_block`, as the (finite) list of yielded
`(return_bef, return_aft)` pairs, each joined with `'\n'.join`. -/
def yield_next_function_block (org : List String) (decls : List FunctionDef) : List (String × String) :=
  (blockLines org 0 decls).map (fun p => (new_lines p.1, new_lines p.2))

/-- The value of the `last_processed_line` cursor after processing a list
of declarations (ignoring early termination). -/
def finalCursor : Nat → List FunctionDef → Nat
  | c, [] => c
  | _, d :: ds => finalCursor (endLineOf d - 1) ds

/-- Well-formedness of a declaration list against the normalized lines,
relative to a cursor `c`, as assumed by the coverage claim: every
declaration has at least one `return` statement, every return statement
lies strictly below the one-line header, declarations appear in file order
after the running cursor, and no computed preamble is empty (so that the
generator's early-termination check never fires). -/
def wfFrom (org : List String) : Nat → List FunctionDef → Prop
  | _, [] => True
  | c, d :: ds =>
    d.returnLines ≠ [] ∧
    (∀ r ∈ d.returnLines, d.lineno < r) ∧
    c ≤ d.lineno ∧
    new_lines (sliceList org c d.lineno) ≠ "" ∧
    wfFrom org (endLineOf d - 1) ds

/-- No computed preamble is empty (the early-termination check never
fires), tracked along the cursor recursion. -/
def noEmptyPreamble (org : List String) : Nat → List FunctionDef → Prop
  | _, [] => True
  | c, d :: ds =>
    new_lines (sliceList org c d.lineno) ≠ "" ∧
    noEmptyPreamble org (endLineOf d - 1) ds

/-! ### Basic lemmas about slices and `foldl max` -/

theorem sliceList_self {α : Type} (l : List α) (a : Nat) : sliceList l a a = [] := by
  simp [sliceList]

theorem sliceList_append {α : Type} (l : List α) {a b c : Nat} (hab : a ≤ b) (hbc : b ≤ c) :
    sliceList l a b ++ sliceList l b c = sliceList l a c := by
  unfold sliceList
  have hdrop : l.drop b = (l.drop a).drop (b - a) := by
    rw [List.drop_drop]
    congr 1
    omega
  rw [hdrop, ← List.take_add]
  congr 1
  omega

theorem le_foldl_max (l : List Nat) (a : Nat) : a ≤ l.foldl max a := by
  induction l generalizing a with
  | nil => simp
  | cons x xs ih =>
    simp only [List.foldl_cons]
    exact le_trans (le_max_left a x) (ih (max a x))

theorem mem_le_foldl_max (l : List Nat) : ∀ (a r : Nat), r ∈ l → r ≤ l.foldl max a := by
  induction l with
  | nil => intro a r hr; cases hr
  | cons x xs ih =>
    intro a r hr
    simp only [List.foldl_cons]
    rcases List.mem_cons.mp hr with h | h
    · subst h
      exact le_trans (le_max_right a r) (le_foldl_max xs (max a r))
    · exact ih (max a x) r h

theorem foldl_max_mem_or_eq (l : List Nat) : ∀ (a : Nat),
    l.foldl max a ∈ l ∨ l.foldl max a = a := by
  induction l with
  | nil => intro a; simp
  | cons x xs ih =>
    intro a
    simp only [List.foldl_cons]
    rcases ih (max a x) with h | h
    · exact Or.inl (List.mem_cons_of_mem _ h)
    · rcases Nat.le_total a x with hax | hxa
      · refine Or.inl ?_
        have hx : max a x = x := by omega
        rw [h, hx]
        exact List.mem_cons_self _ _
      · refine Or.inr ?_
        have hx : max a x = a := by omega
        rw [h, hx]

/-- With at least one return statement, all of them strictly below the
header line, the computed end boundary is an actual return line and
bounds all of them: it is the maximum return line number. -/
theorem endLineOf_of_returns (d : FunctionDef) (hne : d.returnLines ≠ [])
    (hgt : ∀ r ∈ d.returnLines, d.lineno < r) :
    endLineOf d ∈ d.returnLines ∧ ∀ r ∈ d.returnLines, r ≤ endLineOf d := by
  obtain ⟨r₀, hr₀⟩ := List.exists_mem_of_ne_nil _ hne
  have hpos : 0 < d.returnLines.foldl max 0 :=
    lt_of_lt_of_le (Nat.lt_of_le_of_lt (Nat.zero_le _) (hgt r₀ hr₀))
      (mem_le_foldl_max _ 0 r₀ hr₀)
  have hfold : endLineOf d = d.returnLines.foldl max 0 := by
    unfold endLineOf
    simp only []
    rw [if_neg (by omega)]
  constructor
  · rcases foldl_max_mem_or_eq d.returnLines 0 with h | h
    · rw [hfold]; exact h
    · omega
  · intro r hr
    rw [hfold]
    exact mem_le_foldl_max _ 0 r hr

/-- With no return statement at all, the end boundary falls back to the
node's own last line. -/
theorem endLineOf_of_no_returns (d : FunctionDef) (hnil : d.returnLines = []) :
    endLineOf d = d.end_lineno := by
  unfold endLineOf
  rw [hnil]
  simp

theorem lineno_lt_endLineOf (d : FunctionDef) (hne : d.returnLines ≠ [])
    (hgt : ∀ r ∈ d.returnLines, d.lineno < r) : d.lineno < endLineOf d := by
  obtain ⟨hmem, _⟩ := endLineOf_of_returns d hne hgt
  exact hgt _ hmem

/-! ### Decidability of the well-formedness predicates -/

def wfFromDecidable (org : List String) : (c : Nat) → (ds : List FunctionDef) → Decidable (wfFrom org c ds)
  | _, [] => isTrue trivial
  | c, d :: ds => by
    letI := wfFromDecidable org (endLineOf d - 1) ds
    unfold wfFrom
    exact inferInstance

instance (org : List String) (c : Nat) (ds : List FunctionDef) : Decidable (wfFrom org c ds) :=
  wfFromDecidable org c ds

def noEmptyPreambleDecidable (org : List String) : (c : Nat) → (ds : List FunctionDef) → Decidable (noEmptyPreamble org c ds)
  | _, [] => isTrue trivial
  | c, d :: ds => by
    letI := noEmptyPreambleDecidable org (endLineOf d - 1) ds
    unfold noEmptyPreamble
    exact inferInstance

instance (org : List String) (c : Nat) (ds : List FunctionDef) : Decidable (noEmptyPreamble org c ds) :=
  noEmptyPreambleDecidable org c ds

/-! ### The coverage / partition property -/

/-- Concatenation of all emitted segments, preamble then body, in
emission order, at the level of line lists. -/
def concatSegments : List (List String × List String) → List String
  | [] => []
  | p :: ps => p.1 ++ (p.2 ++ concatSegments ps)

theorem wf_le_finalCursor (org : List String) (ds : List FunctionDef) :
    ∀ c, wfFrom org c ds → c ≤ finalCursor c ds := by
  induction ds with
  | nil => intro c _; exact Nat.le_refl c
  | cons d ds ih =>
    intro c hwf
    obtain ⟨hne, hgt, hcle, _, hrest⟩ := hwf
    have hlt : d.lineno < endLineOf d := lineno_lt_endLineOf d hne hgt
    calc c ≤ endLineOf d - 1 := by omega
      _ ≤ finalCursor (endLineOf d - 1) ds := ih _ hrest
      _ = finalCursor c (d :: ds) := rfl

theorem blockLines_partition (org : List String) (ds : List FunctionDef) :
    ∀ c, wfFrom org c ds →
      concatSegments (blockLines org c ds) = sliceList org c (finalCursor c ds) := by
  induction ds with
  | nil =>
    intro c _
    simp [blockLines, concatSegments, finalCursor, sliceList_self]
  | cons d ds ih =>
    intro c hwf
    obtain ⟨hne, hgt, hcle, hpre, hrest⟩ := hwf
    have hlt : d.lineno < endLineOf d := lineno_lt_endLineOf d hne hgt
    have hfc : endLineOf d - 1 ≤ finalCursor (endLineOf d - 1) ds :=
      wf_le_finalCursor org ds _ hrest
    simp only [blockLines, if_neg hpre, concatSegments]
    rw [ih _ hrest]
    have h2 : sliceList org d.lineno (endLineOf d - 1) ++
        sliceList org (endLineOf d - 1) (finalCursor (endLineOf d - 1) ds) =
        sliceList org d.lineno (finalCursor (endLineOf d - 1) ds) :=
      sliceList_append org (by omega) hfc
    rw [h2]
    have h3 : sliceList org c d.lineno ++
        sliceList org d.lineno (finalCursor (endLineOf d - 1) ds) =
        sliceList org c (finalCursor (endLineOf d - 1) ds) :=
      sliceList_append org hcle (by omega)
    rw [h3]
    rfl

/-- The worked two-declaration example: the normalized lines (1-based:
line 1 `import x`, …, line 6 `    return 2`) and the two `FunctionDef`
nodes `ast` reports for it (`f` on line 2 with its `return` on line 4,
`g` on line 5 with its `return` on line 6). -/
def ce1_org : List String :=
  ["import x", "def f():", "    y = 1", "    return y", "def g():", "    return 2"]

def ce1_decls : List FunctionDef :=
  [{ lineno := 2, end_lineno := 4, returnLines := [4] },
   { lineno := 5, end_lineno := 6, returnLines := [6] }]

/-- **C1** (amended).  For an input with well-formed declarations, each
containing at least one return statement and none triggering the
empty-preamble early termination, concatenating all emitted
`preamble`/`body` line slices in emission order reproduces the normalized
input *truncated one line before the last declaration's end boundary*
(lines `1 .. e_N − 1`, where `e_N` is the final `end_line`) — i.e. the
segments are contiguous, non-overlapping and in file order, but the final
governing `return` line and everything after it is never emitted, so the
concatenation does **not** reproduce the input exactly. -/
theorem segmentation_coverage (org : List String) (decls : List FunctionDef)
    (h : wfFrom org 0 decls) :
    concatSegments (blockLines org 0 decls) = sliceList org 0 (finalCursor 0 decls) ∧
    new_lines (concatSegments (blockLines org 0 decls)) =
      new_lines (sliceList org 0 (finalCursor 0 decls)) := by
  have := blockLines_partition org decls 0 h
  exact ⟨this, congrArg new_lines this⟩

/-- **C1** witness: the amended coverage equality evaluated on the worked
two-declaration example. -/
theorem segmentation_coverage_witness :
    wfFrom ce1_org 0 ce1_decls ∧
    concatSegments (blockLines ce1_org 0 ce1_decls) =
      sliceList ce1_org 0 (finalCursor 0 ce1_decls) :=
  ⟨by decide, (segmentation_coverage ce1_org ce1_decls (by decide)).1⟩

/-- **C1** counterexample to the claim as stated: the example input is
well-formed (two declarations, each with a return statement, first
preamble `"import x\ndef f():"` non-empty), yet the concatenation of all
emitted preambles and bodies is `lines 1–5` and omits the final line
`    return 2`, so it does not reproduce the normalized input exactly. -/
theorem segmentation_coverage_counterexample :
    wfFrom ce1_org 0 ce1_decls ∧
    concatSegments (blockLines ce1_org 0 ce1_decls) ≠ ce1_org ∧
    new_lines (concatSegments (blockLines ce1_org 0 ce1_decls)) ≠ new_lines ce1_org := by
  refine ⟨by decide, by decide, by decide⟩

/-! ### The per-declaration boundary rule (spec-side description) -/

/-- The spec's 1-based inclusive line range "lines `a` through `b`" of the
normalized source. -/
def linesFromTo (org : List String) (a b : Nat) : List String :=
  sliceList org (a - 1) b

/-- The segment list as the specification describes it, amended: carrying
the *previous declaration's end boundary* `prevBoundary` (1-based; `1`
before the first declaration), each declaration `d` with start line
`s = d.lineno` and end boundary `e = endLineOf d` emits

* `preamble` = lines `prevBoundary` (the previous end boundary itself,
  **inclusive**) through `s` (inclusive), and
* `body` = lines `s + 1` through `e − 1` (the boundary line itself is
  excluded, and so is the line before it only in the sense that the range
  stops at `e − 1`),

and passes `e` on as the next declaration's previous boundary. -/
def specSegments (org : List String) : Nat → List FunctionDef → List (String × String)
  | _, [] => []
  | prevBoundary, d :: ds =>
    (new_lines (linesFromTo org prevBoundary d.lineno),
     new_lines (linesFromTo org (d.lineno + 1) (endLineOf d - 1)))
      :: specSegments org (endLineOf d) ds

/-- All end boundaries are at least `1` (true of every `ast` node, whose
line numbers are 1-based). -/
def boundariesPos (decls : List FunctionDef) : Prop :=
  ∀ d ∈ decls, 1 ≤ endLineOf d

instance (decls : List FunctionDef) : Decidable (boundariesPos decls) := by
  unfold boundariesPos
  exact List.decidableBAll _ decls

theorem blockLines_eq_specSegments (org : List String) (ds : List FunctionDef) :
    ∀ c, noEmptyPreamble org c ds → boundariesPos ds →
      (blockLines org c ds).map (fun p => (new_lines p.1, new_lines p.2)) =
        specSegments org (c + 1) ds := by
  induction ds with
  | nil => intro c _ _; rfl
  | cons d ds ih =>
    intro c hne hb
    obtain ⟨hpre, hrest⟩ := hne
    have hd : 1 ≤ endLineOf d := hb d (List.mem_cons_self _ _)
    have hb' : boundariesPos ds := fun x hx => hb x (List.mem_cons_of_mem _ hx)
    simp only [blockLines, if_neg hpre, List.map_cons, specSegments]
    have hpre_eq : linesFromTo org (c + 1) d.lineno = sliceList org c d.lineno := by
      unfold linesFromTo
      norm_num
    have hbody_eq : linesFromTo org (d.lineno + 1) (endLineOf d - 1) =
        sliceList org d.lineno (endLineOf d - 1) := by
      unfold linesFromTo
      norm_num
    rw [hpre_eq, hbody_eq, ih _ hrest hb']
    have he : endLineOf d - 1 + 1 = endLineOf d := by omega
    rw [he]

/-- **C3** (amended).  For each declaration node: the start line is the
line of the one-line header (`d.lineno`); the end boundary is the maximum
line number of any return statement nested in it, falling back to the
node's last line when no return exists; the emitted `preamble` is the
lines from the previous declaration's end boundary (**inclusive** — not
exclusive as originally claimed; before the first declaration the range
starts at line 1) through the current start line inclusive; the emitted
`body` is the lines from the line immediately after the start line
through end boundary minus one, excluding the boundary line itself. -/
theorem segment_boundary_rule (org : List String) (decls : List FunctionDef)
    (h₁ : noEmptyPreamble org 0 decls) (h₂ : boundariesPos decls) :
    yield_next_function_block org decls = specSegments org 1 decls ∧
    (∀ d ∈ decls, d.returnLines = [] → endLineOf d = d.end_lineno) ∧
    (∀ d ∈ decls, d.returnLines ≠ [] → (∀ r ∈ d.returnLines, d.lineno < r) →
      endLineOf d ∈ d.returnLines ∧ ∀ r ∈ d.returnLines, r ≤ endLineOf d) := by
  refine ⟨?_, ?_, ?_⟩
  · exact blockLines_eq_specSegments org decls 0 h₁ h₂
  · intro d _ hnil
    exact endLineOf_of_no_returns d hnil
  · intro d _ hne hgt
    exact endLineOf_of_returns d hne hgt

/-- **C3** witness: the amended boundary rule evaluated on the worked
two-declaration example. -/
theorem segment_boundary_rule_witness :
    (noEmptyPreamble ce1_org 0 ce1_decls ∧ boundariesPos ce1_decls) ∧
    yield_next_function_block ce1_org ce1_decls = specSegments ce1_org 1 ce1_decls :=
  ⟨⟨by decide, by decide⟩,
   (segment_boundary_rule ce1_org ce1_decls (by decide) (by decide)).1⟩

/-- **C3** counterexample to the claim as stated: on the worked example
the second emitted preamble is `"    return y\ndef g():"` — it *includes*
the previous declaration's end boundary line (line 4, `    return y`) —
whereas reading "from the previous declaration's end boundary
(exclusive)" predicts lines `e₁ + 1 .. s₂`, i.e. just `"def g():"`. -/
theorem segment_boundary_rule_counterexample :
    (yield_next_function_block ce1_org ce1_decls).get? 1 =
      some ("    return y\ndef g():", "") ∧
    new_lines (linesFromTo ce1_org
      (endLineOf { lineno := 2, end_lineno := 4, returnLines := [4] } + 1) 5) = "def g():" ∧
    ("    return y\ndef g():" : String) ≠ "def g():" := by
  refine ⟨by decide, by decide, by decide⟩

/-- **C4**.  If the computed preamble for some declaration `d` is the
empty string (with all earlier preambles non-empty, so that the generator
actually reaches `d`), the generator stops at `d`: the yielded segments
are exactly those of the earlier declarations, and nothing is yielded for
`d` nor for any later declaration, whatever they are.  With no earlier
declarations (`decls₁ = []`) the generator yields no segments at all. -/
theorem empty_preamble_stops (org : List String) (decls₁ : List FunctionDef)
    (d : FunctionDef) (decls₂ : List FunctionDef)
    (h₁ : noEmptyPreamble org 0 decls₁)
    (h₂ : new_lines (sliceList org (finalCursor 0 decls₁) d.lineno) = "") :
    yield_next_function_block org (decls₁ ++ d :: decls₂) =
      yield_next_function_block org decls₁ ∧
    (decls₁ = [] → yield_next_function_block org (decls₁ ++ d :: decls₂) = []) := by
  have main : ∀ (l₁ : List FunctionDef) (c : Nat), noEmptyPreamble org c l₁ →
      new_lines (sliceList org (finalCursor c l₁) d.lineno) = "" →
      blockLines org c (l₁ ++ d :: decls₂) = blockLines org c l₁ := by
    intro l₁
    induction l₁ with
    | nil =>
      intro c _ h2
      simp only [finalCursor] at h2
      simp only [List.nil_append, blockLines]
      rw [if_pos h2]
    | cons d₁ ds₁ ih =>
      intro c hne h2
      obtain ⟨hpre, hrest⟩ := hne
      simp only [finalCursor] at h2
      simp only [List.cons_append, blockLines, if_neg hpre]
      congr 1
      exact ih _ hrest h2
  constructor
  · unfold yield_next_function_block
    rw [main decls₁ 0 h₁ h₂]
  · intro hnil
    subst hnil
    unfold yield_next_function_block
    rw [main [] 0 trivial h₂]
    rfl

/-- The mid-stream example for **C4**: line 2 of the file is empty, and
the second declaration's computed preamble is exactly that empty line. -/
def ce4_org : List String := ["x", ""]

/-- **C4** witness: with `decls₁ = [⟨1, 2, [2]⟩]` (preamble `"x"`,
cursor advances to 1) and `d = ⟨2, 3, [3]⟩` (preamble = line 2 = `""`),
the generator emits only the first declaration's segment and nothing for
`d` or the later declaration `⟨3, 4, [4]⟩`. -/
theorem empty_preamble_stops_witness :
    (noEmptyPreamble ce4_org 0 [{ lineno := 1, end_lineno := 2, returnLines := [2] }] ∧
      new_lines (sliceList ce4_org
        (finalCursor 0 [{ lineno := 1, end_lineno := 2, returnLines := [2] }])
        (2 : Nat)) = "") ∧
    yield_next_function_block ce4_org
        ([{ lineno := 1, end_lineno := 2, returnLines := [2] }] ++
          { lineno := 2, end_lineno := 3, returnLines := [3] } ::
          [{ lineno := 3, end_lineno := 4, returnLines := [4] }]) =
      yield_next_function_block ce4_org
        [{ lineno := 1, end_lineno := 2, returnLines := [2] }] :=
  ⟨⟨by decide, by decide⟩,
   (empty_preamble_stops ce4_org
      [{ lineno := 1, end_lineno := 2, returnLines := [2] }]
      { lineno := 2, end_lineno := 3, returnLines := [3] }
      [{ lineno := 3, end_lineno := 4, returnLines := [4] }]
      (by decide) (by decide)).1⟩

/-! ## Text utilities used by `minify_to_file`

`textwrap.dedent` and `textwrap.indent(…, '    ')`, translated from the
CPython implementations.  They are implemented on `List Char` (a Lean
`String` is a structure holding its character list), splitting on `'\n'`
(Python's `str.split('\n')` / `str.splitlines(True)`; the sources at hand
only ever feed `'\n'`-separated text through them). -/

def isSpaceTab (c : Char) : Bool := c == ' ' || c == '\t'

/-- Python whitespace as tested by `str.strip()` (ASCII range). -/
def isPyWs (c : Char) : Bool :=
  c == ' ' || c == '\t' || c == '\n' || c == '\r' || c == Char.ofNat 11 || c == Char.ofNat 12

/-- `text.split('\n')`. -/
def splitNL : List Char → List (List Char)
  | [] => [[]]
  | c :: rest =>
    if c = '\n' then [] :: splitNL rest
    else
      match splitNL rest with
      | [] => [[c]]
      | l :: ls => (c :: l) :: ls

/-- `'\n'.join(lines)`. -/
def joinNL : List (List Char) → List Char
  | [] => []
  | [l] => l
  | l :: ls => l ++ '\n' :: joinNL ls

/-- `textwrap.dedent` step 1 (`_whitespace_only_re.sub('', text)`):
lines consisting solely of spaces/tabs become empty. -/
def blankToEmpty (l : List Char) : List Char :=
  if l ≠ [] ∧ l.all isSpaceTab then [] else l

/-- The `[ \t]*` prefix of a line (`_leading_whitespace_re`). -/
def leadingIndent (l : List Char) : List Char :=
  l.takeWhile isSpaceTab

/-- Longest common prefix of two character lists; `textwrap.dedent`'s
margin-update step computes exactly this. -/
def commonPrefixCh : List Char → List Char → List Char
  | a :: as, b :: bs => if a = b then a :: commonPrefixCh as bs else []
  | _, _ => []

/-- The margin of `textwrap.dedent`: fold of the longest-common-prefix
over the indents of all non-blank lines. -/
def dedentMargin (ls : List (List Char)) : List Char :=
  match (ls.filter (fun l => !l.isEmpty)).map leadingIndent with
  | [] => []
  | i :: is => is.foldl commonPrefixCh i

/-- `re.sub(r'(?m)^' + margin, '', text)`, per line. -/
def removeMargin (margin l : List Char) : List Char :=
  if margin.isPrefixOf l then l.drop margin.length else l

/-- `textwrap.dedent`. -/
def dedent (text : String) : String :=
  let ls := (splitNL text.toList).map blankToEmpty
  let margin := dedentMargin ls
  if margin = [] then String.mk (joinNL ls)
  else String.mk (joinNL (ls.map (removeMargin margin)))

/-- `text.splitlines(True)` (keepends), for `'\n'` line endings. -/
def splitLinesKeep : List Char → List (List Char)
  | [] => []
  | c :: rest =>
    if c = '\n' then ['\n'] :: splitLinesKeep rest
    else
      match splitLinesKeep rest with
      | [] => [[c]]
      | l :: ls => (c :: l) :: ls

/-- `line.strip()` is truthy: the line has a non-whitespace character. -/
def lineHasContent (l : List Char) : Bool :=
  l.any (fun c => !isPyWs c)

def concatCh : List (List Char) → List Char
  | [] => []
  | l :: ls => l ++ concatCh ls

/-- `textwrap.indent(text, prefix='    ')`: the default predicate adds
the prefix to every line whose `strip()` is non-empty. -/
def indent4 (text : String) : String :=
  String.mk (concatCh ((splitLinesKeep text.toList).map
    (fun l => if lineHasContent l then ' ' :: ' ' :: ' ' :: ' ' :: l else l)))

/-! ## The transform orchestrator (`minify_to_file`)

The minifier `mini` (the `python_minifier.minify` call with the fixed
configuration) and the regex engine `reMatch` (the anchored, DOTALL,
IGNORECASE `re.match` used on whitelist expressions) are external
collaborators, passed in as functions.  `mini` returns the minified text
or the message of the `IndentationError` it raised. -/

/-- The error state when `mini(block_dedent)` raises `IndentationError`:
the loop prints the offending dedented block plus a hint and exits with
status 1 (`raise SystemExit(1)`). -/
structure BlockError where
  block : String
  emsg : String
deriving DecidableEq, Repr

def HINT : String := "HINT: Ensure functions explicitly returns, e.g. return None"

/-- The fixed closing trailer written after all segments. -/
def TRAILER : String := "    return\n\n\nif __name__ == \"__main__\":\n    app.run()\n"

/-- Python `f"{msg:=^240}"`: center `msg` in a field of 240 `'='`s (the
extra pad character, if any, goes to the right). -/
def center240 (s : String) : String :=
  if 240 ≤ s.length then s
  else
    String.mk (List.replicate ((240 - s.length) / 2) '=') ++ s ++
      String.mk (List.replicate (240 - s.length - (240 - s.length) / 2) '=')

/-- The diagnostic printed on an `IndentationError`: the centered error
line, the offending dedented block, and the hint. -/
def printed_diagnostic (e : BlockError) : String :=
  center240 ("Error within this block: " ++ e.emsg) ++ "\n" ++ e.block ++ "\n" ++ HINT ++ "\n"

/-- The whitelist scan of `minify_to_file`: the first expression in the
supplied order whose `re.match` against the dedented block succeeds
(`for expr in whitelist_expression: … break` / `else:`). -/
def whitelisted (reMatch : String → String → Bool) (rules : List String)
    (block_dedent : String) : Option String :=
  rules.find? (fun expr => reMatch expr block_dedent)

/-- Processing of one yielded block by the `minify_to_file` loop body:
with no whitelist configured (`whitelist_expression is None`) the block is
left untouched; otherwise it is dedented, the whitelist is scanned, a
match leaves the block untouched, and no match minifies the dedented
block and re-indents the result by four spaces.  An `IndentationError`
from the minifier aborts with the offending dedented block. -/
def process_block (mini : String → Except String String)
    (reMatch : String → String → Bool) (whitelist_expression : Option (List String))
    (in_func : String) : Except BlockError String :=
  match whitelist_expression with
  | none => .ok in_func
  | some rules =>
    match whitelisted reMatch rules (dedent in_func) with
    | some _ => .ok in_func
    | none =>
      match mini (dedent in_func) with
      | .error e => .error { block := dedent in_func, emsg := e }
      | .ok mini_dedent => .ok (indent4 mini_dedent)

theorem process_block_some (mini : String → Except String String)
    (reMatch : String → String → Bool) (rules : List String) (in_func : String) :
    process_block mini reMatch (some rules) in_func =
      match whitelisted reMatch rules (dedent in_func) with
      | some _ => Except.ok in_func
      | none =>
        match mini (dedent in_func) with
        | Except.error e => Except.error { block := dedent in_func, emsg := e }
        | Except.ok mini_dedent => Except.ok (indent4 mini_dedent) := rfl

/-- The write loop of `minify_to_file` over the yielded
`(before_func, in_func)` pairs: returns the text written to the output
file and the error, if any, that aborted the loop.  Each iteration first
processes the block (where the abort can happen), then writes
`'\n' + before_func` and `'\n' + output_code_block`. -/
def write_segments (mini : String → Except String String)
    (reMatch : String → String → Bool) (wl : Option (List String)) :
    List (String × String) → String × Option BlockError
  | [] => ("", none)
  | (before_func, in_func) :: rest =>
    match process_block mini reMatch wl in_func with
    | .error e => ("", some e)
    | .ok out =>
      let r := write_segments mini reMatch wl rest
      ("\n" ++ before_func ++ "\n" ++ out ++ r.1, r.2)

/-- The full output of `minify_to_file`: the flushed text and the abort
error if any.  On success the fixed trailer is appended once, after all
segments; on abort nothing further is written. -/
def minify_output (mini : String → Except String String)
    (reMatch : String → String → Bool) (wl : Option (List String))
    (segs : List (String × String)) : String × Option BlockError :=
  match write_segments mini reMatch wl segs with
  | (t, some e) => (t, some e)
  | (t, none) => (t ++ TRAILER, none)

/-- The process exit status: `raise SystemExit(1)` on an
`IndentationError`, normal completion (status 0) otherwise. -/
def exit_code (r : String × Option BlockError) : Nat :=
  match r.2 with
  | some _ => 1
  | none => 0

/-! ### Whitelist filtering and the `None` default -/

theorem find?_first {α : Type} (p : α → Bool) :
    ∀ (l : List α) (a : α), l.find? p = some a →
      ∃ l₁ l₂, l = l₁ ++ a :: l₂ ∧ (∀ x ∈ l₁, p x = false) ∧ p a = true := by
  intro l
  induction l with
  | nil => intro a h; cases h
  | cons x xs ih =>
    intro a h
    by_cases hx : p x = true
    · rw [List.find?_cons_of_pos _ hx] at h
      obtain rfl : x = a := by injection h
      exact ⟨[], xs, rfl, (by intro y hy; cases hy), hx⟩
    · have hx' : p x = false := by
        cases hpx : p x
        · rfl
        · exact absurd hpx hx
      rw [List.find?_cons_of_neg _ hx] at h
      obtain ⟨l₁, l₂, hl, hall, hpa⟩ := ih a h
      exact ⟨x :: l₁, l₂, by rw [hl]; rfl,
        by intro y hy
           rcases List.mem_cons.mp hy with rfl | hy'
           · exact hx'
           · exact hall y hy', hpa⟩

/-- Stub minifier that maps every block to the fixed text `"MINIFIED"`. -/
def miniConst : String → Except String String := fun _ => Except.ok "MINIFIED"

/-- Stub regex engine under which no expression matches anything. -/
def reMatchNone : String → String → Bool := fun _ _ => false

/-- Stub minifier raising `IndentationError` exactly on the block
`"bad"`. -/
def miniFailOnBad : String → Except String String := fun s =>
  if s = "bad" then Except.error "expected an indented block" else Except.ok s

/-- **C2** (code bug).  With `whitelist_expression = None` — the CLI
default, documented as "If `None`, no expressions are whitelisted" —
`minify_to_file` never enters the whitelist/minify branch at all: every
block is written verbatim and the minifier is never invoked, for *any*
minifier and regex engine.  With an *empty* whitelist (`some []`) the
block *is* dedented, minified and re-indented, as the claim expects for
the "no rules configured" case.  The two concrete evaluations exhibit
the divergence. -/
theorem whitelist_none_writes_verbatim :
    (∀ (mini : String → Except String String) (reM : String → String → Bool) (b : String),
      process_block mini reM none b = Except.ok b) ∧
    process_block miniConst reMatchNone none "    x = 1\n    return (x)" =
      Except.ok "    x = 1\n    return (x)" ∧
    process_block miniConst reMatchNone (some []) "    x = 1\n    return (x)" =
      Except.ok "    MINIFIED" := by
  refine ⟨fun _ _ _ => rfl, by decide, by decide⟩

/-- **C6**.  The exempt/transform decision for a block: the block is
dedented once, the supplied expressions are tried in order against the
dedented block (the matcher being the anchored multiline case-insensitive
`re.match` collaborator), the first success exempts the block and stops
the scan, absence of any match selects the transform path, and the
decision is a deterministic function of the rule list and dedented body
alone. -/
theorem whitelist_first_match_decides (mini : String → Except String String)
    (reM : String → String → Bool) (rules : List String) (body : String) :
    (∀ r, whitelisted reM rules (dedent body) = some r →
      ∃ pre post, rules = pre ++ r :: post ∧
        (∀ r' ∈ pre, reM r' (dedent body) = false) ∧
        reM r (dedent body) = true ∧
        process_block mini reM (some rules) body = Except.ok body) ∧
    (whitelisted reM rules (dedent body) = none →
      (∀ r ∈ rules, reM r (dedent body) = false) ∧
      process_block mini reM (some rules) body =
        (match mini (dedent body) with
          | Except.error e => Except.error { block := dedent body, emsg := e }
          | Except.ok m => Except.ok (indent4 m))) ∧
    (∀ body', dedent body' = dedent body →
      whitelisted reM rules (dedent body') = whitelisted reM rules (dedent body)) := by
  refine ⟨?_, ?_, ?_⟩
  · intro r hr
    obtain ⟨pre, post, hl, hall, hp⟩ := find?_first _ rules r hr
    refine ⟨pre, post, hl, hall, hp, ?_⟩
    rw [process_block_some, hr]
  · intro hn
    constructor
    · intro r hr
      have := List.find?_eq_none.mp hn r hr
      simpa using this
    · rw [process_block_some, hn]
  · intro body' h
    rw [h]

/-- **C6** witness: with rules `["a", "b", "c"]` and a matcher that
accepts exactly the expressions `"b"` and `"c"`, the scan on the block
`"  x"` (dedented to `"x"`) stops at `"b"`, skipping only `"a"`. -/
theorem whitelist_first_match_decides_witness :
    whitelisted (fun e _ => e == "b" || e == "c") ["a", "b", "c"] (dedent "  x") = some "b" ∧
    ∃ pre post, (["a", "b", "c"] : List String) = pre ++ "b" :: post ∧
      (∀ r' ∈ pre, (fun (e : String) (_ : String) => e == "b" || e == "c") r' (dedent "  x") = false) ∧
      (fun (e : String) (_ : String) => e == "b" || e == "c") "b" (dedent "  x") = true ∧
      process_block miniConst (fun e _ => e == "b" || e == "c") (some ["a", "b", "c"]) "  x" =
        Except.ok "  x" :=
  ⟨by decide,
   ((whitelist_first_match_decides miniConst (fun e _ => e == "b" || e == "c")
      ["a", "b", "c"] "  x").1 "b" (by decide))⟩

/-! ### The trailer and the abort path -/

/-- **C7**.  For every run that completes (the write loop reports no
abort), the output of `minify_to_file` is exactly the per-segment writes
followed by one copy of the fixed closing trailer (the closing `return`
line and the `if __name__ == "__main__": app.run()` stanza) — whatever
the number of segments, zero, one or many. -/
theorem trailer_appended_once (mini : String → Except String String)
    (reM : String → String → Bool) (wl : Option (List String))
    (segs : List (String × String))
    (h : (write_segments mini reM wl segs).2 = none) :
    (minify_output mini reM wl segs).1 = (write_segments mini reM wl segs).1 ++ TRAILER := by
  unfold minify_output
  cases hw : write_segments mini reM wl segs with
  | mk t err =>
    cases err with
    | some e => rw [hw] at h; cases h
    | none => simp

/-- **C7** witness: a one-segment run with no whitelist completes, and
its output is the segment writes followed by the trailer; the
zero-segment run's output is the trailer alone. -/
theorem trailer_appended_once_witness :
    ((write_segments miniConst reMatchNone none [("# top", "    x = 1")]).2 = none ∧
      (minify_output miniConst reMatchNone none [("# top", "    x = 1")]).1 =
        (write_segments miniConst reMatchNone none [("# top", "    x = 1")]).1 ++ TRAILER) ∧
    (minify_output miniConst reMatchNone none []).1 = "" ++ TRAILER :=
  ⟨⟨by decide,
    trailer_appended_once miniConst reMatchNone none [("# top", "    x = 1")] (by decide)⟩,
   trailer_appended_once miniConst reMatchNone none [] (by decide)⟩

theorem write_segments_append_error (mini : String → Except String String)
    (reM : String → String → Bool) (wl : Option (List String))
    (bef b : String) (segs₂ : List (String × String)) (e : BlockError)
    (hpb : process_block mini reM wl b = Except.error e) :
    ∀ segs₁, (write_segments mini reM wl segs₁).2 = none →
      write_segments mini reM wl (segs₁ ++ (bef, b) :: segs₂) =
        ((write_segments mini reM wl segs₁).1, some e) := by
  intro segs₁
  induction segs₁ with
  | nil =>
    intro _
    simp only [List.nil_append, write_segments, hpb]
  | cons s rest ih =>
    intro h1
    obtain ⟨bf, inf⟩ := s
    cases hp : process_block mini reM wl inf with
    | error e' =>
      simp only [write_segments, hp] at h1
      exact Option.noConfusion h1
    | ok out =>
      simp only [List.cons_append, write_segments, hp, List.append_eq] at h1 ⊢
      rw [ih h1]

/-- **C8**.  If the minifier raises a structural (`IndentationError`)
error on some block, the whole run aborts there: the flushed output is
exactly the writes of the earlier, successful segments (the failing
segment and everything after it are never written), the trailer is not
appended, the error carries the offending *dedented* block, the printed
diagnostic shows that block together with the missing-`return` hint, and
the process exits with status 1.  A run in which no block fails exits
with status 0. -/
theorem structural_error_aborts (mini : String → Except String String)
    (reM : String → String → Bool) (wl : Option (List String))
    (segs₁ : List (String × String)) (bef b : String)
    (segs₂ : List (String × String)) (e : BlockError)
    (h₁ : (write_segments mini reM wl segs₁).2 = none)
    (h₂ : process_block mini reM wl b = Except.error e) :
    minify_output mini reM wl (segs₁ ++ (bef, b) :: segs₂) =
      ((write_segments mini reM wl segs₁).1, some e) ∧
    exit_code (minify_output mini reM wl (segs₁ ++ (bef, b) :: segs₂)) = 1 ∧
    (∃ m, mini (dedent b) = Except.error m ∧ e = { block := dedent b, emsg := m }) ∧
    (∃ s₁ s₂, printed_diagnostic e = s₁ ++ (e.block ++ ("\n" ++ (HINT ++ s₂)))) ∧
    (∀ segs, (write_segments mini reM wl segs).2 = none →
      exit_code (minify_output mini reM wl segs) = 0) := by
  have hw := write_segments_append_error mini reM wl bef b segs₂ e h₂ segs₁ h₁
  refine ⟨?_, ?_, ?_, ?_, ?_⟩
  · unfold minify_output
    rw [hw]
  · unfold exit_code minify_output
    rw [hw]
  · cases hm : mini (dedent b) with
    | error m =>
      refine ⟨m, rfl, ?_⟩
      cases wl with
      | none => simp [process_block] at h₂
      | some rules =>
        cases hfind : whitelisted reM rules (dedent b) with
        | some r => simp [process_block, hfind] at h₂
        | none =>
          simp [process_block, hfind, hm] at h₂
          exact h₂.symm
    | ok o =>
      exfalso
      cases wl with
      | none => simp [process_block] at h₂
      | some rules =>
        cases hfind : whitelisted reM rules (dedent b) with
        | some r => simp [process_block, hfind] at h₂
        | none => simp [process_block, hfind, hm] at h₂
  · refine ⟨center240 ("Error within this block: " ++ e.emsg) ++ "\n", "\n", ?_⟩
    simp [printed_diagnostic, String.append_assoc]
  · intro segs hs
    unfold exit_code minify_output
    cases hws : write_segments mini reM wl segs with
    | mk t err =>
      cases err with
      | some e' => rw [hws] at hs; cases hs
      | none => simp

/-- **C8** witness: with the empty whitelist and a minifier that fails
exactly on the dedented block `"bad"`, the three-segment run flushes only
the first segment's writes, reports the error on `"bad"`, and exits 1;
the run over just the first segment exits 0. -/
theorem structural_error_aborts_witness :
    ((write_segments miniFailOnBad reMatchNone (some []) [("p1", "    x = 1")]).2 = none ∧
      process_block miniFailOnBad reMatchNone (some []) "bad" =
        Except.error { block := "bad", emsg := "expected an indented block" }) ∧
    minify_output miniFailOnBad reMatchNone (some [])
        ([("p1", "    x = 1")] ++ ("p2", "bad") :: [("p3", "    y = 2")]) =
      ((write_segments miniFailOnBad reMatchNone (some []) [("p1", "    x = 1")]).1,
        some { block := "bad", emsg := "expected an indented block" }) ∧
    exit_code (minify_output miniFailOnBad reMatchNone (some [])
        ([("p1", "    x = 1")] ++ ("p2", "bad") :: [("p3", "    y = 2")])) = 1 :=
  ⟨⟨by decide, by decide⟩,
   (structural_error_aborts miniFailOnBad reMatchNone (some [])
      [("p1", "    x = 1")] "p2" "bad" [("p3", "    y = 2")]
      { block := "bad", emsg := "expected an indented block" }
      (by decide) (by decide)).1,
   (structural_error_aborts miniFailOnBad reMatchNone (some [])
      [("p1", "    x = 1")] "p2" "bad" [("p3", "    y = 2")]
      { block := "bad", emsg := "expected an indented block" }
      (by decide) (by decide)).2.1⟩

/-! ## Process teardown (`kill_process_id`, `web.py`)

`os.kill` is an external collaborator; each call is modelled by its
outcome: success, `ProcessLookupError`, or `PermissionError`.  The
initial `SIGTERM`, the sequence of `os.kill(pid, 0)` existence checks the
polling loop performs before its deadline, and the final `SIGKILL` are
the function's three interaction points. -/

inductive SigResult where
  | ok
  | noSuchProcess
  | permissionDenied
deriving DecidableEq, Repr

inductive KillError where
  | valueError (msg : String)
  | permission (msg : String)
deriving DecidableEq, Repr

/-- The `while time.time() < deadline` polling loop: each `os.kill(pid, 0)`
outcome either continues the loop (success: the process still exists,
sleep and re-check), returns (already exited), or raises (permission).
`none` means the deadline passed with the process still alive. -/
def poll_wait (pid : Int) : List SigResult → Option (Except KillError Unit)
  | [] => none
  | SigResult.ok :: rest => poll_wait pid rest
  | SigResult.noSuchProcess :: _ => some (Except.ok ())
  | SigResult.permissionDenied :: _ =>
    some (Except.error (KillError.permission s!"No permission to check/terminate pid={pid}"))

/-- `kill_process_id(pid)`: `ValueError` on a non-positive pid; graceful
`SIGTERM` (exit on `ProcessLookupError`, raise on `PermissionError`);
poll until the deadline; then forced `SIGKILL` with the same two special
cases. -/
def kill_process_id (pid : Int) (term : SigResult) (polls : List SigResult)
    (kill9 : SigResult) : Except KillError Unit :=
  if pid ≤ 0 then Except.error (KillError.valueError "pid must be a positive integer")
  else
    match term with
    | SigResult.noSuchProcess => Except.ok ()
    | SigResult.permissionDenied =>
      Except.error (KillError.permission s!"No permission to terminate pid={pid}")
    | SigResult.ok =>
      match poll_wait pid polls with
      | some r => r
      | none =>
        match kill9 with
        | SigResult.ok => Except.ok ()
        | SigResult.noSuchProcess => Except.ok ()
        | SigResult.permissionDenied =>
          Except.error (KillError.permission s!"No permission to force-kill pid={pid}")

theorem poll_wait_skip_oks (pid : Int) (oks : List SigResult)
    (hoks : ∀ x ∈ oks, x = SigResult.ok) (tail : List SigResult) :
    poll_wait pid (oks ++ tail) = poll_wait pid tail := by
  induction oks with
  | nil => rfl
  | cons x rest ih =>
    have hx : x = SigResult.ok := hoks x (List.mem_cons_self _ _)
    subst hx
    simp only [List.cons_append, poll_wait]
    exact ih (fun y hy => hoks y (List.mem_cons_of_mem _ hy))

theorem poll_wait_all_ok (pid : Int) (polls : List SigResult)
    (h : ∀ x ∈ polls, x = SigResult.ok) : poll_wait pid polls = none := by
  have := poll_wait_skip_oks pid polls h []
  simpa using this

/-- **C9**.  Teardown is idempotent and distinguishes its errors: for any
positive pid, a process found already gone — at the initial `SIGTERM`, at
any existence check of the polling loop (after any number of
still-alive checks), or at the forced `SIGKILL` — makes
`kill_process_id` return normally (success); a `PermissionError` at the
initial signal, at an existence check, or at the forced kill is re-raised
as a distinct permission error (never swallowed). -/
theorem kill_process_id_teardown (pid : Int) (hpid : 0 < pid)
    (term kill9 : SigResult) (polls : List SigResult) :
    (term = SigResult.noSuchProcess → kill_process_id pid term polls kill9 = Except.ok ()) ∧
    (∀ oks rest, polls = oks ++ SigResult.noSuchProcess :: rest →
      (∀ x ∈ oks, x = SigResult.ok) → term = SigResult.ok →
      kill_process_id pid term polls kill9 = Except.ok ()) ∧
    ((∀ x ∈ polls, x = SigResult.ok) → term = SigResult.ok →
      kill9 = SigResult.noSuchProcess →
      kill_process_id pid term polls kill9 = Except.ok ()) ∧
    (term = SigResult.permissionDenied →
      kill_process_id pid term polls kill9 =
        Except.error (KillError.permission s!"No permission to terminate pid={pid}")) ∧
    (∀ oks rest, polls = oks ++ SigResult.permissionDenied :: rest →
      (∀ x ∈ oks, x = SigResult.ok) → term = SigResult.ok →
      kill_process_id pid term polls kill9 =
        Except.error (KillError.permission s!"No permission to check/terminate pid={pid}")) ∧
    ((∀ x ∈ polls, x = SigResult.ok) → term = SigResult.ok →
      kill9 = SigResult.permissionDenied →
      kill_process_id pid term polls kill9 =
        Except.error (KillError.permission s!"No permission to force-kill pid={pid}")) := by
  have hnle : ¬ pid ≤ 0 := by omega
  refine ⟨?_, ?_, ?_, ?_, ?_, ?_⟩
  · intro ht
    subst ht
    simp only [kill_process_id, if_neg hnle]
  · intro oks rest hp hoks ht
    subst ht
    subst hp
    simp only [kill_process_id, if_neg hnle, poll_wait_skip_oks pid oks hoks, poll_wait]
  · intro hall ht h9
    subst ht
    subst h9
    simp only [kill_process_id, if_neg hnle, poll_wait_all_ok pid polls hall]
  · intro ht
    subst ht
    simp only [kill_process_id, if_neg hnle]
  · intro oks rest hp hoks ht
    subst ht
    subst hp
    simp only [kill_process_id, if_neg hnle, poll_wait_skip_oks pid oks hoks, poll_wait]
  · intro hall ht h9
    subst ht
    subst h9
    simp only [kill_process_id, if_neg hnle, poll_wait_all_ok pid polls hall]

/-- **C9** witness: pid 5, a successful `SIGTERM`, one still-alive check
followed by a `ProcessLookupError` check — the teardown reports
success. -/
theorem kill_process_id_teardown_witness :
    (0 : Int) < 5 ∧
    kill_process_id 5 SigResult.ok [SigResult.ok, SigResult.noSuchProcess] SigResult.ok =
      Except.ok () :=
  ⟨by decide,
   (kill_process_id_teardown 5 (by decide) SigResult.ok SigResult.ok
      [SigResult.ok, SigResult.noSuchProcess]).2.1
     [SigResult.ok] [] (by decide) (by decide) (by decide)⟩

/-! ## The read-only share URL (`make_marimo_url_read_only`, `web.py`)

`code = org_url.split('#code/')[-1]`: the text after the last occurrence
of `'#code/'`, or the whole string when the delimiter does not occur.
Implemented by repeatedly discarding everything up to and including the
leftmost occurrence, exactly as Python's left-to-right non-overlapping
`str.split` does. -/

def codeDelim : List Char := ['#', 'c', 'o', 'd', 'e', '/']

/-- The text after the leftmost occurrence of `'#code/'`, if any. -/
def splitAfterFirst (l : List Char) : Option (List Char) :=
  if codeDelim.isPrefixOf l then some (l.drop codeDelim.length)
  else
    match l with
    | [] => none
    | _ :: rest => splitAfterFirst rest

theorem splitAfterFirst_length : ∀ (l r : List Char), splitAfterFirst l = some r →
    r.length < l.length := by
  intro l
  induction l with
  | nil =>
    intro r h
    simp [splitAfterFirst, List.isPrefixOf, codeDelim] at h
  | cons c rest ih =>
    intro r h
    unfold splitAfterFirst at h
    by_cases hp : codeDelim.isPrefixOf (c :: rest)
    · rw [if_pos hp] at h
      injection h with h'
      have hlen : codeDelim.length ≤ (c :: rest).length :=
        (List.isPrefixOf_iff_prefix.mp hp).length_le
      rw [← h']
      simp only [List.length_drop]
      simp [codeDelim] at hlen ⊢
      omega
    · rw [if_neg hp] at h
      exact Nat.lt_trans (ih r h) (by simp)

def afterLastCode (l : List Char) : List Char :=
  match heq : splitAfterFirst l with
  | none => l
  | some rest => afterLastCode rest
termination_by l.length
decreasing_by exact splitAfterFirst_length l rest heq

/-- Does `'#code/'` occur in the text? -/
def occursCode (l : List Char) : Bool := (splitAfterFirst l).isSome

theorem splitAfterFirst_none_no_occurrence : ∀ (l : List Char),
    splitAfterFirst l = none → ¬ ∃ a b, l = a ++ codeDelim ++ b := by
  intro l
  induction l with
  | nil =>
    intro _ hex
    obtain ⟨a, b, hab⟩ := hex
    have := congrArg List.length hab
    simp [codeDelim] at this
    omega
  | cons c rest ih =>
    intro h hex
    unfold splitAfterFirst at h
    by_cases hp : codeDelim.isPrefixOf (c :: rest)
    · rw [if_pos hp] at h
      cases h
    · rw [if_neg hp] at h
      obtain ⟨a, b, hab⟩ := hex
      cases a with
      | nil =>
        apply hp
        rw [List.isPrefixOf_iff_prefix]
        exact ⟨b, by simpa using hab.symm⟩
      | cons a0 asx =>
        apply ih h
        refine ⟨asx, b, ?_⟩
        simpa using congrArg List.tail hab

theorem splitAfterFirst_some_decomp : ∀ (l r : List Char),
    splitAfterFirst l = some r → ∃ a, l = a ++ codeDelim ++ r := by
  intro l
  induction l with
  | nil =>
    intro r h
    simp [splitAfterFirst, List.isPrefixOf, codeDelim] at h
  | cons c rest ih =>
    intro r h
    unfold splitAfterFirst at h
    by_cases hp : codeDelim.isPrefixOf (c :: rest)
    · rw [if_pos hp] at h
      injection h with h'
      obtain ⟨t, ht⟩ := List.isPrefixOf_iff_prefix.mp hp
      refine ⟨[], ?_⟩
      have hdrop : (c :: rest).drop codeDelim.length = t := by
        rw [← ht]
        simp
      rw [← h', hdrop]
      simpa using ht.symm
    · rw [if_neg hp] at h
      obtain ⟨a, ha⟩ := ih r h
      exact ⟨c :: a, by rw [List.cons_append, List.cons_append, ← ha]⟩

theorem occursCode_iff (l : List Char) :
    occursCode l = true ↔ ∃ a b, l = a ++ codeDelim ++ b := by
  constructor
  · intro h
    unfold occursCode at h
    cases hs : splitAfterFirst l with
    | none => rw [hs] at h; cases h
    | some r =>
      obtain ⟨a, ha⟩ := splitAfterFirst_some_decomp l r hs
      exact ⟨a, r, ha⟩
  · intro hex
    unfold occursCode
    cases hs : splitAfterFirst l with
    | none => exact absurd hex (splitAfterFirst_none_no_occurrence l hs)
    | some r => rfl

theorem afterLastCode_of_none (l : List Char) (h : splitAfterFirst l = none) :
    afterLastCode l = l := by
  unfold afterLastCode
  rw [h]

theorem afterLastCode_of_some (l r : List Char) (h : splitAfterFirst l = some r) :
    afterLastCode l = afterLastCode r := by
  conv_lhs => rw [afterLastCode.eq_def]
  rw [h]

theorem afterLastCode_spec : ∀ (n : Nat) (l : List Char), l.length ≤ n →
    occursCode (afterLastCode l) = false ∧
    (occursCode l = true → ∃ a, l = a ++ codeDelim ++ afterLastCode l) := by
  intro n
  induction n with
  | zero =>
    intro l hl
    have : l = [] := List.length_eq_zero.mp (Nat.le_zero.mp hl)
    subst this
    constructor
    · rw [afterLastCode_of_none [] (by decide)]
      decide
    · intro h
      rw [show occursCode [] = false from by decide] at h
      cases h
  | succ m ih =>
    intro l hl
    cases hs : splitAfterFirst l with
    | none =>
      rw [afterLastCode_of_none l hs]
      constructor
      · unfold occursCode
        rw [hs]
        rfl
      · intro h
        unfold occursCode at h
        rw [hs] at h
        cases h
    | some r =>
      have hrec : afterLastCode l = afterLastCode r := afterLastCode_of_some l r hs
      have hlen : r.length ≤ m := by
        have := splitAfterFirst_length l r hs
        omega
      obtain ⟨hterm, hocc⟩ := ih r hlen
      obtain ⟨a, ha⟩ := splitAfterFirst_some_decomp l r hs
      rw [hrec]
      refine ⟨hterm, fun _ => ?_⟩
      cases hr : occursCode r with
      | false =>
        have hnone : splitAfterFirst r = none := by
          unfold occursCode at hr
          cases hsr : splitAfterFirst r with
          | none => rfl
          | some _ => rw [hsr] at hr; cases hr
        rw [afterLastCode_of_none r hnone]
        exact ⟨a, ha⟩
      | true =>
        obtain ⟨a', ha'⟩ := hocc hr
        refine ⟨a ++ codeDelim ++ a', ?_⟩
        calc l = a ++ codeDelim ++ r := ha
          _ = a ++ codeDelim ++ (a' ++ codeDelim ++ afterLastCode r) := by rw [← ha']
          _ = a ++ codeDelim ++ a' ++ codeDelim ++ afterLastCode r := by
              simp [List.append_assoc]

/-- `prefix_url` from `make_marimo_url_read_only`. -/
def prefix_url : String :=
  "https://marimo.app?mode=read&embed=true&include-code=false&show-chrome=false&code="

/-- `make_marimo_url_read_only(org_url)`:
`prefix_url + org_url.split('#code/')[-1]`. -/
def make_marimo_url_read_only (org_url : String) : String :=
  prefix_url ++ String.mk (afterLastCode org_url.toList)

/-- **C10**.  `make_marimo_url_read_only` returns the fixed read-only
base URL followed by the payload, where the payload is the text after
the last occurrence of `'#code/'` (no occurrence of the delimiter
remains in it) when the delimiter occurs, and the whole input string
when it does not (no error in either case). -/
theorem make_marimo_url_read_only_spec (org_url : String) :
    make_marimo_url_read_only org_url =
      prefix_url ++ String.mk (afterLastCode org_url.toList) ∧
    (occursCode org_url.toList = false → afterLastCode org_url.toList = org_url.toList) ∧
    (occursCode org_url.toList = true →
      ∃ a, org_url.toList = a ++ codeDelim ++ afterLastCode org_url.toList ∧
        occursCode (afterLastCode org_url.toList) = false) ∧
    (occursCode org_url.toList = true ↔ ∃ a b, org_url.toList = a ++ codeDelim ++ b) := by
  obtain ⟨hterm, hocc⟩ := afterLastCode_spec org_url.toList.length org_url.toList (Nat.le_refl _)
  refine ⟨rfl, ?_, ?_, occursCode_iff _⟩
  · intro h
    apply afterLastCode_of_none
    unfold occursCode at h
    cases hs : splitAfterFirst org_url.toList with
    | none => rfl
    | some v =>
      rw [hs] at h
      cases h
  · intro h
    obtain ⟨a, ha⟩ := hocc h
    exact ⟨a, ha, hterm⟩

/-- **C10** witness: on `"https://x#code/abc"` the delimiter occurs and
the payload is what follows its last occurrence; on `"plain"` it does
not occur and the whole input is the payload. -/
theorem make_marimo_url_read_only_spec_witness :
    (occursCode ("https://x#code/abc" : String).toList = true ∧
      (∃ a, ("https://x#code/abc" : String).toList =
          a ++ codeDelim ++ afterLastCode ("https://x#code/abc" : String).toList ∧
        occursCode (afterLastCode ("https://x#code/abc" : String).toList) = false)) ∧
    (occursCode ("plain" : String).toList = false ∧
      afterLastCode ("plain" : String).toList = ("plain" : String).toList) :=
  ⟨⟨by decide, (make_marimo_url_read_only_spec "https://x#code/abc").2.2.1 (by decide)⟩,
   ⟨by decide, (make_marimo_url_read_only_spec "plain").2.1 (by decide)⟩⟩

/-! ## The Line-Joiner (`format_return_statements_to_single_line` /
`format_function_declarations_to_single_line`)

Both functions are `re.sub` passes over the raw text.  We embed the exact
scanning semantics of the two patterns (both anchored at line starts via
`re.MULTILINE`; matching is over the ASCII character classes `\s` =
`[ \t\n\r\x0b\x0c]` and `\w` = `[A-Za-z0-9_]`):

* `^\s*return\s*\([\s\S]*?\)` — leading whitespace run, the literal
  `return`, a whitespace run, `(`, then lazily up to the first `)`;
* `^(\s*def\s+\w+\s*\()([^\)]*?)(\):)` — leading whitespace run, the
  literal `def`, a non-empty whitespace run, a non-empty word, a
  whitespace run, `(`, then up to the first `)`, which must be followed
  by `:`.

Greedy `\s*`/`\s+`/`\w+` followed by a literal of a different character
class admit exactly one parse (the maximal run), and the lazy
`[\s\S]*?`/`[^\)]*?` stop at the first `)`, so each pattern is decided by
the deterministic scanners below.  `re.sub` scans left to right,
replacing non-overlapping matches and resuming right after each one
(never at a line start, as both replacements end with `)` or `:`). -/

def isWordChar (c : Char) : Bool :=
  ('a' ≤ c && c ≤ 'z') || ('A' ≤ c && c ≤ 'Z') || ('0' ≤ c && c ≤ '9') || c == '_'

/-- The literal `return`. -/
def RET : List Char := ['r', 'e', 't', 'u', 'r', 'n']

/-- The literal `def`. -/
def DEFKW : List Char := ['d', 'e', 'f']

/-- Split at the first `)`: `some (before, after)` with the `)` itself
consumed (the lazy `[\s\S]*?\)` / `[^\)]*?\)`). -/
def breakAtParen : List Char → Option (List Char × List Char)
  | [] => none
  | c :: t =>
    if c = ')' then some ([], t)
    else (breakAtParen t).map (fun p => (c :: p.1, p.2))

theorem breakAtParen_some (l : List Char) :
    ∀ ins aft, breakAtParen l = some (ins, aft) →
      l = ins ++ ')' :: aft ∧ ')' ∉ ins := by
  induction l with
  | nil => intro ins aft h; cases h
  | cons c t ih =>
    intro ins aft h
    by_cases hc : c = ')'
    · subst hc
      have heq : (([], t) : List Char × List Char) = (ins, aft) := by
        have hred : breakAtParen (')' :: t) = some ([], t) := by
          simp [breakAtParen]
        rw [hred] at h
        exact Option.some.inj h
      obtain ⟨h1, h2⟩ := Prod.mk.inj heq
      rw [← h1, ← h2]
      simp
    · simp only [breakAtParen, if_neg hc] at h
      cases hb : breakAtParen t with
      | none => rw [hb] at h; cases h
      | some p =>
        rw [hb] at h
        have h' : (c :: p.1, p.2) = (ins, aft) := Option.some.inj h
        obtain ⟨h1, h2⟩ := Prod.mk.inj h'
        obtain ⟨hp1, hp2⟩ := ih p.1 p.2 hb
        subst h2
        rw [← h1]
        constructor
        · rw [List.cons_append, ← hp1]
        · simp only [List.mem_cons]
          rintro (hh | hh)
          · exact hc hh.symm
          · exact hp2 hh

theorem breakAtParen_isSome_of_mem : ∀ (l : List Char), ')' ∈ l → (breakAtParen l).isSome := by
  intro l
  induction l with
  | nil => intro h; cases h
  | cons c t ih =>
    intro h
    by_cases hc : c = ')'
    · subst hc; simp [breakAtParen]
    · simp only [breakAtParen, if_neg hc]
      rcases List.mem_cons.mp h with he | hm
      · exact absurd he.symm hc
      · have hs := ih hm
        cases hb : breakAtParen t with
        | none => rw [hb] at hs; cases hs
        | some p => rfl

theorem breakAtParen_none_iff (l : List Char) :
    breakAtParen l = none ↔ ')' ∉ l := by
  constructor
  · intro h hm
    have hs := breakAtParen_isSome_of_mem l hm
    rw [h] at hs; cases hs
  · intro h
    cases hb : breakAtParen l with
    | none => rfl
    | some p =>
      obtain ⟨hd, _⟩ := breakAtParen_some l p.1 p.2 (by rw [hb])
      exact absurd (by rw [hd]; simp : ')' ∈ l) h

theorem breakAtParen_append (S x : List Char) (hS : ')' ∉ S) :
    breakAtParen (S ++ ')' :: x) = some (S, x) := by
  induction S with
  | nil => simp [breakAtParen]
  | cons c t ih =>
    have hc : c ≠ ')' := fun h => hS (h ▸ List.mem_cons_self _ _)
    have ht : ')' ∉ t := fun h => hS (List.mem_cons_of_mem _ h)
    have step : breakAtParen ((c :: t) ++ ')' :: x) =
        (breakAtParen (t ++ ')' :: x)).map (fun p => (c :: p.1, p.2)) := by
      rw [List.cons_append]
      simp only [breakAtParen, if_neg hc]
    rw [step, ih ht]
    rfl

/-! ### Whitespace-run toolbox -/

theorem takeWhile_all_append {α : Type} (p : α → Bool) :
    ∀ (w : List α), (∀ c ∈ w, p c = true) → ∀ (r : α), p r = false → ∀ (t : List α),
      ((w ++ r :: t).takeWhile p) = w := by
  intro w
  induction w with
  | nil =>
    intro _ r hr t
    simp [List.takeWhile_cons, hr]
  | cons a as ih =>
    intro hall r hr t
    have ha : p a = true := hall a (List.mem_cons_self _ _)
    have ih' := ih (fun c hc => hall c (List.mem_cons_of_mem _ hc)) r hr t
    simp [List.cons_append, List.takeWhile_cons, ha, ih']

theorem dropWhile_all_append {α : Type} (p : α → Bool) :
    ∀ (w : List α), (∀ c ∈ w, p c = true) → ∀ (r : α), p r = false → ∀ (t : List α),
      ((w ++ r :: t).dropWhile p) = r :: t := by
  intro w
  induction w with
  | nil =>
    intro _ r hr t
    simp [List.dropWhile_cons, hr]
  | cons a as ih =>
    intro hall r hr t
    have ha : p a = true := hall a (List.mem_cons_self _ _)
    have ih' := ih (fun c hc => hall c (List.mem_cons_of_mem _ hc)) r hr t
    simp [List.cons_append, List.dropWhile_cons, ha, ih']

theorem takeWhile_all_eq {α : Type} (p : α → Bool) :
    ∀ (w : List α), (∀ c ∈ w, p c = true) → w.takeWhile p = w := by
  intro w
  induction w with
  | nil => intro _; rfl
  | cons a as ih =>
    intro hall
    have ha : p a = true := hall a (List.mem_cons_self _ _)
    have ih' := ih (fun c hc => hall c (List.mem_cons_of_mem _ hc))
    simp [List.takeWhile_cons, ha, ih']

theorem dropWhile_all_eq {α : Type} (p : α → Bool) :
    ∀ (w : List α), (∀ c ∈ w, p c = true) → w.dropWhile p = [] := by
  intro w
  induction w with
  | nil => intro _; rfl
  | cons a as ih =>
    intro hall
    have ha : p a = true := hall a (List.mem_cons_self _ _)
    have ih' := ih (fun c hc => hall c (List.mem_cons_of_mem _ hc))
    simp [List.dropWhile_cons, ha, ih']

theorem mem_takeWhile_sat {α : Type} (p : α → Bool) :
    ∀ (l : List α), ∀ c ∈ l.takeWhile p, p c = true := by
  intro l
  induction l with
  | nil => intro c hc; cases hc
  | cons a as ih =>
    intro c hc
    by_cases ha : p a = true
    · rw [List.takeWhile_cons, if_pos ha] at hc
      rcases List.mem_cons.mp hc with he | hm
      · exact he ▸ ha
      · exact ih c hm
    · rw [List.takeWhile_cons, if_neg ha] at hc
      cases hc

theorem dropWhile_head_not {α : Type} (p : α → Bool) :
    ∀ (l : List α) (c : α) (t : List α), l.dropWhile p = c :: t → p c = false := by
  intro l
  induction l with
  | nil => intro c t h; cases h
  | cons a as ih =>
    intro c t h
    by_cases ha : p a = true
    · rw [List.dropWhile_cons, if_pos ha] at h
      exact ih c t h
    · rw [List.dropWhile_cons, if_neg ha] at h
      obtain ⟨h1, _⟩ := List.cons.inj h
      rw [← h1]
      cases hpa : p a
      · rfl
      · exact absurd hpa ha

theorem dropWhile_head_false_eq {α : Type} (p : α → Bool) (c : α) (t : List α)
    (hc : p c = false) : (c :: t).dropWhile p = c :: t := by
  rw [List.dropWhile_cons, if_neg (by rw [hc]; exact Bool.false_ne_true)]

theorem takeWhile_head_false_eq {α : Type} (p : α → Bool) (c : α) (t : List α)
    (hc : p c = false) : (c :: t).takeWhile p = [] := by
  rw [List.takeWhile_cons, if_neg (by rw [hc]; exact Bool.false_ne_true)]

/-! ### The collapse of a matched span

`reformat_return` collapses a matched span `s` by
`re.sub(r"\s*\n\s*", " ", s)` followed by `re.sub(r"\s*,\s*", ", ", s)`.

* The first substitution's matches are exactly the maximal whitespace
  runs that contain a newline (greedy `\s*` with backtracking pins the
  match to the whole run); each becomes one space.
* The second substitution's matches are exactly a maximal whitespace run
  followed by `,` followed by another run (either run possibly empty),
  scanned left to right; each becomes `", "`. -/

theorem length_dropWhile_le {α : Type} (p : α → Bool) :
    ∀ (l : List α), (l.dropWhile p).length ≤ l.length := by
  intro l
  induction l with
  | nil => exact Nat.le_refl _
  | cons a as ih =>
    by_cases ha : p a = true
    · rw [List.dropWhile_cons, if_pos ha]
      exact Nat.le_trans ih (Nat.le_succ _)
    · rw [List.dropWhile_cons, if_neg ha]

def nlSub : List Char → List Char
  | [] => []
  | c :: t =>
    if isPyWs c then
      (if '\n' ∈ c :: t.takeWhile isPyWs then [' '] else c :: t.takeWhile isPyWs)
        ++ nlSub (t.dropWhile isPyWs)
    else c :: nlSub t
termination_by l => l.length
decreasing_by
  all_goals simp_wf
  all_goals
    first
    | omega
    | exact Nat.lt_succ_of_le (length_dropWhile_le isPyWs _)

def commaSub : List Char → List Char
  | [] => []
  | c :: t =>
    if isPyWs c then
      match hdw : t.dropWhile isPyWs with
      | ',' :: rest2 => ',' :: ' ' :: commaSub (rest2.dropWhile isPyWs)
      | _ => (c :: t.takeWhile isPyWs) ++ commaSub (t.dropWhile isPyWs)
    else if c = ',' then ',' :: ' ' :: commaSub (t.dropWhile isPyWs)
    else c :: commaSub t
termination_by l => l.length
decreasing_by
  all_goals simp_wf
  all_goals
    first
    | omega
    | exact Nat.lt_succ_of_le (length_dropWhile_le isPyWs _)
    | (have h1 := length_dropWhile_le isPyWs rest2
       have h2 := congrArg List.length hdw
       have h3 := length_dropWhile_le isPyWs rest
       simp only [List.length_cons] at h2
       omega)

/-- The full collapse applied to a matched `return (...)` span. -/
def collapse (l : List Char) : List Char := commaSub (nlSub l)

/-! ### `nlSub` structure -/

theorem takeWhile_append_last {α : Type} (p : α → Bool) (r : α) (hr : p r = false) :
    ∀ (t : List α), (t ++ [r]).takeWhile p = t.takeWhile p := by
  intro t
  induction t with
  | nil => simp [List.takeWhile_cons, hr]
  | cons a as ih =>
    by_cases ha : p a = true
    · simp [List.takeWhile_cons, ha, ih]
    · simp [List.takeWhile_cons, ha]

theorem dropWhile_append_last {α : Type} (p : α → Bool) (r : α) (hr : p r = false) :
    ∀ (t : List α), (t ++ [r]).dropWhile p = t.dropWhile p ++ [r] := by
  intro t
  induction t with
  | nil => simp [List.dropWhile_cons, hr]
  | cons a as ih =>
    by_cases ha : p a = true
    · simp [List.dropWhile_cons, ha, ih]
    · simp [List.dropWhile_cons, ha]

theorem isPyWs_newline : isPyWs '\n' = true := by decide

theorem not_newline_of_not_ws {c : Char} (h : isPyWs c = false) : c ≠ '\n' := by
  intro he
  subst he
  rw [isPyWs_newline] at h
  cases h

theorem nlSub_no_newline : ∀ (l : List Char), '\n' ∉ nlSub l := by
  intro l
  induction l using nlSub.induct with
  | case1 => simp [nlSub]
  | case2 c t h ih =>
    rw [nlSub, if_pos h]
    intro hmem
    rcases List.mem_append.mp hmem with hm | hm
    · by_cases hnl : '\n' ∈ c :: t.takeWhile isPyWs
      · rw [if_pos hnl] at hm
        simp at hm
      · rw [if_neg hnl] at hm
        exact hnl hm
    · exact ih hm
  | case3 c t h ih =>
    rw [nlSub, if_neg h]
    intro hmem
    rcases List.mem_cons.mp hmem with he | hm
    · exact not_newline_of_not_ws (Bool.eq_false_iff.mpr h) he.symm
    · exact ih hm

theorem mem_of_mem_takeWhile {α : Type} (p : α → Bool) :
    ∀ (l : List α) (x : α), x ∈ l.takeWhile p → x ∈ l := by
  intro l
  induction l with
  | nil => intro x h; cases h
  | cons a as ih =>
    intro x h
    by_cases ha : p a = true
    · rw [List.takeWhile_cons, if_pos ha] at h
      rcases List.mem_cons.mp h with he | hm
      · exact he ▸ List.mem_cons_self _ _
      · exact List.mem_cons_of_mem _ (ih x hm)
    · rw [List.takeWhile_cons, if_neg ha] at h
      cases h

theorem mem_of_mem_dropWhile {α : Type} (p : α → Bool) :
    ∀ (l : List α) (x : α), x ∈ l.dropWhile p → x ∈ l := by
  intro l
  induction l with
  | nil => intro x h; cases h
  | cons a as ih =>
    intro x h
    by_cases ha : p a = true
    · rw [List.dropWhile_cons, if_pos ha] at h
      exact List.mem_cons_of_mem _ (ih x h)
    · rw [List.dropWhile_cons, if_neg ha] at h
      exact h

theorem nlSub_of_no_newline : ∀ (l : List Char), '\n' ∉ l → nlSub l = l := by
  intro l
  induction l using nlSub.induct with
  | case1 => intro _; simp [nlSub]
  | case2 c t h ih =>
    intro hno
    rw [nlSub, if_pos h]
    have hrun : '\n' ∉ c :: t.takeWhile isPyWs := by
      intro hm
      apply hno
      rcases List.mem_cons.mp hm with he | hm'
      · exact he ▸ List.mem_cons_self _ _
      · exact List.mem_cons_of_mem _ (mem_of_mem_takeWhile _ _ _ hm')
    rw [if_neg hrun]
    rw [ih (fun hm => hno (List.mem_cons_of_mem _ (mem_of_mem_dropWhile _ _ _ hm)))]
    rw [List.cons_append, List.takeWhile_append_dropWhile]
  | case3 c t h ih =>
    intro hno
    rw [nlSub, if_neg h]
    rw [ih (fun hm => hno (List.mem_cons_of_mem _ hm))]

theorem nlSub_idem (l : List Char) : nlSub (nlSub l) = nlSub l :=
  nlSub_of_no_newline _ (nlSub_no_newline l)

theorem bool_ne_true {b : Bool} (h : b = false) : ¬ b = true := by
  rw [h]
  exact Bool.false_ne_true

theorem nlSub_cons_nonws (c : Char) (t : List Char) (h : isPyWs c = false) :
    nlSub (c :: t) = c :: nlSub t := by
  rw [nlSub, if_neg (bool_ne_true h)]

theorem nlSub_nonws_run (a : List Char) (ha : ∀ c ∈ a, isPyWs c = false) :
    ∀ (x : List Char), nlSub (a ++ x) = a ++ nlSub x := by
  induction a with
  | nil => intro x; rfl
  | cons c t ih =>
    intro x
    rw [List.cons_append, nlSub_cons_nonws c _ (ha c (List.mem_cons_self _ _)),
      ih (fun d hd => ha d (List.mem_cons_of_mem _ hd)) x]
    rfl

theorem nlSub_ws_run_prefix (w : List Char) (hw : w ≠ [])
    (hall : ∀ c ∈ w, isPyWs c = true) (r : Char) (hr : isPyWs r = false)
    (t : List Char) :
    nlSub (w ++ r :: t) = (if '\n' ∈ w then [' '] else w) ++ nlSub (r :: t) := by
  cases w with
  | nil => exact absurd rfl hw
  | cons c w' =>
    have hc : isPyWs c = true := hall c (List.mem_cons_self _ _)
    have hw' : ∀ d ∈ w', isPyWs d = true := fun d hd => hall d (List.mem_cons_of_mem _ hd)
    rw [List.cons_append, nlSub, if_pos hc,
      takeWhile_all_append isPyWs w' hw' r hr t,
      dropWhile_all_append isPyWs w' hw' r hr t]

theorem nlSub_append_last (r : Char) (hr : isPyWs r = false) :
    ∀ (S : List Char), nlSub (S ++ [r]) = nlSub S ++ [r] := by
  intro S
  induction S using nlSub.induct with
  | case1 => simp [nlSub, nlSub_cons_nonws r [] hr]
  | case2 c t h ih =>
    rw [List.cons_append, nlSub, if_pos h,
      takeWhile_append_last isPyWs r hr t, dropWhile_append_last isPyWs r hr t,
      ih, nlSub, if_pos h, List.append_assoc]
  | case3 c t h ih =>
    have h' : isPyWs c = false := by
      cases hc : isPyWs c
      · rfl
      · exact absurd hc h
    rw [List.cons_append, nlSub_cons_nonws c _ h', ih, nlSub_cons_nonws c _ h',
      List.cons_append]

/-! ### `commaSub` structure -/

theorem commaSub_cons_comma (t : List Char) :
    commaSub (',' :: t) = ',' :: ' ' :: commaSub (t.dropWhile isPyWs) := by
  rw [commaSub, if_neg (bool_ne_true (by decide : isPyWs ',' = false)), if_pos rfl]

theorem commaSub_cons_other (c : Char) (t : List Char) (h1 : isPyWs c = false)
    (h2 : c ≠ ',') : commaSub (c :: t) = c :: commaSub t := by
  rw [commaSub, if_neg (bool_ne_true h1), if_neg h2]

theorem commaSub_ws_match (c : Char) (t rest2 : List Char) (h : isPyWs c = true)
    (hdw : t.dropWhile isPyWs = ',' :: rest2) :
    commaSub (c :: t) = ',' :: ' ' :: commaSub (rest2.dropWhile isPyWs) := by
  rw [commaSub, if_pos h]
  split
  · rename_i rest2' hdw'
    rw [hdw'] at hdw
    obtain ⟨_, h2⟩ := List.cons.inj hdw
    rw [h2]
  · rename_i hne
    exact absurd hdw (hne rest2)

theorem commaSub_ws_nomatch (c : Char) (t : List Char) (h : isPyWs c = true)
    (hdw : ∀ r2, t.dropWhile isPyWs ≠ ',' :: r2) :
    commaSub (c :: t) = (c :: t.takeWhile isPyWs) ++ commaSub (t.dropWhile isPyWs) := by
  rw [commaSub, if_pos h]
  split
  · rename_i rest2' hdw'
    exact absurd hdw' (hdw rest2')
  · rfl

theorem commaSub_nil : commaSub [] = [] := by
  rw [commaSub]

theorem commaSub_all_ws (w : List Char) (hall : ∀ c ∈ w, isPyWs c = true) :
    commaSub w = w := by
  cases w with
  | nil => exact commaSub_nil
  | cons c t =>
    have hc : isPyWs c = true := hall c (List.mem_cons_self _ _)
    have ht : ∀ d ∈ t, isPyWs d = true := fun d hd => hall d (List.mem_cons_of_mem _ hd)
    have hdw : t.dropWhile isPyWs = [] := dropWhile_all_eq isPyWs t ht
    rw [commaSub_ws_nomatch c t hc (by intro r2 hr2; rw [hdw] at hr2; cases hr2), hdw,
      commaSub_nil, takeWhile_all_eq isPyWs t ht]
    simp

/-- The head of a `commaSub` output is not whitespace when the input's
head is not (the scan can only emit `,`, copied non-whitespace heads, or
nothing first). -/
def headOkWs (l : List Char) : Bool :=
  match l with
  | [] => true
  | c :: _ => !isPyWs c

theorem headOkWs_dropWhile (t : List Char) : headOkWs (t.dropWhile isPyWs) = true := by
  cases hdw : t.dropWhile isPyWs with
  | nil => rfl
  | cons c r =>
    have := dropWhile_head_not isPyWs t c r hdw
    simp [headOkWs, this]

theorem dropWhile_of_headOk (l : List Char) (h : headOkWs l = true) :
    l.dropWhile isPyWs = l := by
  cases l with
  | nil => rfl
  | cons c t =>
    simp only [headOkWs, Bool.not_eq_true'] at h
    exact dropWhile_head_false_eq isPyWs c t h

theorem commaSub_headOk (l : List Char) (h : headOkWs l = true) :
    headOkWs (commaSub l) = true := by
  cases l with
  | nil => rw [commaSub_nil]; rfl
  | cons c t =>
    simp only [headOkWs, Bool.not_eq_true'] at h
    by_cases hc : c = ','
    · subst hc
      rw [commaSub_cons_comma]
      rfl
    · rw [commaSub_cons_other c t h hc]
      simp [headOkWs, h]

theorem commaSub_idem : ∀ (l : List Char), commaSub (commaSub l) = commaSub l := by
  intro l
  induction l using commaSub.induct with
  | case1 => rw [commaSub_nil, commaSub_nil]
  | case2 c t h rest2 hdw ih =>
    rw [commaSub_ws_match c t rest2 h hdw]
    have hok : headOkWs (commaSub (rest2.dropWhile isPyWs)) = true :=
      commaSub_headOk _ (headOkWs_dropWhile rest2)
    rw [commaSub_cons_comma]
    have hstep : (' ' :: commaSub (rest2.dropWhile isPyWs)).dropWhile isPyWs =
        commaSub (rest2.dropWhile isPyWs) := by
      rw [List.dropWhile_cons, if_pos (by decide : isPyWs ' ' = true)]
      exact dropWhile_of_headOk _ hok
    rw [hstep, ih]
  | case3 c t h hdw ih =>
    have hdw' : ∀ r2, t.dropWhile isPyWs ≠ ',' :: r2 := by
      intro r2 hr2
      exact hdw r2 hr2
    rw [commaSub_ws_nomatch c t h hdw']
    have htw : ∀ d ∈ t.takeWhile isPyWs, isPyWs d = true := mem_takeWhile_sat isPyWs t
    cases htd : t.dropWhile isPyWs with
    | nil =>
      rw [commaSub_nil, List.append_nil]
      refine commaSub_all_ws _ ?_
      intro d hd
      rcases List.mem_cons.mp hd with he | hm
      · exact he ▸ h
      · exact htw d hm
    | cons r rs =>
      have hr : isPyWs r = false := dropWhile_head_not isPyWs t r rs htd
      have hrc : r ≠ ',' := by
        intro he
        exact hdw' rs (by rw [htd, he])
      rw [commaSub_cons_other r rs hr hrc]
      have hZ : commaSub (commaSub rs) = commaSub rs := by
        have hih := ih
        rw [htd, commaSub_cons_other r rs hr hrc,
          commaSub_cons_other r _ hr hrc] at hih
        exact (List.cons.inj hih).2
      rw [List.cons_append,
        commaSub_ws_nomatch c _ h (by
          intro r2 hr2
          rw [dropWhile_all_append isPyWs (t.takeWhile isPyWs) htw r hr (commaSub rs)] at hr2
          obtain ⟨h1, _⟩ := List.cons.inj hr2
          exact hrc h1),
        takeWhile_all_append isPyWs (t.takeWhile isPyWs) htw r hr (commaSub rs),
        dropWhile_all_append isPyWs (t.takeWhile isPyWs) htw r hr (commaSub rs),
        commaSub_cons_other r _ hr hrc, hZ]
      rfl
  | case4 t h ih =>
    rw [commaSub_cons_comma]
    have hok : headOkWs (commaSub (t.dropWhile isPyWs)) = true :=
      commaSub_headOk _ (headOkWs_dropWhile t)
    rw [commaSub_cons_comma]
    have hstep : (' ' :: commaSub (t.dropWhile isPyWs)).dropWhile isPyWs =
        commaSub (t.dropWhile isPyWs) := by
      rw [List.dropWhile_cons, if_pos (by decide : isPyWs ' ' = true)]
      exact dropWhile_of_headOk _ hok
    rw [hstep, ih]
  | case5 c t h hc ih =>
    have h' : isPyWs c = false := by
      cases hb : isPyWs c
      · rfl
      · exact absurd hb h
    rw [commaSub_cons_other c t h' hc, commaSub_cons_other c _ h' hc, ih]

theorem mem_commaSub : ∀ (l : List Char), ∀ x ∈ commaSub l, x ∈ l ∨ x = ' ' ∨ x = ',' := by
  intro l
  induction l using commaSub.induct with
  | case1 => intro x hx; rw [commaSub_nil] at hx; cases hx
  | case2 c t h rest2 hdw ih =>
    intro x hx
    rw [commaSub_ws_match c t rest2 h hdw] at hx
    rcases List.mem_cons.mp hx with he | hx'
    · exact Or.inr (Or.inr he)
    rcases List.mem_cons.mp hx' with he | hx''
    · exact Or.inr (Or.inl he)
    rcases ih x hx'' with hm | hs
    · refine Or.inl (List.mem_cons_of_mem _ ?_)
      have h1 : x ∈ ',' :: rest2 :=
        List.mem_cons_of_mem _ (mem_of_mem_dropWhile _ _ _ hm)
      rw [← hdw] at h1
      exact mem_of_mem_dropWhile _ _ _ h1
    · exact Or.inr hs
  | case3 c t h hdw ih =>
    intro x hx
    rw [commaSub_ws_nomatch c t h (fun r2 hr2 => hdw r2 hr2)] at hx
    rcases List.mem_append.mp hx with hm | hm
    · rcases List.mem_cons.mp hm with he | hm'
      · exact Or.inl (he ▸ List.mem_cons_self _ _)
      · exact Or.inl (List.mem_cons_of_mem _ (mem_of_mem_takeWhile _ _ _ hm'))
    · rcases ih x hm with hm' | hs
      · exact Or.inl (List.mem_cons_of_mem _ (mem_of_mem_dropWhile _ _ _ hm'))
      · exact Or.inr hs
  | case4 t h ih =>
    intro x hx
    rw [commaSub_cons_comma] at hx
    rcases List.mem_cons.mp hx with he | hx'
    · exact Or.inr (Or.inr he)
    rcases List.mem_cons.mp hx' with he | hx''
    · exact Or.inr (Or.inl he)
    rcases ih x hx'' with hm | hs
    · exact Or.inl (List.mem_cons_of_mem _ (mem_of_mem_dropWhile _ _ _ hm))
    · exact Or.inr hs
  | case5 c t h hc ih =>
    have h' : isPyWs c = false := by
      cases hb : isPyWs c
      · rfl
      · exact absurd hb h
    intro x hx
    rw [commaSub_cons_other c t h' hc] at hx
    rcases List.mem_cons.mp hx with he | hm
    · exact Or.inl (he ▸ List.mem_cons_self _ _)
    · rcases ih x hm with hm' | hs
      · exact Or.inl (List.mem_cons_of_mem _ hm')
      · exact Or.inr hs

theorem commaSub_no_newline (l : List Char) (h : '\n' ∉ l) : '\n' ∉ commaSub l := by
  intro hx
  rcases mem_commaSub l '\n' hx with hm | hs | hc
  · exact h hm
  · cases hs
  · cases hc

theorem collapse_idem (l : List Char) : collapse (collapse l) = collapse l := by
  unfold collapse
  rw [nlSub_of_no_newline _ (commaSub_no_newline _ (nlSub_no_newline l)), commaSub_idem]

theorem commaSub_nonws_run (a : List Char)
    (ha : ∀ c ∈ a, isPyWs c = false ∧ c ≠ ',') :
    ∀ (x : List Char), commaSub (a ++ x) = a ++ commaSub x := by
  induction a with
  | nil => intro x; rfl
  | cons c t ih =>
    intro x
    obtain ⟨h1, h2⟩ := ha c (List.mem_cons_self _ _)
    rw [List.cons_append, commaSub_cons_other c _ h1 h2,
      ih (fun d hd => ha d (List.mem_cons_of_mem _ hd)) x]
    rfl

theorem commaSub_ws_run_prefix (w : List Char) (hw : w ≠ [])
    (hall : ∀ c ∈ w, isPyWs c = true) (r : Char) (hr : isPyWs r = false)
    (hrc : r ≠ ',') (t : List Char) :
    commaSub (w ++ r :: t) = w ++ commaSub (r :: t) := by
  cases w with
  | nil => exact absurd rfl hw
  | cons c w' =>
    have hc : isPyWs c = true := hall c (List.mem_cons_self _ _)
    have hw' : ∀ d ∈ w', isPyWs d = true := fun d hd => hall d (List.mem_cons_of_mem _ hd)
    rw [List.cons_append,
      commaSub_ws_nomatch c _ hc (by
        intro r2 hr2
        rw [dropWhile_all_append isPyWs w' hw' r hr t] at hr2
        obtain ⟨h1, _⟩ := List.cons.inj hr2
        exact hrc h1),
      takeWhile_all_append isPyWs w' hw' r hr t,
      dropWhile_all_append isPyWs w' hw' r hr t]

theorem commaSub_append_last (r : Char) (hr : isPyWs r = false) (hrc : r ≠ ',') :
    ∀ (S : List Char), commaSub (S ++ [r]) = commaSub S ++ [r] := by
  intro S
  induction S using commaSub.induct with
  | case1 =>
    rw [List.nil_append, commaSub_nil, List.nil_append,
      commaSub_cons_other r [] hr hrc, commaSub_nil]
  | case2 c t h rest2 hdw ih =>
    have hdw2 : (t ++ [r]).dropWhile isPyWs = ',' :: (rest2 ++ [r]) := by
      rw [dropWhile_append_last isPyWs r hr t, hdw]
      rfl
    rw [List.cons_append, commaSub_ws_match c _ (rest2 ++ [r]) h hdw2,
      dropWhile_append_last isPyWs r hr rest2, ih,
      commaSub_ws_match c t rest2 h hdw]
    rfl
  | case3 c t h hdw ih =>
    have hdw' : ∀ r2, t.dropWhile isPyWs ≠ ',' :: r2 := fun r2 hr2 => hdw r2 hr2
    have hdw2 : ∀ r2, (t ++ [r]).dropWhile isPyWs ≠ ',' :: r2 := by
      intro r2 hr2
      rw [dropWhile_append_last isPyWs r hr t] at hr2
      cases htd : t.dropWhile isPyWs with
      | nil =>
        rw [htd] at hr2
        obtain ⟨h1, _⟩ := List.cons.inj hr2
        exact hrc h1
      | cons q qs =>
        rw [htd] at hr2
        obtain ⟨h1, _⟩ := List.cons.inj hr2
        exact hdw' qs (by rw [htd, h1])
    rw [List.cons_append, commaSub_ws_nomatch c _ h hdw2,
      takeWhile_append_last isPyWs r hr t, dropWhile_append_last isPyWs r hr t, ih,
      commaSub_ws_nomatch c t h hdw']
    rw [List.append_assoc]
  | case4 t h ih =>
    rw [List.cons_append, commaSub_cons_comma,
      dropWhile_append_last isPyWs r hr t, ih, commaSub_cons_comma]
    rfl
  | case5 c t h hc ih =>
    have h' : isPyWs c = false := by
      cases hb : isPyWs c
      · rfl
      · exact absurd hb h
    rw [List.cons_append, commaSub_cons_other c _ h' hc, ih,
      commaSub_cons_other c t h' hc]
    rfl

theorem mem_nlSub (l : List Char) : ∀ x ∈ nlSub l, x ∈ l ∨ x = ' ' := by
  induction l using nlSub.induct with
  | case1 => intro x hx; simp [nlSub] at hx
  | case2 c t h ih =>
    intro x hx
    rw [nlSub, if_pos h] at hx
    rcases List.mem_append.mp hx with hm | hm
    · by_cases hnl : '\n' ∈ c :: t.takeWhile isPyWs
      · rw [if_pos hnl] at hm
        simp at hm
        exact Or.inr hm
      · rw [if_neg hnl] at hm
        rcases List.mem_cons.mp hm with he | hm'
        · exact Or.inl (he ▸ List.mem_cons_self _ _)
        · exact Or.inl (List.mem_cons_of_mem _ (mem_of_mem_takeWhile _ _ _ hm'))
    · rcases ih x hm with hm' | hs
      · exact Or.inl (List.mem_cons_of_mem _ (mem_of_mem_dropWhile _ _ _ hm'))
      · exact Or.inr hs
  | case3 c t h ih =>
    intro x hx
    rw [nlSub, if_neg h] at hx
    rcases List.mem_cons.mp hx with he | hm
    · exact Or.inl (he ▸ List.mem_cons_self _ _)
    · rcases ih x hm with hm' | hs
      · exact Or.inl (List.mem_cons_of_mem _ hm')
      · exact Or.inr hs

/-! ### Collapse of a matched span -/

/-- The image of a whitespace run under the newline substitution. -/
def wsColl (w : List Char) : List Char := if '\n' ∈ w then [' '] else w

theorem wsColl_all_ws (w : List Char) (h : ∀ c ∈ w, isPyWs c = true) :
    ∀ c ∈ wsColl w, isPyWs c = true := by
  unfold wsColl
  by_cases hn : '\n' ∈ w
  · rw [if_pos hn]
    intro c hc
    simp at hc
    subst hc
    decide
  · rw [if_neg hn]
    exact h

theorem wsColl_no_newline (w : List Char) (h : ∀ c ∈ w, isPyWs c = true) :
    '\n' ∉ wsColl w := by
  unfold wsColl
  by_cases hn : '\n' ∈ w
  · rw [if_pos hn]
    simp
  · rw [if_neg hn]
    exact hn

theorem nlSub_wsrun_then (w : List Char) (hall : ∀ c ∈ w, isPyWs c = true)
    (r : Char) (hr : isPyWs r = false) (t : List Char) :
    nlSub (w ++ r :: t) = wsColl w ++ nlSub (r :: t) := by
  cases hween : w with
  | nil => simp [wsColl]
  | cons a w' =>
    rw [← hween, nlSub_ws_run_prefix w (by rw [hween]; exact List.cons_ne_nil _ _) hall r hr t]
    rfl

theorem commaSub_wsrun_then (w : List Char) (hall : ∀ c ∈ w, isPyWs c = true)
    (r : Char) (hr : isPyWs r = false) (hrc : r ≠ ',') (t : List Char) :
    commaSub (w ++ r :: t) = w ++ commaSub (r :: t) := by
  cases hween : w with
  | nil => simp
  | cons a w' =>
    rw [← hween]
    exact commaSub_ws_run_prefix w (by rw [hween]; exact List.cons_ne_nil _ _) hall r hr hrc t

theorem collapse_mem (l : List Char) : ∀ x ∈ collapse l, x ∈ l ∨ x = ' ' ∨ x = ',' := by
  intro x hx
  rcases mem_commaSub (nlSub l) x hx with hm | hs
  · rcases mem_nlSub l x hm with hm' | hs'
    · exact Or.inl hm'
    · exact Or.inr (Or.inl hs')
  · exact Or.inr hs

theorem collapse_paren_free (l : List Char) (h : ')' ∉ l) : ')' ∉ collapse l := by
  intro hx
  rcases collapse_mem l ')' hx with hm | hs | hc
  · exact h hm
  · cases hs
  · cases hc

theorem collapse_no_newline (l : List Char) : '\n' ∉ collapse l :=
  commaSub_no_newline _ (nlSub_no_newline l)

theorem ret_nonws : ∀ c ∈ RET, isPyWs c = false ∧ c ≠ ',' := by decide

/-- The collapse of a full `return (...)` match span, in terms of its
parts: the two whitespace runs collapse to a single space when they
contain a newline, `return` and the parentheses survive, and the
interior is itself collapsed. -/
theorem collapse_match_shape (w w2 inside : List Char)
    (hw : ∀ c ∈ w, isPyWs c = true) (hw2 : ∀ c ∈ w2, isPyWs c = true) :
    collapse (w ++ (RET ++ (w2 ++ ('(' :: (inside ++ [')']))))) =
      wsColl w ++ (RET ++ (wsColl w2 ++ ('(' :: (collapse inside ++ [')'])))) := by
  unfold collapse
  have hrethead : isPyWs 'r' = false := by decide
  have hparen : isPyWs '(' = false := by decide
  have hrparen : isPyWs ')' = false := by decide
  -- newline pass
  have hnl : nlSub (w ++ (RET ++ (w2 ++ ('(' :: (inside ++ [')']))))) =
      wsColl w ++ (RET ++ (wsColl w2 ++ ('(' :: (nlSub inside ++ [')'])))) := by
    have e1 : RET ++ (w2 ++ ('(' :: (inside ++ [')']))) =
        'r' :: (['e', 't', 'u', 'r', 'n'] ++ (w2 ++ ('(' :: (inside ++ [')'])))) := rfl
    rw [e1, nlSub_wsrun_then w hw 'r' hrethead _]
    rw [show ('r' :: (['e', 't', 'u', 'r', 'n'] ++ (w2 ++ ('(' :: (inside ++ [')']))))) =
      (RET ++ (w2 ++ ('(' :: (inside ++ [')'])))) from rfl]
    rw [nlSub_nonws_run RET (by decide) _]
    rw [nlSub_wsrun_then w2 hw2 '(' hparen _]
    rw [nlSub_cons_nonws '(' _ hparen]
    rw [nlSub_append_last ')' hrparen inside]
  rw [hnl]
  -- comma pass
  have hwsw : ∀ c ∈ wsColl w, isPyWs c = true := wsColl_all_ws w hw
  have hwsw2 : ∀ c ∈ wsColl w2, isPyWs c = true := wsColl_all_ws w2 hw2
  have e2 : RET ++ (wsColl w2 ++ ('(' :: (nlSub inside ++ [')']))) =
      'r' :: (['e', 't', 'u', 'r', 'n'] ++ (wsColl w2 ++ ('(' :: (nlSub inside ++ [')'])))) := rfl
  rw [e2, commaSub_wsrun_then (wsColl w) hwsw 'r' hrethead (by decide) _]
  rw [show ('r' :: (['e', 't', 'u', 'r', 'n'] ++ (wsColl w2 ++ ('(' :: (nlSub inside ++ [')']))))) =
    (RET ++ (wsColl w2 ++ ('(' :: (nlSub inside ++ [')'])))) from rfl]
  rw [commaSub_nonws_run RET (by decide) _]
  rw [commaSub_wsrun_then (wsColl w2) hwsw2 '(' hparen (by decide) _]
  rw [commaSub_cons_other '(' _ hparen (by decide)]
  rw [commaSub_append_last ')' hrparen (by decide) (nlSub inside)]

/-! ### The return-pattern match attempt

Pattern `^(?P<indent>\s*return\s*\([\s\S]*?\))` with MULTILINE: at a
line-start position, a maximal whitespace run (greedy `\s*`; backtracking
cannot shorten it because `return` starts with a non-whitespace `r`),
the literal `return`, another maximal whitespace run (followed by `(`),
`(`, then a lazy body ending at the first `)`. -/

def rTryCore (z : List Char) : Option (List Char × List Char) :=
  if RET.isPrefixOf z then
    match (z.drop 6).dropWhile isPyWs with
    | c :: z4 =>
      if c = '(' then
        (breakAtParen z4).map (fun p =>
          (RET ++ ((z.drop 6).takeWhile isPyWs ++ ('(' :: (p.1 ++ [')']))), p.2))
      else none
    | [] => none
  else none

def rTryMatch (l : List Char) : Option (List Char × List Char) :=
  match rTryCore (l.dropWhile isPyWs) with
  | some (cm, rest) => some (l.takeWhile isPyWs ++ cm, rest)
  | none => none

theorem rTryCore_some (z cm after : List Char) (h : rTryCore z = some (cm, after)) :
    ∃ w2 inside, (∀ c ∈ w2, isPyWs c = true) ∧ ')' ∉ inside ∧
      z = RET ++ (w2 ++ ('(' :: (inside ++ ')' :: after))) ∧
      cm = RET ++ (w2 ++ ('(' :: (inside ++ [')']))) := by
  unfold rTryCore at h
  split at h
  case isTrue hpre =>
    obtain ⟨z2, hz2⟩ := List.isPrefixOf_iff_prefix.mp hpre
    have hdrop : z.drop 6 = z2 := by rw [← hz2]; rfl
    split at h
    case h_1 c z4 hdw =>
      rw [hdrop] at hdw
      split at h
      case isTrue hc =>
        subst hc
        cases hb : breakAtParen z4 with
        | none => rw [hb] at h; cases h
        | some p =>
          rw [hb, Option.map_some'] at h
          obtain ⟨hins, haft⟩ := Prod.mk.inj (Option.some.inj h)
          obtain ⟨hz4, hnopar⟩ := breakAtParen_some z4 p.1 p.2 hb
          refine ⟨z2.takeWhile isPyWs, p.1, mem_takeWhile_sat isPyWs z2, hnopar, ?_, ?_⟩
          · have hsplit : z2 = z2.takeWhile isPyWs ++ ('(' :: z4) := by
              conv_lhs => rw [← List.takeWhile_append_dropWhile (p := isPyWs) (l := z2)]
              rw [hdw]
            rw [← haft, ← hz4, ← hsplit]
            exact hz2.symm
          · rw [← hins, hdrop]
      case isFalse => cases h
    case h_2 => cases h
  case isFalse => cases h

theorem rTryCore_reduce (z : List Char) (c : Char) (z4 : List Char)
    (hpre : RET.isPrefixOf z = true) (hdw : (z.drop 6).dropWhile isPyWs = c :: z4) :
    rTryCore z = if c = '(' then
      (breakAtParen z4).map (fun p =>
        (RET ++ ((z.drop 6).takeWhile isPyWs ++ ('(' :: (p.1 ++ [')']))), p.2))
    else none := by
  unfold rTryCore
  rw [if_pos hpre, hdw]

theorem rTryCore_build (w2 inside after : List Char)
    (hw2 : ∀ c ∈ w2, isPyWs c = true) (hin : ')' ∉ inside) :
    rTryCore (RET ++ (w2 ++ ('(' :: (inside ++ ')' :: after)))) =
      some (RET ++ (w2 ++ ('(' :: (inside ++ [')']))), after) := by
  have hpre : RET.isPrefixOf (RET ++ (w2 ++ ('(' :: (inside ++ ')' :: after)))) = true :=
    List.isPrefixOf_iff_prefix.mpr ⟨_, rfl⟩
  have hdrop : (RET ++ (w2 ++ ('(' :: (inside ++ ')' :: after)))).drop 6 =
      w2 ++ ('(' :: (inside ++ ')' :: after)) := rfl
  have hdw : ((RET ++ (w2 ++ ('(' :: (inside ++ ')' :: after)))).drop 6).dropWhile isPyWs
      = '(' :: (inside ++ ')' :: after) := by
    rw [hdrop]; exact dropWhile_all_append isPyWs w2 hw2 '(' (by decide) _
  rw [rTryCore_reduce _ '(' _ hpre hdw, if_pos rfl,
    breakAtParen_append inside after hin, Option.map_some']
  rw [hdrop, takeWhile_all_append isPyWs w2 hw2 '(' (by decide) _]

theorem rTryMatch_reduce (l cm rest : List Char)
    (h : rTryCore (l.dropWhile isPyWs) = some (cm, rest)) :
    rTryMatch l = some (l.takeWhile isPyWs ++ cm, rest) := by
  unfold rTryMatch
  rw [h]

theorem rTryMatch_build (w w2 inside after : List Char)
    (hw : ∀ c ∈ w, isPyWs c = true) (hw2 : ∀ c ∈ w2, isPyWs c = true)
    (hin : ')' ∉ inside) :
    rTryMatch (w ++ (RET ++ (w2 ++ ('(' :: (inside ++ ')' :: after))))) =
      some (w ++ (RET ++ (w2 ++ ('(' :: (inside ++ [')'])))), after) := by
  have hshape : w ++ (RET ++ (w2 ++ ('(' :: (inside ++ ')' :: after)))) =
      w ++ 'r' :: (['e', 't', 'u', 'r', 'n'] ++ (w2 ++ ('(' :: (inside ++ ')' :: after)))) := rfl
  have hdw : (w ++ (RET ++ (w2 ++ ('(' :: (inside ++ ')' :: after))))).dropWhile isPyWs =
      RET ++ (w2 ++ ('(' :: (inside ++ ')' :: after))) := by
    rw [hshape]; exact dropWhile_all_append isPyWs w hw 'r' (by decide) _
  have htw : (w ++ (RET ++ (w2 ++ ('(' :: (inside ++ ')' :: after))))).takeWhile isPyWs = w := by
    rw [hshape]; exact takeWhile_all_append isPyWs w hw 'r' (by decide) _
  rw [rTryMatch_reduce _ _ _ (by rw [hdw]; exact rTryCore_build w2 inside after hw2 hin), htw]

theorem rTryMatch_some (l m rest : List Char) (h : rTryMatch l = some (m, rest)) :
    ∃ w w2 inside, (∀ c ∈ w, isPyWs c = true) ∧ (∀ c ∈ w2, isPyWs c = true) ∧
      ')' ∉ inside ∧
      l = w ++ (RET ++ (w2 ++ ('(' :: (inside ++ ')' :: rest)))) ∧
      m = w ++ (RET ++ (w2 ++ ('(' :: (inside ++ [')'])))) ∧
      w = l.takeWhile isPyWs := by
  unfold rTryMatch at h
  split at h
  case h_1 cm rest' hc =>
    obtain ⟨hm, hrest⟩ := Prod.mk.inj (Option.some.inj h)
    obtain ⟨w2, inside, hw2, hin, hz, hcm⟩ := rTryCore_some _ cm rest' hc
    refine ⟨l.takeWhile isPyWs, w2, inside, mem_takeWhile_sat isPyWs l, hw2, hin, ?_, ?_, rfl⟩
    · conv_lhs => rw [← List.takeWhile_append_dropWhile (p := isPyWs) (l := l)]
      rw [hz, hrest]
    · rw [← hm, hcm]
  case h_2 => cases h

theorem rTryMatch_some_decomp (l m rest : List Char) (h : rTryMatch l = some (m, rest)) :
    l = m ++ rest ∧ 0 < m.length := by
  obtain ⟨w, w2, inside, _, _, _, hl, hm, _⟩ := rTryMatch_some l m rest h
  constructor
  · rw [hl, hm]
    simp [List.append_assoc]
  · rw [hm]
    simp [RET]

theorem rTryMatch_rest_lt (l m rest : List Char) (h : rTryMatch l = some (m, rest)) :
    rest.length < l.length := by
  obtain ⟨hl, hm⟩ := rTryMatch_some_decomp l m rest h
  have hlen := congrArg List.length hl
  rw [List.length_append] at hlen
  omega

/-- The MULTILINE scan of `re.sub`: the flag records whether the current
position is a line start (start of string, or just after a newline); a
match is attempted only there, its replacement emitted and scanning
resumed after it (the replacement ends in `)`, not at a line start). -/
def rScan : Bool → List Char → List Char
  | _, [] => []
  | false, c :: t => c :: rScan (c == '\n') t
  | true, c :: t =>
    match hm : rTryMatch (c :: t) with
    | some (m, rest) => collapse m ++ rScan false rest
    | none => c :: rScan (c == '\n') t
termination_by _ l => l.length
decreasing_by
  all_goals simp_wf
  all_goals first
    | omega
    | (exact rTryMatch_rest_lt _ _ _ hm)

theorem rScan_nil (b : Bool) : rScan b [] = [] := by simp [rScan]

theorem rScan_false_cons (c : Char) (t : List Char) :
    rScan false (c :: t) = c :: rScan (c == '\n') t := by
  conv_lhs => rw [rScan.eq_def]

theorem rScan_true_cons_match (c : Char) (t m rest : List Char)
    (h : rTryMatch (c :: t) = some (m, rest)) :
    rScan true (c :: t) = collapse m ++ rScan false rest := by
  simp only [rScan]
  split
  · rename_i m' rest' heq
    rw [h] at heq
    obtain ⟨h1, h2⟩ := Prod.mk.inj (Option.some.inj heq)
    rw [h1, h2]
  · rename_i heq
    rw [h] at heq
    cases heq

theorem rScan_true_cons_none (c : Char) (t : List Char)
    (h : rTryMatch (c :: t) = none) :
    rScan true (c :: t) = c :: rScan (c == '\n') t := by
  simp only [rScan]
  split
  · rename_i m' rest' heq
    rw [h] at heq
    cases heq
  · rfl

/-- A1: the collapse of a match span still matches, consuming exactly
itself, whatever follows it. -/
theorem rTryMatch_collapse (l m rest : List Char) (h : rTryMatch l = some (m, rest))
    (x : List Char) : rTryMatch (collapse m ++ x) = some (collapse m, x) := by
  obtain ⟨w, w2, inside, hw, hw2, hin, _, hm, _⟩ := rTryMatch_some l m rest h
  have hcol : collapse m =
      wsColl w ++ (RET ++ (wsColl w2 ++ ('(' :: (collapse inside ++ [')'])))) := by
    rw [hm]; exact collapse_match_shape w w2 inside hw hw2
  have hx : collapse m ++ x =
      wsColl w ++ (RET ++ (wsColl w2 ++ ('(' :: (collapse inside ++ ')' :: x)))) := by
    rw [hcol]; simp [List.append_assoc]
  rw [hx]
  rw [rTryMatch_build (wsColl w) (wsColl w2) (collapse inside) x
    (wsColl_all_ws w hw) (wsColl_all_ws w2 hw2) (collapse_paren_free inside hin)]
  rw [← hcol]

/-! ### Scan structure: copying regions without matches -/

def flagAfter (b : Bool) (l : List Char) : Bool :=
  l.foldl (fun _ c => c == '\n') b

theorem flagAfter_nil (b : Bool) : flagAfter b [] = b := rfl

theorem flagAfter_cons (b : Bool) (c : Char) (t : List Char) :
    flagAfter b (c :: t) = flagAfter (c == '\n') t := rfl

theorem flagAfter_append (b : Bool) (a₁ a₂ : List Char) :
    flagAfter b (a₁ ++ a₂) = flagAfter (flagAfter b a₁) a₂ :=
  List.foldl_append _ _ _ _

theorem flagAfter_nonl (a : List Char) (ha : '\n' ∉ a) : flagAfter false a = false := by
  induction a with
  | nil => rfl
  | cons c a' ih =>
    have hc : c ≠ '\n' := fun h => ha (h ▸ List.mem_cons_self _ _)
    rw [flagAfter_cons, show (c == '\n') = false by simp [hc]]
    exact ih (fun h => ha (List.mem_cons_of_mem _ h))

/-- No match of the return pattern starts at a line-start position
strictly within the region `a` (scanned with initial flag `b`,
followed by `x`). -/
def NoStart : Bool → List Char → List Char → Prop
  | _, [], _ => True
  | b, c :: a', x => (b = true → rTryMatch (c :: (a' ++ x)) = none) ∧ NoStart (c == '\n') a' x

theorem noStart_append (b : Bool) (a₁ a₂ x : List Char)
    (h₁ : NoStart b a₁ (a₂ ++ x)) (h₂ : NoStart (flagAfter b a₁) a₂ x) :
    NoStart b (a₁ ++ a₂) x := by
  induction a₁ generalizing b with
  | nil => exact h₂
  | cons c a' ih =>
    obtain ⟨hh, ht⟩ := h₁
    refine ⟨?_, ih (c == '\n') ht (by rwa [flagAfter_cons] at h₂)⟩
    intro hb
    have hm := hh hb
    simpa only [List.append_eq, List.append_assoc] using hm

theorem rScan_copy (b : Bool) (a x : List Char) (h : NoStart b a x) :
    rScan b (a ++ x) = a ++ rScan (flagAfter b a) x := by
  induction a generalizing b with
  | nil => rw [flagAfter_nil]; rfl
  | cons c a' ih =>
    obtain ⟨hh, ht⟩ := h
    rw [List.cons_append, flagAfter_cons]
    cases b with
    | false => rw [rScan_false_cons, ih _ ht]; rfl
    | true => rw [rScan_true_cons_none _ _ (hh rfl), ih _ ht]; rfl

theorem dropWhile_append_ws (W x : List Char) (hW : ∀ c ∈ W, isPyWs c = true) :
    (W ++ x).dropWhile isPyWs = x.dropWhile isPyWs := by
  induction W with
  | nil => rfl
  | cons c W' ih =>
    have hc : isPyWs c = true := hW c (List.mem_cons_self _ _)
    rw [List.cons_append, List.dropWhile_cons, if_pos hc]
    exact ih (fun d hd => hW d (List.mem_cons_of_mem _ hd))

theorem dropWhile_idem {α : Type} (p : α → Bool) (l : List α) :
    (l.dropWhile p).dropWhile p = l.dropWhile p := by
  cases h : l.dropWhile p with
  | nil => rfl
  | cons c t => exact dropWhile_head_false_eq p c t (dropWhile_head_not p l c t h)

theorem rTryMatch_none_of_core (l : List Char)
    (h : rTryCore (l.dropWhile isPyWs) = none) : rTryMatch l = none := by
  unfold rTryMatch
  rw [h]

theorem rTryMatch_none_core (l : List Char) (h : rTryMatch l = none) :
    rTryCore (l.dropWhile isPyWs) = none := by
  unfold rTryMatch at h
  split at h
  case h_1 heq => cases h
  case h_2 heq => exact heq

theorem noStart_ws (W x : List Char) (hW : ∀ c ∈ W, isPyWs c = true)
    (hx : rTryCore (x.dropWhile isPyWs) = none) : ∀ b, NoStart b W x := by
  induction W with
  | nil => intro b; trivial
  | cons c W' ih =>
    intro b
    have htail := fun d hd => hW d (List.mem_cons_of_mem _ hd)
    refine ⟨?_, ih htail (c == '\n')⟩
    intro _
    apply rTryMatch_none_of_core
    have hstrip : (c :: (W' ++ x)).dropWhile isPyWs = x.dropWhile isPyWs := by
      rw [List.dropWhile_cons, if_pos (hW c (List.mem_cons_self _ _))]
      exact dropWhile_append_ws W' x htail
    rw [hstrip]
    exact hx

theorem noStart_nonl (a x : List Char) (ha : '\n' ∉ a) (b : Bool)
    (hb : b = true → rTryMatch (a ++ x) = none) : NoStart b a x := by
  induction a generalizing b with
  | nil => trivial
  | cons c a' ih =>
    have hc : c ≠ '\n' := fun h => ha (h ▸ List.mem_cons_self _ _)
    refine ⟨fun h => hb h, ?_⟩
    rw [show (c == '\n') = false by simp [hc]]
    exact ih (fun hd => ha (List.mem_cons_of_mem _ hd)) false
      (fun h => absurd h Bool.false_ne_true)

theorem noStart_false_single (c : Char) (x : List Char) : NoStart false [c] x :=
  ⟨fun h => absurd h Bool.false_ne_true, trivial⟩

/-! ### Failure modes of the core check -/

theorem rTryCore_none_noRet (z : List Char) (h : ¬ RET.isPrefixOf z = true) :
    rTryCore z = none := by
  unfold rTryCore
  rw [if_neg h]

theorem rTryCore_none_nil (z : List Char) (h : (z.drop 6).dropWhile isPyWs = []) :
    rTryCore z = none := by
  unfold rTryCore
  split
  case isTrue => rw [h]
  case isFalse => rfl

theorem rTryCore_none_head_ne (z : List Char) (c' : Char) (z4 : List Char)
    (hpre : RET.isPrefixOf z = true) (hdw : (z.drop 6).dropWhile isPyWs = c' :: z4)
    (hne : c' ≠ '(') : rTryCore z = none := by
  rw [rTryCore_reduce z c' z4 hpre hdw, if_neg hne]

theorem rTryCore_none_noParen (z : List Char) (z4 : List Char)
    (hpre : RET.isPrefixOf z = true) (hdw : (z.drop 6).dropWhile isPyWs = '(' :: z4)
    (hb : breakAtParen z4 = none) : rTryCore z = none := by
  rw [rTryCore_reduce z '(' z4 hpre hdw, if_pos rfl, hb]
  rfl

theorem rTryCore_none_cases (z : List Char) (h : rTryCore z = none) :
    (¬ RET.isPrefixOf z = true) ∨
    (RET.isPrefixOf z = true ∧ (z.drop 6).dropWhile isPyWs = []) ∨
    (∃ c' z4, RET.isPrefixOf z = true ∧ (z.drop 6).dropWhile isPyWs = c' :: z4 ∧ c' ≠ '(') ∨
    (∃ z4, RET.isPrefixOf z = true ∧ (z.drop 6).dropWhile isPyWs = '(' :: z4 ∧
      breakAtParen z4 = none) := by
  by_cases hpre : RET.isPrefixOf z = true
  · cases hdw : (z.drop 6).dropWhile isPyWs with
    | nil => exact Or.inr (Or.inl ⟨hpre, rfl⟩)
    | cons c' z4 =>
      by_cases hc : c' = '('
      · subst hc
        cases hb : breakAtParen z4 with
        | none => exact Or.inr (Or.inr (Or.inr ⟨z4, hpre, rfl, hb⟩))
        | some p =>
          rw [rTryCore_reduce z '(' z4 hpre hdw, if_pos rfl, hb] at h
          simp at h
      · exact Or.inr (Or.inr (Or.inl ⟨c', z4, hpre, rfl, hc⟩))
  · exact Or.inl hpre

theorem rScan_noParen : ∀ (b : Bool) (l : List Char), ')' ∉ l → rScan b l = l := by
  intro b l
  induction b, l using rScan.induct with
  | case1 => intro _; exact rScan_nil _
  | case2 c t ih =>
    intro h
    rw [rScan_false_cons, ih (fun hm => h (List.mem_cons_of_mem _ hm))]
  | case3 c t m rest hm ih =>
    intro h
    obtain ⟨w, w2, inside, _, _, _, hl, _, _⟩ := rTryMatch_some _ _ _ hm
    exact absurd (by rw [hl]; simp : ')' ∈ c :: t) h
  | case4 c t hm ih =>
    intro h
    rw [rScan_true_cons_none _ _ hm, ih (fun hmem => h (List.mem_cons_of_mem _ hmem))]

theorem prefix_nonl_agree : ∀ (P L A B : List Char), '\n' ∉ P → '\n' ∉ L →
    (P.isPrefixOf (L ++ '\n' :: A)) = (P.isPrefixOf (L ++ '\n' :: B)) := by
  intro P
  induction P with
  | nil => intro L A B _ _; cases L <;> rfl
  | cons p P' ih =>
    intro L A B hP hL
    have hP' : '\n' ∉ P' := fun h => hP (List.mem_cons_of_mem _ h)
    cases L with
    | nil =>
      have hp : (p == '\n') = false := by
        simp
        exact fun h => hP (h ▸ List.mem_cons_self _ _)
      show (p == '\n' && P'.isPrefixOf A) = (p == '\n' && P'.isPrefixOf B)
      rw [hp, Bool.false_and, Bool.false_and]
    | cons l0 L' =>
      have hL' : '\n' ∉ L' := fun h => hL (List.mem_cons_of_mem _ h)
      show (p == l0 && P'.isPrefixOf (L' ++ '\n' :: A)) =
        (p == l0 && P'.isPrefixOf (L' ++ '\n' :: B))
      rw [ih L' A B hP' hL']

theorem rScan_false_newline (x : List Char) :
    rScan false ('\n' :: x) = '\n' :: rScan true x := by
  rw [rScan_false_cons, show (('\n' : Char) == '\n') = true by simp]

theorem rScan_true_match (u m rest : List Char) (h : rTryMatch u = some (m, rest)) :
    rScan true u = collapse m ++ rScan false rest := by
  cases u with
  | nil =>
    have : rTryMatch ([] : List Char) = none :=
      rTryMatch_none_of_core [] (rTryCore_none_noRet [] (by decide))
    rw [this] at h
    cases h
  | cons c t => exact rScan_true_cons_match c t m rest h

theorem ret_prefix_decomp (z : List Char) (h : RET.isPrefixOf z = true) :
    z = RET ++ z.drop 6 := by
  obtain ⟨z2, hz2⟩ := List.isPrefixOf_iff_prefix.mp h
  have hd : z.drop 6 = z2 := by rw [← hz2]; rfl
  rw [hd, ← hz2]

theorem all_sat_of_dropWhile_nil {α : Type} (p : α → Bool) (l : List α)
    (h : l.dropWhile p = []) : ∀ c ∈ l, p c = true := by
  have hl : l = l.takeWhile p := by
    conv_lhs => rw [← List.takeWhile_append_dropWhile (p := p) (l := l)]
    rw [h, List.append_nil]
  intro c hc
  exact mem_takeWhile_sat p l c (hl ▸ hc)

theorem split_first_newline (z : List Char) (h : '\n' ∈ z) :
    ∃ L1 z', z = L1 ++ '\n' :: z' ∧ '\n' ∉ L1 := by
  cases hdw : z.dropWhile (fun c => c != '\n') with
  | nil =>
    have hall := all_sat_of_dropWhile_nil _ z hdw '\n' h
    simp at hall
  | cons c z' =>
    have hc : (c != '\n') = false := dropWhile_head_not _ z c z' hdw
    have hceq : c = '\n' := by simpa using hc
    refine ⟨z.takeWhile (fun c => c != '\n'), z', ?_, ?_⟩
    · conv_lhs => rw [← List.takeWhile_append_dropWhile (p := fun c => c != '\n') (l := z)]
      rw [hdw, hceq]
    · intro hm
      have := mem_takeWhile_sat (fun c => c != '\n') z '\n' hm
      simp at this

theorem flagAfter_nonl_ne_nil (a : List Char) (ha : '\n' ∉ a) (hne : a ≠ [])
    (b : Bool) : flagAfter b a = false := by
  cases a with
  | nil => exact absurd rfl hne
  | cons c a' =>
    have hc : c ≠ '\n' := fun h => ha (h ▸ List.mem_cons_self _ _)
    rw [flagAfter_cons, show (c == '\n') = false by simp [hc]]
    exact flagAfter_nonl a' (fun h => ha (List.mem_cons_of_mem _ h))

theorem ws_ne_rparen (c : Char) (h : isPyWs c = true) : c ≠ ')' := by
  intro hc
  rw [hc] at h
  simp [isPyWs] at h

/-! ### A3: a none-verdict at a line start survives the scan -/

theorem ret_isPrefixOf_append (Y : List Char) : RET.isPrefixOf (RET ++ Y) = true :=
  List.isPrefixOf_iff_prefix.mpr ⟨Y, rfl⟩

theorem drop6_ret_append (Y : List Char) : (RET ++ Y).drop 6 = Y := rfl

theorem ret_append_cons (Y : List Char) :
    RET ++ Y = 'r' :: (['e', 't', 'u', 'r', 'n'] ++ Y) := rfl

theorem dropWhile_ret_append (Y : List Char) :
    (RET ++ Y).dropWhile isPyWs = RET ++ Y :=
  dropWhile_head_false_eq isPyWs 'r' _ (by decide)

theorem scan_none_f1 (zh : Char) (zt : List Char) (b : Bool)
    (hzh : isPyWs zh = false) (hmz : rTryMatch (zh :: zt) = none)
    (hcore : rTryCore (zh :: zt) = none)
    (hpre : ¬ RET.isPrefixOf (zh :: zt) = true) :
    rTryCore ((rScan b (zh :: zt)).dropWhile isPyWs) = none := by
  by_cases hmem : '\n' ∈ zh :: zt
  · obtain ⟨L1, z', hzspl, hL1⟩ := split_first_newline _ hmem
    have hL1ne : L1 ≠ [] := by
      intro h0
      rw [h0, List.nil_append] at hzspl
      have hzh' : zh = '\n' := (List.cons.inj hzspl).1
      rw [hzh'] at hzh
      simp [isPyWs] at hzh
    have hns : NoStart b (L1 ++ ['\n']) z' := by
      apply noStart_append
      · apply noStart_nonl L1 _ hL1 b
        intro _
        rw [show L1 ++ (['\n'] ++ z') = L1 ++ '\n' :: z' from rfl, ← hzspl]
        exact hmz
      · rw [flagAfter_nonl_ne_nil L1 hL1 hL1ne b]
        exact noStart_false_single '\n' z'
    have hscan : rScan b (zh :: zt) = L1 ++ '\n' :: rScan true z' := by
      conv_lhs => rw [hzspl, show L1 ++ '\n' :: z' = (L1 ++ ['\n']) ++ z' by simp]
      rw [rScan_copy b _ _ hns]
      rw [flagAfter_append, flagAfter_nonl_ne_nil L1 hL1 hL1ne b,
        show flagAfter false ['\n'] = true by decide]
      simp
    obtain ⟨c0, L1t, hL10⟩ : ∃ c0 L1t, L1 = c0 :: L1t := by
      cases L1 with
      | nil => exact absurd rfl hL1ne
      | cons a bs => exact ⟨a, bs, rfl⟩
    have hc0 : c0 = zh := by
      rw [hL10, List.cons_append] at hzspl
      exact (List.cons.inj hzspl).1.symm
    have hout_dw : (L1 ++ '\n' :: rScan true z').dropWhile isPyWs =
        L1 ++ '\n' :: rScan true z' := by
      rw [hL10]
      exact dropWhile_head_false_eq isPyWs c0 _ (by rw [hc0]; exact hzh)
    rw [hscan, hout_dw]
    apply rTryCore_none_noRet
    rw [prefix_nonl_agree RET L1 (rScan true z') z' (by decide) hL1, ← hzspl]
    exact hpre
  · have hscan : rScan b (zh :: zt) = zh :: zt := by
      conv_lhs => rw [show zh :: zt = (zh :: zt) ++ [] by simp]
      rw [rScan_copy b _ [] (noStart_nonl _ [] hmem b
        (fun _ => by rw [List.append_nil]; exact hmz)), rScan_nil]
      simp
    rw [hscan, dropWhile_head_false_eq isPyWs zh zt hzh]
    exact hcore

theorem scan_none_f2 (zh : Char) (zt : List Char) (b : Bool)
    (hzh : isPyWs zh = false) (hmz : rTryMatch (zh :: zt) = none)
    (hcore : rTryCore (zh :: zt) = none)
    (hpre : RET.isPrefixOf (zh :: zt) = true)
    (hnil : ((zh :: zt).drop 6).dropWhile isPyWs = []) :
    rTryCore ((rScan b (zh :: zt)).dropWhile isPyWs) = none := by
  have hzdecomp : zh :: zt = RET ++ (zh :: zt).drop 6 := ret_prefix_decomp _ hpre
  have hz2ws : ∀ c ∈ (zh :: zt).drop 6, isPyWs c = true := all_sat_of_dropWhile_nil _ _ hnil
  have hns : NoStart b (RET ++ (zh :: zt).drop 6) [] := by
    apply noStart_append
    · apply noStart_nonl RET _ (by decide) b
      intro _
      rw [List.append_nil, ← hzdecomp]
      exact hmz
    · exact noStart_ws _ [] hz2ws (rTryCore_none_noRet [] (by decide)) _
  have hscan : rScan b (zh :: zt) = zh :: zt := by
    conv_lhs => rw [hzdecomp, show RET ++ (zh :: zt).drop 6 =
      (RET ++ (zh :: zt).drop 6) ++ [] by simp]
    rw [rScan_copy b _ [] hns, rScan_nil, List.append_nil, ← hzdecomp]
  rw [hscan, dropWhile_head_false_eq isPyWs zh zt hzh]
  exact hcore

theorem scan_none_f4 (zh : Char) (zt : List Char) (b : Bool)
    (hzh : isPyWs zh = false)
    (hcore : rTryCore (zh :: zt) = none)
    (hpre : RET.isPrefixOf (zh :: zt) = true) (z4 : List Char)
    (hdw : ((zh :: zt).drop 6).dropWhile isPyWs = '(' :: z4)
    (hb : breakAtParen z4 = none) :
    rTryCore ((rScan b (zh :: zt)).dropWhile isPyWs) = none := by
  have hnopar : ')' ∉ z4 := (breakAtParen_none_iff z4).mp hb
  have hzdecomp : zh :: zt = RET ++ (zh :: zt).drop 6 := ret_prefix_decomp _ hpre
  have hz2split : (zh :: zt).drop 6 =
      ((zh :: zt).drop 6).takeWhile isPyWs ++ ('(' :: z4) := by
    conv_lhs => rw [← List.takeWhile_append_dropWhile (p := isPyWs) (l := (zh :: zt).drop 6)]
    rw [hdw]
  have hnp : ')' ∉ zh :: zt := by
    rw [hzdecomp, hz2split]
    intro hmem
    rcases List.mem_append.mp hmem with hRET | hrest
    · exact absurd hRET (by decide)
    · rcases List.mem_append.mp hrest with hw2m | hparen
      · exact ws_ne_rparen _ (mem_takeWhile_sat _ _ _ hw2m) rfl
      · rcases List.mem_cons.mp hparen with he | hz4m
        · exact absurd he (by decide)
        · exact hnopar hz4m
  rw [rScan_noParen b _ hnp, dropWhile_head_false_eq isPyWs zh zt hzh]
  exact hcore

theorem f3_verdict (w2 S4 : List Char) (c' : Char)
    (hw2ws : ∀ c ∈ w2, isPyWs c = true)
    (hc'nws : isPyWs c' = false) (hc' : c' ≠ '(') :
    rTryCore ((RET ++ (w2 ++ (c' :: S4))).dropWhile isPyWs) = none := by
  rw [dropWhile_ret_append]
  refine rTryCore_none_head_ne _ c' S4 (ret_isPrefixOf_append _) ?_ hc'
  rw [drop6_ret_append]
  exact dropWhile_all_append isPyWs w2 hw2ws c' hc'nws S4

theorem f3ii_verdict (w2a wb Y : List Char)
    (hw2a : ∀ c ∈ w2a, isPyWs c = true)
    (hwb : ∀ c ∈ wb, isPyWs c = true) :
    rTryCore ((RET ++ (w2a ++ ('\n' :: (wb ++ (RET ++ Y))))).dropWhile isPyWs) = none := by
  rw [dropWhile_ret_append]
  refine rTryCore_none_head_ne _ 'r' (['e', 't', 'u', 'r', 'n'] ++ Y)
    (ret_isPrefixOf_append _) ?_ (by decide)
  rw [drop6_ret_append]
  rw [dropWhile_append_ws w2a _ hw2a, List.dropWhile_cons,
    if_pos (by decide : isPyWs '\n' = true), dropWhile_append_ws wb _ hwb,
    dropWhile_ret_append]
  exact ret_append_cons Y

theorem f3_copy_verdict (zh : Char) (zt : List Char) (b : Bool) (w2 z4 : List Char)
    (c' : Char) (hfull : zh :: zt = RET ++ (w2 ++ (c' :: z4)))
    (hw2ws : ∀ c ∈ w2, isPyWs c = true)
    (hc'nws : isPyWs c' = false) (hc' : c' ≠ '(')
    (hns : NoStart b (RET ++ (w2 ++ [c'])) z4) :
    rTryCore ((rScan b (zh :: zt)).dropWhile isPyWs) = none := by
  have hc'nl : c' ≠ '\n' := not_newline_of_not_ws hc'nws
  have hscan : rScan b (zh :: zt) = RET ++ (w2 ++ (c' :: rScan false z4)) := by
    conv_lhs => rw [hfull,
      show RET ++ (w2 ++ (c' :: z4)) = (RET ++ (w2 ++ [c'])) ++ z4 by simp]
    rw [rScan_copy b _ _ hns, flagAfter_append, flagAfter_append,
      flagAfter_nonl_ne_nil RET (by decide) (by decide) b,
      show flagAfter (flagAfter false w2) [c'] = (c' == '\n') from rfl,
      show (c' == '\n') = false by simp [hc'nl]]
    simp
  rw [hscan]
  exact f3_verdict w2 (rScan false z4) c' hw2ws hc'nws hc'

theorem scan_none_f3 (zh : Char) (zt : List Char) (b : Bool)
    (hzh : isPyWs zh = false) (hmz : rTryMatch (zh :: zt) = none)
    (hpre : RET.isPrefixOf (zh :: zt) = true) (c' : Char) (z4 : List Char)
    (hdw : ((zh :: zt).drop 6).dropWhile isPyWs = c' :: z4)
    (hc' : c' ≠ '(') :
    rTryCore ((rScan b (zh :: zt)).dropWhile isPyWs) = none := by
  have hzdecomp : zh :: zt = RET ++ (zh :: zt).drop 6 := ret_prefix_decomp _ hpre
  have hc'nws : isPyWs c' = false := dropWhile_head_not isPyWs _ c' z4 hdw
  have hc'nl : c' ≠ '\n' := not_newline_of_not_ws hc'nws
  obtain ⟨w2, hw2ws, hfull⟩ : ∃ w2, (∀ c ∈ w2, isPyWs c = true) ∧
      zh :: zt = RET ++ (w2 ++ (c' :: z4)) := by
    refine ⟨((zh :: zt).drop 6).takeWhile isPyWs, mem_takeWhile_sat _ _, ?_⟩
    conv_lhs => rw [hzdecomp]
    congr 1
    conv_lhs => rw [← List.takeWhile_append_dropWhile (p := isPyWs) (l := (zh :: zt).drop 6)]
    rw [hdw]
  by_cases hw2nl : '\n' ∈ w2
  · obtain ⟨w2a, w2b, hw2spl, hw2anl⟩ := split_first_newline w2 hw2nl
    have hw2aws : ∀ c ∈ w2a, isPyWs c = true := fun c hc =>
      hw2ws c (by rw [hw2spl]; exact List.mem_append_left _ hc)
    have hw2bws : ∀ c ∈ w2b, isPyWs c = true := fun c hc =>
      hw2ws c (by rw [hw2spl]; exact List.mem_append_right _ (List.mem_cons_of_mem _ hc))
    cases hγ : rTryCore (c' :: z4) with
    | none =>
      have hcz : (c' :: z4).dropWhile isPyWs = c' :: z4 :=
        dropWhile_head_false_eq isPyWs c' z4 hc'nws
      refine f3_copy_verdict zh zt b w2 z4 c' hfull hw2ws hc'nws hc' ?_
      apply noStart_append
      · apply noStart_nonl RET _ (by decide) b
        intro _
        rw [show RET ++ ((w2 ++ [c']) ++ z4) = zh :: zt by rw [hfull]; simp]
        exact hmz
      · apply noStart_append
        · apply noStart_ws w2 _ hw2ws
          rw [show ([c'] ++ z4 : List Char) = c' :: z4 from rfl, hcz]
          exact hγ
        · exact ⟨fun _ => rTryMatch_none_of_core _
            (by rw [show (c' :: ([] ++ z4) : List Char) = c' :: z4 from rfl, hcz]; exact hγ),
            trivial⟩
    | some p =>
      obtain ⟨cm, rest⟩ := p
      have hdwu : (w2b ++ (c' :: z4)).dropWhile isPyWs = c' :: z4 :=
        dropWhile_all_append isPyWs w2b hw2bws c' hc'nws z4
      have htwu : (w2b ++ (c' :: z4)).takeWhile isPyWs = w2b :=
        takeWhile_all_append isPyWs w2b hw2bws c' hc'nws z4
      have hmatch : rTryMatch (w2b ++ (c' :: z4)) = some (w2b ++ cm, rest) := by
        rw [rTryMatch_reduce _ cm rest (by rw [hdwu]; exact hγ), htwu]
      have hfull2 : zh :: zt = (RET ++ (w2a ++ ['\n'])) ++ (w2b ++ (c' :: z4)) := by
        rw [hfull, hw2spl]
        simp
      have hns : NoStart b (RET ++ (w2a ++ ['\n'])) (w2b ++ (c' :: z4)) := by
        apply noStart_append
        · apply noStart_nonl RET _ (by decide) b
          intro _
          rw [show RET ++ ((w2a ++ ['\n']) ++ (w2b ++ (c' :: z4))) = zh :: zt by
            rw [hfull2]; simp]
          exact hmz
        · rw [flagAfter_nonl_ne_nil RET (by decide) (by decide) b]
          apply noStart_append
          · exact noStart_nonl w2a _ hw2anl false (fun h => absurd h Bool.false_ne_true)
          · rw [flagAfter_nonl w2a hw2anl]
            exact noStart_false_single '\n' _
      have hflag : flagAfter b (RET ++ (w2a ++ ['\n'])) = true := by
        rw [flagAfter_append, flagAfter_append,
          flagAfter_nonl_ne_nil RET (by decide) (by decide) b,
          flagAfter_nonl w2a hw2anl]
        decide
      obtain ⟨w2', inside', hw2'ws, hin', hzeq, hcm⟩ := rTryCore_some _ cm rest hγ
      have hcollapse : collapse (w2b ++ cm) =
          wsColl w2b ++ (RET ++ (wsColl w2' ++ ('(' :: (collapse inside' ++ [')'])))) := by
        rw [hcm]
        exact collapse_match_shape w2b w2' inside' hw2bws hw2'ws
      have hscan : rScan b (zh :: zt) =
          RET ++ (w2a ++ ('\n' :: (wsColl w2b ++ (RET ++
            ((wsColl w2' ++ ('(' :: (collapse inside' ++ [')']))) ++ rScan false rest))))) := by
        conv_lhs => rw [hfull2]
        rw [rScan_copy b _ _ hns, hflag, rScan_true_match _ _ _ hmatch, hcollapse]
        simp
      rw [hscan]
      exact f3ii_verdict w2a (wsColl w2b) _ hw2aws (wsColl_all_ws w2b hw2bws)
  · refine f3_copy_verdict zh zt b w2 z4 c' hfull hw2ws hc'nws hc' ?_
    apply noStart_append
    · apply noStart_nonl RET _ (by decide) b
      intro _
      rw [show RET ++ ((w2 ++ [c']) ++ z4) = zh :: zt by rw [hfull]; simp]
      exact hmz
    · rw [flagAfter_nonl_ne_nil RET (by decide) (by decide) b]
      refine noStart_nonl (w2 ++ [c']) z4 ?_ false (fun h => absurd h Bool.false_ne_true)
      intro hm
      rcases List.mem_append.mp hm with h1 | h2
      · exact hw2nl h1
      · rcases List.mem_cons.mp h2 with he | hn
        · exact hc'nl he.symm
        · cases hn

/-- A3: if the return pattern does not match at a line start, it still
does not match there after the remainder has been scanned. -/
theorem rTryMatch_none_scan (l : List Char) (h : rTryMatch l = none) :
    rTryMatch (rScan true l) = none := by
  have hcore : rTryCore (l.dropWhile isPyWs) = none := rTryMatch_none_core l h
  have hW := mem_takeWhile_sat isPyWs l
  have hzdw : (l.dropWhile isPyWs).dropWhile isPyWs = l.dropWhile isPyWs :=
    dropWhile_idem isPyWs l
  have hns := noStart_ws (l.takeWhile isPyWs) (l.dropWhile isPyWs) hW
    (by rw [hzdw]; exact hcore) true
  have hscan : rScan true l = l.takeWhile isPyWs ++
      rScan (flagAfter true (l.takeWhile isPyWs)) (l.dropWhile isPyWs) := by
    conv_lhs => rw [← List.takeWhile_append_dropWhile (p := isPyWs) (l := l)]
    exact rScan_copy true _ _ hns
  rw [hscan]
  apply rTryMatch_none_of_core
  rw [dropWhile_append_ws _ _ hW]
  cases hz : l.dropWhile isPyWs with
  | nil =>
    rw [rScan_nil]
    exact rTryCore_none_noRet [] (by decide)
  | cons zh zt =>
    have hzh : isPyWs zh = false := dropWhile_head_not isPyWs l zh zt hz
    have hcore' : rTryCore (zh :: zt) = none := by rw [← hz]; exact hcore
    have hmz : rTryMatch (zh :: zt) = none := by
      apply rTryMatch_none_of_core
      rw [dropWhile_head_false_eq isPyWs zh zt hzh]
      exact hcore'
    rcases rTryCore_none_cases _ hcore' with hpre | ⟨hpre, hnil⟩ |
      ⟨c', z4, hpre, hdww, hc'⟩ | ⟨z4, hpre, hdww, hb⟩
    · exact scan_none_f1 zh zt _ hzh hmz hcore' hpre
    · exact scan_none_f2 zh zt _ hzh hmz hcore' hpre hnil
    · exact scan_none_f3 zh zt _ hzh hmz hpre c' z4 hdww hc'
    · exact scan_none_f4 zh zt _ hzh hcore' hpre z4 hdww hb

/-! ### Normal form: scan output is stable -/

/-- At this position, any match of the return pattern is already
collapsed. -/
def GoodR (l : List Char) : Prop :=
  ∀ m rest, rTryMatch l = some (m, rest) → collapse m = m

/-- Every line-start suffix (tracked by the flag) is good. -/
def AllGoodR : Bool → List Char → Prop
  | _, [] => True
  | b, c :: t => (b = true → GoodR (c :: t)) ∧ AllGoodR (c == '\n') t

theorem allGoodR_drop : ∀ (a : List Char) (b : Bool) (x : List Char),
    AllGoodR b (a ++ x) → AllGoodR (flagAfter b a) x := by
  intro a
  induction a with
  | nil => intro b x h; exact h
  | cons c a' ih =>
    intro b x h
    rw [flagAfter_cons]
    exact ih (c == '\n') x h.2

theorem flagAfter_append_single (b : Bool) (Y : List Char) (c : Char) :
    flagAfter b (Y ++ [c]) = (c == '\n') := by
  rw [flagAfter_append]
  rfl

theorem allGoodR_append_nonl : ∀ (a : List Char), '\n' ∉ a → ∀ (b : Bool) (x : List Char),
    AllGoodR false x → (b = true → GoodR (a ++ x)) → AllGoodR b (a ++ x) := by
  intro a
  induction a with
  | nil =>
    intro _ b x hx hg
    cases x with
    | nil => trivial
    | cons c x' => exact ⟨fun hb => hg hb, hx.2⟩
  | cons c a' ih =>
    intro ha b x hx hg
    have hc : c ≠ '\n' := fun h => ha (h ▸ List.mem_cons_self _ _)
    refine ⟨fun hb => hg hb, ?_⟩
    rw [show (c == '\n') = false by simp [hc]]
    exact ih (fun h => ha (List.mem_cons_of_mem _ h)) false x hx
      (fun h => absurd h Bool.false_ne_true)

/-- M2: on an all-good input the scan is the identity. -/
theorem allGoodR_scan_id : ∀ (b : Bool) (l : List Char), AllGoodR b l → rScan b l = l := by
  intro b l
  induction b, l using rScan.induct with
  | case1 => intro _; exact rScan_nil _
  | case2 c t ih =>
    intro h
    rw [rScan_false_cons, ih h.2]
  | case3 c t m rest hm ih =>
    intro h
    have hcol : collapse m = m := h.1 rfl m rest hm
    obtain ⟨hl, _⟩ := rTryMatch_some_decomp _ _ _ hm
    obtain ⟨w, w2, inside, _, _, _, _, hmshape, _⟩ := rTryMatch_some _ _ _ hm
    have hflag : flagAfter true m = false := by
      rw [hmshape, show w ++ (RET ++ (w2 ++ ('(' :: (inside ++ [')'])))) =
        (w ++ (RET ++ (w2 ++ ('(' :: inside)))) ++ [')'] by simp,
        flagAfter_append_single]
      decide
    have hrest : AllGoodR false rest := by
      have hd := allGoodR_drop m true rest (by rw [← hl]; exact h)
      rwa [hflag] at hd
    rw [rScan_true_cons_match c t m rest hm, hcol, ih hrest, ← hl]
  | case4 c t hm ih =>
    intro h
    rw [rScan_true_cons_none c t hm, ih h.2]

/-- M1: the scan output is all-good. -/
theorem scan_allGoodR : ∀ (b : Bool) (l : List Char), AllGoodR b (rScan b l) := by
  intro b l
  induction b, l using rScan.induct with
  | case1 => rw [rScan_nil]; trivial
  | case2 c t ih =>
    rw [rScan_false_cons]
    exact ⟨fun hb => absurd hb Bool.false_ne_true, ih⟩
  | case3 c t m rest hm ih =>
    rw [rScan_true_cons_match c t m rest hm]
    apply allGoodR_append_nonl (collapse m) (collapse_no_newline m) true _ ih
    intro _
    intro m' rest' hm'
    rw [rTryMatch_collapse _ _ _ hm (rScan false rest)] at hm'
    obtain ⟨h1, _⟩ := Prod.mk.inj (Option.some.inj hm')
    rw [← h1, collapse_idem]
  | case4 c t hm ih =>
    rw [rScan_true_cons_none c t hm]
    refine ⟨fun _ => ?_, ih⟩
    intro m' rest' hm'
    rw [← rScan_true_cons_none c t hm, rTryMatch_none_scan _ hm] at hm'
    cases hm'

/-- Idempotence of the return-statement rewrite. -/
theorem rScan_idem (l : List Char) : rScan true (rScan true l) = rScan true l :=
  allGoodR_scan_id true _ (scan_allGoodR true l)

/-! ### The declaration rewrite: argument normalisation

`format_function_declarations_to_single_line` rewrites the argument list
by `arguments.replace("\n", "")`, then `.strip()`, then
`re.sub(r"\s*,\s*", ", ", ...)`. -/

def stripEnd (l : List Char) : List Char := (l.reverse.dropWhile isPyWs).reverse

def stripWs (l : List Char) : List Char := stripEnd (l.dropWhile isPyWs)

def normArgs (a : List Char) : List Char :=
  commaSub (stripWs (a.filter (fun c => c != '\n')))

theorem dropWhile_append_mid {α : Type} (p : α → Bool) (r : α) (hr : p r = false) :
    ∀ (B X : List α), (B ++ r :: X).dropWhile p = B.dropWhile p ++ r :: X := by
  intro B X
  induction B with
  | nil => simp [List.dropWhile_cons, hr]
  | cons b B' ih =>
    by_cases hb : p b = true
    · rw [List.cons_append, List.dropWhile_cons, if_pos hb, ih, List.dropWhile_cons, if_pos hb]
    · rw [List.cons_append, List.dropWhile_cons, if_neg hb, List.dropWhile_cons, if_neg hb]
      rfl

theorem stripEnd_nil : stripEnd [] = [] := rfl

theorem stripEnd_append_mid (r : Char) (hr : isPyWs r = false) (A B : List Char) :
    stripEnd (A ++ r :: B) = A ++ r :: stripEnd B := by
  unfold stripEnd
  rw [show (A ++ r :: B).reverse = B.reverse ++ r :: A.reverse by simp,
    dropWhile_append_mid isPyWs r hr B.reverse A.reverse]
  simp

theorem stripEnd_all_ws (l : List Char) (h : ∀ c ∈ l, isPyWs c = true) :
    stripEnd l = [] := by
  unfold stripEnd
  rw [dropWhile_all_eq isPyWs l.reverse (fun c hc => h c (List.mem_reverse.mp hc))]
  rfl

theorem stripEnd_decomp (S : List Char) :
    stripEnd S = [] ∨ ∃ S' r', stripEnd S = S' ++ [r'] ∧ isPyWs r' = false ∧
      S'.length < S.length := by
  cases hdw : S.reverse.dropWhile isPyWs with
  | nil =>
    left
    unfold stripEnd
    rw [hdw]
    rfl
  | cons c r =>
    right
    refine ⟨r.reverse, c, ?_, dropWhile_head_not isPyWs S.reverse c r hdw, ?_⟩
    · unfold stripEnd
      rw [hdw]
      simp
    · have h1 : (c :: r).length ≤ S.reverse.length := by
        rw [← hdw]
        exact length_dropWhile_le isPyWs S.reverse
      simp at h1
      simp
      omega

theorem stripEnd_idem (l : List Char) : stripEnd (stripEnd l) = stripEnd l := by
  rcases stripEnd_decomp l with h | ⟨S', r', h, hr', _⟩
  · rw [h, stripEnd_nil]
  · rw [h, show S' ++ [r'] = S' ++ r' :: ([] : List Char) from rfl,
      stripEnd_append_mid r' hr' S' [], stripEnd_nil]

theorem headOkWs_stripEnd (l : List Char) (h : headOkWs l = true) :
    headOkWs (stripEnd l) = true := by
  cases l with
  | nil => rw [stripEnd_nil]; rfl
  | cons c t =>
    simp only [headOkWs, Bool.not_eq_true'] at h
    rw [show c :: t = [] ++ c :: t from rfl, stripEnd_append_mid c h [] t]
    simp [headOkWs, h]

theorem mem_stripEnd (l : List Char) : ∀ x ∈ stripEnd l, x ∈ l := by
  intro x hx
  unfold stripEnd at hx
  rw [List.mem_reverse] at hx
  exact List.mem_reverse.mp (mem_of_mem_dropWhile isPyWs l.reverse x hx)

theorem mem_stripWs (l : List Char) : ∀ x ∈ stripWs l, x ∈ l := by
  intro x hx
  exact mem_of_mem_dropWhile isPyWs l x (mem_stripEnd _ x hx)

theorem headOkWs_stripWs (l : List Char) : headOkWs (stripWs l) = true :=
  headOkWs_stripEnd _ (headOkWs_dropWhile l)

theorem stripWs_stripEnd (l : List Char) : stripEnd (stripWs l) = stripWs l :=
  stripEnd_idem _

theorem stripEnd_cons_nonws (d : Char) (hd : isPyWs d = false) (B : List Char) :
    stripEnd (d :: B) = d :: stripEnd B := by
  rw [show d :: B = [] ++ d :: B from rfl, stripEnd_append_mid d hd [] B]
  rfl

theorem stripEnd_dropWhile_comm (l : List Char) :
    stripEnd (l.dropWhile isPyWs) = (stripEnd l).dropWhile isPyWs := by
  cases hdw : l.dropWhile isPyWs with
  | nil =>
    have hall : ∀ c ∈ l, isPyWs c = true := all_sat_of_dropWhile_nil isPyWs l hdw
    rw [stripEnd_nil, stripEnd_all_ws l hall]
    rfl
  | cons d D =>
    have hd : isPyWs d = false := dropWhile_head_not isPyWs l d D hdw
    have hl : l = l.takeWhile isPyWs ++ d :: D := by
      conv_lhs => rw [← List.takeWhile_append_dropWhile (p := isPyWs) (l := l)]
      rw [hdw]
    rw [stripEnd_cons_nonws d hd D]
    conv_rhs => rw [hl]
    rw [stripEnd_append_mid d hd _ D,
      dropWhile_all_append isPyWs _ (mem_takeWhile_sat isPyWs l) d hd]

/-- The comma rewrite of a list ending in `,`: the trailing whitespace
run is folded into the final `", "`. -/
theorem commaSub_trail_comma : ∀ (S : List Char),
    commaSub (S ++ [',']) = commaSub (stripEnd S) ++ [',', ' '] := by
  intro S
  induction S using commaSub.induct with
  | case1 =>
    rw [List.nil_append, commaSub_cons_comma, stripEnd_nil, commaSub_nil, List.nil_append]
    show ',' :: ' ' :: commaSub [] = [',', ' ']
    rw [commaSub_nil]
  | case2 c t h rest2 hdw ih =>
    have hdw2 : (t ++ [',']).dropWhile isPyWs = ',' :: (rest2 ++ [',']) := by
      rw [dropWhile_append_last isPyWs ',' (by decide) t, hdw]
      rfl
    rw [List.cons_append, commaSub_ws_match c _ (rest2 ++ [',']) h hdw2,
      dropWhile_append_last isPyWs ',' (by decide) rest2, ih]
    have ht : t = t.takeWhile isPyWs ++ ',' :: rest2 := by
      conv_lhs => rw [← List.takeWhile_append_dropWhile (p := isPyWs) (l := t)]
      rw [hdw]
    have hse : stripEnd (c :: t) = (c :: t.takeWhile isPyWs) ++ ',' :: stripEnd rest2 := by
      conv_lhs => rw [ht, show c :: (t.takeWhile isPyWs ++ ',' :: rest2) =
        (c :: t.takeWhile isPyWs) ++ ',' :: rest2 from rfl]
      exact stripEnd_append_mid ',' (by decide) _ rest2
    have hdw3 : (t.takeWhile isPyWs ++ ',' :: stripEnd rest2).dropWhile isPyWs =
        ',' :: stripEnd rest2 :=
      dropWhile_all_append isPyWs _ (mem_takeWhile_sat isPyWs t) ',' (by decide) _
    rw [hse, show (c :: t.takeWhile isPyWs) ++ ',' :: stripEnd rest2 =
      c :: (t.takeWhile isPyWs ++ ',' :: stripEnd rest2) from rfl,
      commaSub_ws_match c _ (stripEnd rest2) h hdw3,
      ← stripEnd_dropWhile_comm rest2]
    rfl
  | case3 c t h hdw ih =>
    cases htd : t.dropWhile isPyWs with
    | nil =>
      have hallt : ∀ d ∈ t, isPyWs d = true := all_sat_of_dropWhile_nil isPyWs t htd
      have hallct : ∀ d ∈ c :: t, isPyWs d = true := by
        intro d hd
        rcases List.mem_cons.mp hd with he | hm
        · exact he ▸ h
        · exact hallt d hm
      have hdw2 : (t ++ [',']).dropWhile isPyWs = ',' :: ([] : List Char) := by
        rw [dropWhile_append_last isPyWs ',' (by decide) t, htd]
        rfl
      rw [List.cons_append, commaSub_ws_match c _ [] h hdw2, stripEnd_all_ws _ hallct,
        commaSub_nil, List.nil_append]
      show ',' :: ' ' :: commaSub [] = [',', ' ']
      rw [commaSub_nil]
    | cons d ds =>
      rw [htd] at ih
      have hd : isPyWs d = false := dropWhile_head_not isPyWs t d ds htd
      have hdne : d ≠ ',' := by
        intro he
        exact hdw ds (by rw [htd, he])
      have hdw2 : ∀ r2, (t ++ [',']).dropWhile isPyWs ≠ ',' :: r2 := by
        intro r2 hr2
        rw [dropWhile_append_last isPyWs ',' (by decide) t, htd] at hr2
        rw [show (d :: ds) ++ [','] = d :: (ds ++ [',']) from rfl] at hr2
        obtain ⟨h1, _⟩ := List.cons.inj hr2
        exact hdne h1
      rw [List.cons_append, commaSub_ws_nomatch c _ h hdw2,
        takeWhile_append_last isPyWs ',' (by decide) t,
        dropWhile_append_last isPyWs ',' (by decide) t, htd, ih]
      have ht : t = t.takeWhile isPyWs ++ d :: ds := by
        conv_lhs => rw [← List.takeWhile_append_dropWhile (p := isPyWs) (l := t)]
        rw [htd]
      have hse : stripEnd (c :: t) = (c :: t.takeWhile isPyWs) ++ d :: stripEnd ds := by
        conv_lhs => rw [ht, show c :: (t.takeWhile isPyWs ++ d :: ds) =
          (c :: t.takeWhile isPyWs) ++ d :: ds from rfl]
        exact stripEnd_append_mid d hd _ ds
      have hdw3 : ∀ r2, (t.takeWhile isPyWs ++ d :: stripEnd ds).dropWhile isPyWs ≠
          ',' :: r2 := by
        intro r2 hr2
        rw [dropWhile_all_append isPyWs _ (mem_takeWhile_sat isPyWs t) d hd] at hr2
        obtain ⟨h1, _⟩ := List.cons.inj hr2
        exact hdne h1
      rw [hse, show (c :: t.takeWhile isPyWs) ++ d :: stripEnd ds =
        c :: (t.takeWhile isPyWs ++ d :: stripEnd ds) from rfl,
        commaSub_ws_nomatch c _ h hdw3,
        takeWhile_all_append isPyWs _ (mem_takeWhile_sat isPyWs t) d hd,
        dropWhile_all_append isPyWs _ (mem_takeWhile_sat isPyWs t) d hd,
        show stripEnd (d :: ds) = d :: stripEnd ds from stripEnd_cons_nonws d hd ds]
      simp
  | case4 t h ih =>
    rw [List.cons_append, commaSub_cons_comma, dropWhile_append_last isPyWs ',' (by decide) t,
      ih, stripEnd_cons_nonws ',' (by decide) t, commaSub_cons_comma,
      ← stripEnd_dropWhile_comm t]
    rfl
  | case5 c t h hc ih =>
    have h' : isPyWs c = false := by
      cases hb : isPyWs c
      · rfl
      · exact absurd hb h
    rw [List.cons_append, commaSub_cons_other c _ h' hc, ih,
      stripEnd_cons_nonws c h' t, commaSub_cons_other c _ h' hc]
    rfl

/-- Master fixed point: a collapsed-and-stripped list is stable under a
further strip-and-collapse. -/
theorem commaSub_strip_fix : ∀ (n : Nat) (S : List Char), S.length ≤ n →
    commaSub (stripEnd (commaSub (stripEnd S))) = commaSub (stripEnd S) := by
  intro n
  induction n with
  | zero =>
    intro S hS
    have h0 : S = [] := List.eq_nil_of_length_eq_zero (Nat.le_zero.mp hS)
    subst h0
    rw [stripEnd_nil, commaSub_nil, stripEnd_nil, commaSub_nil]
  | succ n ih =>
    intro S hS
    rcases stripEnd_decomp S with h | ⟨S', r', h, hr', hlen⟩
    · rw [h, commaSub_nil, stripEnd_nil, commaSub_nil]
    · by_cases hrc : r' = ','
      · subst hrc
        rw [h, commaSub_trail_comma S',
          show commaSub (stripEnd S') ++ [',', ' '] =
            commaSub (stripEnd S') ++ ',' :: [' '] from rfl,
          stripEnd_append_mid ',' (by decide) _ [' '],
          stripEnd_all_ws [' '] (by decide),
          commaSub_trail_comma (commaSub (stripEnd S')),
          ih S' (by omega)]
      · rw [h, commaSub_append_last r' hr' hrc S',
          show commaSub S' ++ [r'] = commaSub S' ++ r' :: ([] : List Char) from rfl,
          stripEnd_append_mid r' hr' _ [], stripEnd_nil,
          commaSub_append_last r' hr' hrc (commaSub S'), commaSub_idem]

theorem stripWs_eq_stripEnd_of_headOk (l : List Char) (h : headOkWs l = true) :
    stripWs l = stripEnd l := by
  unfold stripWs
  rw [dropWhile_of_headOk l h]

theorem normArgs_idem (a : List Char) : normArgs (normArgs a) = normArgs a := by
  unfold normArgs
  have hv_nl : ∀ x ∈ commaSub (stripWs (a.filter (fun c => c != '\n'))),
      (x != '\n') = true := by
    intro x hx
    rcases mem_commaSub _ x hx with hm | hs | hc
    · exact (List.mem_filter.mp (mem_stripWs _ x hm)).2
    · rw [hs]; decide
    · rw [hc]; decide
  rw [List.filter_eq_self.mpr hv_nl,
    stripWs_eq_stripEnd_of_headOk _ (commaSub_headOk _ (headOkWs_stripWs _))]
  exact commaSub_strip_fix ((a.filter (fun c => c != '\n')).dropWhile isPyWs).length _
    (Nat.le_refl _)

/-! ### The declaration-pattern match attempt

Pattern `^(\s*def\s+\w+\s*\()([^\)]*?)(\):)` with DOTALL|MULTILINE: at a
line start, a maximal whitespace run, `def`, a nonempty maximal
whitespace run, a nonempty maximal word run, a maximal whitespace run,
`(`, then the lazy `[^\)]*?` stops at the first `)`, which must be
followed by `:`. Group 1 is kept verbatim; the arguments are rewritten
by `normArgs`. -/

theorem wordChar_not_ws (c : Char) (h : isWordChar c = true) : isPyWs c = false := by
  by_contra hne
  have hws : isPyWs c = true := by
    cases hb : isPyWs c
    · exact absurd hb hne
    · rfl
  unfold isPyWs at hws
  simp only [Bool.or_eq_true, beq_iff_eq] at hws
  rcases hws with ((((h1 | h1) | h1) | h1) | h1) | h1 <;> subst h1 <;>
    exact absurd h (by decide)

theorem ws_not_wordChar (c : Char) (h : isPyWs c = true) : isWordChar c = false := by
  cases hb : isWordChar c
  · rfl
  · rw [wordChar_not_ws c hb] at h
    cases h

def dTryCore (z : List Char) : Option (List Char × List Char) :=
  if DEFKW.isPrefixOf z then
    if (z.drop 3).takeWhile isPyWs = [] then none
    else if ((z.drop 3).dropWhile isPyWs).takeWhile isWordChar = [] then none
    else
      match ((((z.drop 3).dropWhile isPyWs).dropWhile isWordChar).dropWhile isPyWs) with
      | c :: z4 =>
        if c = '(' then
          match breakAtParen z4 with
          | some (args, after) =>
            match after with
            | c2 :: rest =>
              if c2 = ':' then
                some (DEFKW ++ ((z.drop 3).takeWhile isPyWs ++
                  (((z.drop 3).dropWhile isPyWs).takeWhile isWordChar ++
                  ((((z.drop 3).dropWhile isPyWs).dropWhile isWordChar).takeWhile isPyWs ++
                  ('(' :: (normArgs args ++ [')', ':'])))))
                , rest)
              else none
            | [] => none
          | none => none
        else none
      | [] => none
  else none

def dTryMatch (l : List Char) : Option (List Char × List Char) :=
  match dTryCore (l.dropWhile isPyWs) with
  | some (repl, rest) => some (l.takeWhile isPyWs ++ repl, rest)
  | none => none

/-! Early-failure reductions. -/

theorem dTryCore_none_d1 (z : List Char) (h : ¬ DEFKW.isPrefixOf z = true) :
    dTryCore z = none := by
  unfold dTryCore
  rw [if_neg h]

theorem dTryCore_none_d2 (z : List Char) (hpre : DEFKW.isPrefixOf z = true)
    (h : (z.drop 3).takeWhile isPyWs = []) : dTryCore z = none := by
  unfold dTryCore
  rw [if_pos hpre, if_pos h]

theorem dTryCore_none_d3 (z : List Char) (hpre : DEFKW.isPrefixOf z = true)
    (hw1 : (z.drop 3).takeWhile isPyWs ≠ [])
    (h : ((z.drop 3).dropWhile isPyWs).takeWhile isWordChar = []) : dTryCore z = none := by
  unfold dTryCore
  rw [if_pos hpre, if_neg hw1, if_pos h]

theorem dTryCore_reduce (z : List Char) (c : Char) (z4 : List Char)
    (hpre : DEFKW.isPrefixOf z = true)
    (hw1 : (z.drop 3).takeWhile isPyWs ≠ [])
    (hnm : ((z.drop 3).dropWhile isPyWs).takeWhile isWordChar ≠ [])
    (hdw : ((((z.drop 3).dropWhile isPyWs).dropWhile isWordChar).dropWhile isPyWs) = c :: z4) :
    dTryCore z = if c = '(' then
      match breakAtParen z4 with
      | some (args, after) =>
        match after with
        | c2 :: rest =>
          if c2 = ':' then
            some (DEFKW ++ ((z.drop 3).takeWhile isPyWs ++
              (((z.drop 3).dropWhile isPyWs).takeWhile isWordChar ++
              ((((z.drop 3).dropWhile isPyWs).dropWhile isWordChar).takeWhile isPyWs ++
              ('(' :: (normArgs args ++ [')', ':'])))))
            , rest)
          else none
        | [] => none
      | none => none
    else none := by
  unfold dTryCore
  rw [if_pos hpre, if_neg hw1, if_neg hnm, hdw]

theorem dTryCore_none_d4 (z : List Char) (hpre : DEFKW.isPrefixOf z = true)
    (hw1 : (z.drop 3).takeWhile isPyWs ≠ [])
    (hnm : ((z.drop 3).dropWhile isPyWs).takeWhile isWordChar ≠ [])
    (hdw : ((((z.drop 3).dropWhile isPyWs).dropWhile isWordChar).dropWhile isPyWs) = []) :
    dTryCore z = none := by
  unfold dTryCore
  rw [if_pos hpre, if_neg hw1, if_neg hnm, hdw]

theorem dTryCore_none_d5 (z : List Char) (c : Char) (z4 : List Char)
    (hpre : DEFKW.isPrefixOf z = true)
    (hw1 : (z.drop 3).takeWhile isPyWs ≠ [])
    (hnm : ((z.drop 3).dropWhile isPyWs).takeWhile isWordChar ≠ [])
    (hdw : ((((z.drop 3).dropWhile isPyWs).dropWhile isWordChar).dropWhile isPyWs) = c :: z4)
    (hc : c ≠ '(') : dTryCore z = none := by
  rw [dTryCore_reduce z c z4 hpre hw1 hnm hdw, if_neg hc]

theorem dTryCore_none_d6 (z : List Char) (z4 : List Char)
    (hpre : DEFKW.isPrefixOf z = true)
    (hw1 : (z.drop 3).takeWhile isPyWs ≠ [])
    (hnm : ((z.drop 3).dropWhile isPyWs).takeWhile isWordChar ≠ [])
    (hdw : ((((z.drop 3).dropWhile isPyWs).dropWhile isWordChar).dropWhile isPyWs) = '(' :: z4)
    (hb : breakAtParen z4 = none) : dTryCore z = none := by
  rw [dTryCore_reduce z '(' z4 hpre hw1 hnm hdw, if_pos rfl, hb]

theorem dTryCore_none_d7 (z : List Char) (z4 args : List Char)
    (hpre : DEFKW.isPrefixOf z = true)
    (hw1 : (z.drop 3).takeWhile isPyWs ≠ [])
    (hnm : ((z.drop 3).dropWhile isPyWs).takeWhile isWordChar ≠ [])
    (hdw : ((((z.drop 3).dropWhile isPyWs).dropWhile isWordChar).dropWhile isPyWs) = '(' :: z4)
    (hb : breakAtParen z4 = some (args, [])) : dTryCore z = none := by
  rw [dTryCore_reduce z '(' z4 hpre hw1 hnm hdw, if_pos rfl, hb]

theorem dTryCore_none_d8 (z : List Char) (z4 args : List Char) (c2 : Char) (rest : List Char)
    (hpre : DEFKW.isPrefixOf z = true)
    (hw1 : (z.drop 3).takeWhile isPyWs ≠ [])
    (hnm : ((z.drop 3).dropWhile isPyWs).takeWhile isWordChar ≠ [])
    (hdw : ((((z.drop 3).dropWhile isPyWs).dropWhile isWordChar).dropWhile isPyWs) = '(' :: z4)
    (hb : breakAtParen z4 = some (args, c2 :: rest)) (hc2 : c2 ≠ ':') :
    dTryCore z = none := by
  rw [dTryCore_reduce z '(' z4 hpre hw1 hnm hdw, if_pos rfl, hb]
  exact if_neg hc2

/-! Parse-chain facts for a well-shaped declaration region. -/

theorem parse_w1 (w1 nm X : List Char) (hw1 : ∀ c ∈ w1, isPyWs c = true)
    (hnmne : nm ≠ []) (hnmw : ∀ c ∈ nm, isWordChar c = true) :
    (w1 ++ (nm ++ X)).takeWhile isPyWs = w1 ∧
    (w1 ++ (nm ++ X)).dropWhile isPyWs = nm ++ X := by
  cases nm with
  | nil => exact absurd rfl hnmne
  | cons n0 nmt =>
    have hn0 : isPyWs n0 = false := wordChar_not_ws n0 (hnmw n0 (List.mem_cons_self _ _))
    rw [show (n0 :: nmt) ++ X = n0 :: (nmt ++ X) from rfl]
    exact ⟨takeWhile_all_append isPyWs w1 hw1 n0 hn0 _,
      dropWhile_all_append isPyWs w1 hw1 n0 hn0 _⟩

theorem parse_nm (nm w2 Y : List Char) (hnmw : ∀ c ∈ nm, isWordChar c = true)
    (hw2 : ∀ c ∈ w2, isPyWs c = true) :
    (nm ++ (w2 ++ ('(' :: Y))).takeWhile isWordChar = nm ∧
    (nm ++ (w2 ++ ('(' :: Y))).dropWhile isWordChar = w2 ++ ('(' :: Y) := by
  cases w2 with
  | nil =>
    rw [show ([] : List Char) ++ ('(' :: Y) = '(' :: Y from rfl]
    exact ⟨takeWhile_all_append isWordChar nm hnmw '(' (by decide) _,
      dropWhile_all_append isWordChar nm hnmw '(' (by decide) _⟩
  | cons h2 t2 =>
    have hh2 : isWordChar h2 = false := ws_not_wordChar h2 (hw2 h2 (List.mem_cons_self _ _))
    rw [show (h2 :: t2) ++ ('(' :: Y) = h2 :: (t2 ++ ('(' :: Y)) from rfl]
    exact ⟨takeWhile_all_append isWordChar nm hnmw h2 hh2 _,
      dropWhile_all_append isWordChar nm hnmw h2 hh2 _⟩

theorem parse_w2 (w2 Y : List Char) (hw2 : ∀ c ∈ w2, isPyWs c = true) :
    (w2 ++ ('(' :: Y)).takeWhile isPyWs = w2 ∧
    (w2 ++ ('(' :: Y)).dropWhile isPyWs = '(' :: Y :=
  ⟨takeWhile_all_append isPyWs w2 hw2 '(' (by decide) _,
    dropWhile_all_append isPyWs w2 hw2 '(' (by decide) _⟩

theorem defkw_isPrefixOf_append (Y : List Char) : DEFKW.isPrefixOf (DEFKW ++ Y) = true :=
  List.isPrefixOf_iff_prefix.mpr ⟨Y, rfl⟩

theorem drop3_defkw_append (Y : List Char) : (DEFKW ++ Y).drop 3 = Y := rfl

theorem defkw_prefix_decomp (z : List Char) (h : DEFKW.isPrefixOf z = true) :
    z = DEFKW ++ z.drop 3 := by
  obtain ⟨z2, hz2⟩ := List.isPrefixOf_iff_prefix.mp h
  have hd : z.drop 3 = z2 := by rw [← hz2]; rfl
  rw [hd, ← hz2]

theorem dTryCore_build (w1 nm w2 args x : List Char)
    (hw1ne : w1 ≠ []) (hw1 : ∀ c ∈ w1, isPyWs c = true)
    (hnmne : nm ≠ []) (hnmw : ∀ c ∈ nm, isWordChar c = true)
    (hw2 : ∀ c ∈ w2, isPyWs c = true) (hargs : ')' ∉ args) :
    dTryCore (DEFKW ++ (w1 ++ (nm ++ (w2 ++ ('(' :: (args ++ ')' :: ':' :: x)))))) =
      some (DEFKW ++ (w1 ++ (nm ++ (w2 ++ ('(' :: (normArgs args ++ [')', ':']))))), x) := by
  have hpre := defkw_isPrefixOf_append (w1 ++ (nm ++ (w2 ++ ('(' :: (args ++ ')' :: ':' :: x)))))
  have hd3 := drop3_defkw_append (w1 ++ (nm ++ (w2 ++ ('(' :: (args ++ ')' :: ':' :: x)))))
  obtain ⟨hp1t, hp1d⟩ := parse_w1 w1 nm (w2 ++ ('(' :: (args ++ ')' :: ':' :: x))) hw1 hnmne hnmw
  obtain ⟨hp2t, hp2d⟩ := parse_nm nm w2 (args ++ ')' :: ':' :: x) hnmw hw2
  obtain ⟨hp3t, hp3d⟩ := parse_w2 w2 (args ++ ')' :: ':' :: x) hw2
  rw [dTryCore_reduce _ '(' (args ++ ')' :: ':' :: x) hpre
    (by rw [hd3, hp1t]; exact hw1ne)
    (by rw [hd3, hp1d, hp2t]; exact hnmne)
    (by rw [hd3, hp1d, hp2d, hp3d]),
    if_pos rfl, breakAtParen_append args (':' :: x) hargs,
    hd3, hp1t, hp1d, hp2t, hp2d, hp3t]
  rfl

theorem dTryCore_some (z repl rest : List Char) (h : dTryCore z = some (repl, rest)) :
    ∃ w1 nm w2 args,
      w1 ≠ [] ∧ (∀ c ∈ w1, isPyWs c = true) ∧
      nm ≠ [] ∧ (∀ c ∈ nm, isWordChar c = true) ∧
      (∀ c ∈ w2, isPyWs c = true) ∧ ')' ∉ args ∧
      z = DEFKW ++ (w1 ++ (nm ++ (w2 ++ ('(' :: (args ++ ')' :: ':' :: rest))))) ∧
      repl = DEFKW ++ (w1 ++ (nm ++ (w2 ++ ('(' :: (normArgs args ++ [')', ':']))))) := by
  unfold dTryCore at h
  split at h
  case isTrue hpre =>
    split at h
    case isTrue => cases h
    case isFalse hw1ne =>
      split at h
      case isTrue => cases h
      case isFalse hnmne =>
        split at h
        case h_1 c z4 hdw =>
          split at h
          case isTrue hc =>
            subst hc
            cases hb : breakAtParen z4 with
            | none => rw [hb] at h; cases h
            | some p =>
              obtain ⟨args, after⟩ := p
              rw [hb] at h
              split at h
              next ov argsv argsz afterz heq =>
                obtain ⟨h1, h2⟩ := Prod.mk.inj (Option.some.inj heq)
                subst h1
                subst h2
                split at h
                next mv ch tl =>
                  by_cases hc2 : ch = ':'
                  · subst hc2
                    rw [if_pos rfl] at h
                    obtain ⟨hr, hrest⟩ := Prod.mk.inj (Option.some.inj h)
                    obtain ⟨hz4, hnopar⟩ := breakAtParen_some z4 args (':' :: tl) hb
                    refine ⟨(z.drop 3).takeWhile isPyWs,
                      ((z.drop 3).dropWhile isPyWs).takeWhile isWordChar,
                      (((z.drop 3).dropWhile isPyWs).dropWhile isWordChar).takeWhile isPyWs,
                      args, hw1ne, mem_takeWhile_sat _ _, hnmne, mem_takeWhile_sat _ _,
                      mem_takeWhile_sat _ _, hnopar, ?_, ?_⟩
                    · have e3 : (((z.drop 3).dropWhile isPyWs).dropWhile isWordChar) =
                          (((z.drop 3).dropWhile isPyWs).dropWhile isWordChar).takeWhile isPyWs
                            ++ ('(' :: z4) := by
                        conv_lhs => rw [← List.takeWhile_append_dropWhile (p := isPyWs)
                          (l := ((z.drop 3).dropWhile isPyWs).dropWhile isWordChar)]
                        rw [hdw]
                      have e4 : (args ++ ')' :: ':' :: rest) = z4 := by
                        rw [hz4, hrest]
                      rw [e4, ← e3, List.takeWhile_append_dropWhile,
                        List.takeWhile_append_dropWhile]
                      exact defkw_prefix_decomp z hpre
                    · rw [← hr]
                  · rw [if_neg hc2] at h
                    cases h
                next mv2 => cases h
              next heq0 => cases h
          case isFalse => cases h
        case h_2 => cases h
  case isFalse => cases h

theorem mem_normArgs (a : List Char) : ∀ x ∈ normArgs a, x ∈ a ∨ x = ' ' ∨ x = ',' := by
  intro x hx
  rcases mem_commaSub _ x hx with hm | hs
  · exact Or.inl (List.mem_filter.mp (mem_stripWs _ x hm)).1
  · exact Or.inr hs

theorem normArgs_paren_free (a : List Char) (h : ')' ∉ a) : ')' ∉ normArgs a := by
  intro hx
  rcases mem_normArgs a ')' hx with hm | hs | hc
  · exact h hm
  · cases hs
  · cases hc

theorem dTryMatch_reduce (l repl rest : List Char)
    (h : dTryCore (l.dropWhile isPyWs) = some (repl, rest)) :
    dTryMatch l = some (l.takeWhile isPyWs ++ repl, rest) := by
  unfold dTryMatch
  rw [h]

theorem dTryMatch_none_of_core (l : List Char)
    (h : dTryCore (l.dropWhile isPyWs) = none) : dTryMatch l = none := by
  unfold dTryMatch
  rw [h]

theorem dTryMatch_none_core (l : List Char) (h : dTryMatch l = none) :
    dTryCore (l.dropWhile isPyWs) = none := by
  unfold dTryMatch at h
  split at h
  case h_1 heq => cases h
  case h_2 heq => exact heq

theorem dTryMatch_some (l r rest : List Char) (h : dTryMatch l = some (r, rest)) :
    ∃ w w1 nm w2 args,
      (∀ c ∈ w, isPyWs c = true) ∧
      w1 ≠ [] ∧ (∀ c ∈ w1, isPyWs c = true) ∧
      nm ≠ [] ∧ (∀ c ∈ nm, isWordChar c = true) ∧
      (∀ c ∈ w2, isPyWs c = true) ∧ ')' ∉ args ∧
      l = w ++ (DEFKW ++ (w1 ++ (nm ++ (w2 ++ ('(' :: (args ++ ')' :: ':' :: rest)))))) ∧
      r = w ++ (DEFKW ++ (w1 ++ (nm ++ (w2 ++ ('(' :: (normArgs args ++ [')', ':'])))))) ∧
      w = l.takeWhile isPyWs := by
  unfold dTryMatch at h
  split at h
  case h_1 repl rest' hc =>
    obtain ⟨hr, hrest⟩ := Prod.mk.inj (Option.some.inj h)
    obtain ⟨w1, nm, w2, args, hw1ne, hw1, hnmne, hnm, hw2, hnopar, hz, hrepl⟩ :=
      dTryCore_some _ repl rest' hc
    refine ⟨l.takeWhile isPyWs, w1, nm, w2, args, mem_takeWhile_sat isPyWs l,
      hw1ne, hw1, hnmne, hnm, hw2, hnopar, ?_, ?_, rfl⟩
    · conv_lhs => rw [← List.takeWhile_append_dropWhile (p := isPyWs) (l := l)]
      rw [hz, hrest]
    · rw [← hr, hrepl]
  case h_2 => cases h

theorem dTryMatch_some_decomp (l r rest : List Char) (h : dTryMatch l = some (r, rest)) :
    rest.length < l.length := by
  obtain ⟨w, w1, nm, w2, args, _, _, _, _, _, _, _, hl, _, _⟩ := dTryMatch_some l r rest h
  have hlen := congrArg List.length hl
  simp [DEFKW] at hlen
  omega

theorem dTryMatch_build (w w1 nm w2 args x : List Char)
    (hw : ∀ c ∈ w, isPyWs c = true)
    (hw1ne : w1 ≠ []) (hw1 : ∀ c ∈ w1, isPyWs c = true)
    (hnmne : nm ≠ []) (hnmw : ∀ c ∈ nm, isWordChar c = true)
    (hw2 : ∀ c ∈ w2, isPyWs c = true) (hargs : ')' ∉ args) :
    dTryMatch (w ++ (DEFKW ++ (w1 ++ (nm ++ (w2 ++ ('(' :: (args ++ ')' :: ':' :: x))))))) =
      some (w ++ (DEFKW ++ (w1 ++ (nm ++ (w2 ++ ('(' :: (normArgs args ++ [')', ':'])))))),
        x) := by
  have hshape : w ++ (DEFKW ++ (w1 ++ (nm ++ (w2 ++ ('(' :: (args ++ ')' :: ':' :: x)))))) =
      w ++ 'd' :: (['e', 'f'] ++ (w1 ++ (nm ++ (w2 ++ ('(' :: (args ++ ')' :: ':' :: x)))))) :=
    rfl
  have hdw : (w ++ (DEFKW ++ (w1 ++ (nm ++ (w2 ++
      ('(' :: (args ++ ')' :: ':' :: x))))))).dropWhile isPyWs =
      DEFKW ++ (w1 ++ (nm ++ (w2 ++ ('(' :: (args ++ ')' :: ':' :: x))))) := by
    rw [hshape]
    exact dropWhile_all_append isPyWs w hw 'd' (by decide) _
  have htw : (w ++ (DEFKW ++ (w1 ++ (nm ++ (w2 ++
      ('(' :: (args ++ ')' :: ':' :: x))))))).takeWhile isPyWs = w := by
    rw [hshape]
    exact takeWhile_all_append isPyWs w hw 'd' (by decide) _
  have hcore : dTryCore ((w ++ (DEFKW ++ (w1 ++ (nm ++ (w2 ++
      ('(' :: (args ++ ')' :: ':' :: x))))))).dropWhile isPyWs) =
      some (DEFKW ++ (w1 ++ (nm ++ (w2 ++ ('(' :: (normArgs args ++ [')', ':']))))), x) := by
    rw [hdw]
    exact dTryCore_build w1 nm w2 args x hw1ne hw1 hnmne hnmw hw2 hargs
  rw [dTryMatch_reduce _ _ _ hcore, htw]

/-- A1-D: a declaration replacement is itself a stable match, consuming
exactly itself. -/
theorem dTryMatch_repl (l r rest : List Char) (h : dTryMatch l = some (r, rest))
    (x : List Char) : dTryMatch (r ++ x) = some (r, x) := by
  obtain ⟨w, w1, nm, w2, args, hw, hw1ne, hw1, hnmne, hnm, hw2, hnopar, _, hr, _⟩ :=
    dTryMatch_some l r rest h
  have hx : r ++ x = w ++ (DEFKW ++ (w1 ++ (nm ++ (w2 ++
      ('(' :: (normArgs args ++ ')' :: ':' :: x)))))) := by
    rw [hr]
    simp [List.append_assoc]
  rw [hx, dTryMatch_build w w1 nm w2 (normArgs args) x hw hw1ne hw1 hnmne hnm hw2
    (normArgs_paren_free args hnopar), normArgs_idem, ← hr]

/-! ### The declaration scan -/

def dScan : Bool → List Char → List Char
  | _, [] => []
  | false, c :: t => c :: dScan (c == '\n') t
  | true, c :: t =>
    match hm : dTryMatch (c :: t) with
    | some (r, rest) => r ++ dScan false rest
    | none => c :: dScan (c == '\n') t
termination_by _ l => l.length
decreasing_by
  all_goals simp_wf
  all_goals first
    | omega
    | (exact dTryMatch_some_decomp _ _ _ hm)

theorem dScan_nil (b : Bool) : dScan b [] = [] := by simp [dScan]

theorem dScan_false_cons (c : Char) (t : List Char) :
    dScan false (c :: t) = c :: dScan (c == '\n') t := by
  conv_lhs => rw [dScan.eq_def]

theorem dScan_true_cons_match (c : Char) (t r rest : List Char)
    (h : dTryMatch (c :: t) = some (r, rest)) :
    dScan true (c :: t) = r ++ dScan false rest := by
  simp only [dScan]
  split
  · rename_i r' rest' heq
    rw [h] at heq
    obtain ⟨h1, h2⟩ := Prod.mk.inj (Option.some.inj heq)
    rw [h1, h2]
  · rename_i heq
    rw [h] at heq
    cases heq

theorem dScan_true_cons_none (c : Char) (t : List Char)
    (h : dTryMatch (c :: t) = none) :
    dScan true (c :: t) = c :: dScan (c == '\n') t := by
  simp only [dScan]
  split
  · rename_i r' rest' heq
    rw [h] at heq
    cases heq
  · rfl

theorem dTryMatch_nil_none : dTryMatch ([] : List Char) = none :=
  dTryMatch_none_of_core [] (dTryCore_none_d1 [] (by decide))

theorem dScan_true_match (u r rest : List Char) (h : dTryMatch u = some (r, rest)) :
    dScan true u = r ++ dScan false rest := by
  cases u with
  | nil => rw [dTryMatch_nil_none] at h; cases h
  | cons c t => exact dScan_true_cons_match c t r rest h

/-- No declaration match starts at a line-start position strictly
within the region `a`. -/
def NoStartD : Bool → List Char → List Char → Prop
  | _, [], _ => True
  | b, c :: a', x => (b = true → dTryMatch (c :: (a' ++ x)) = none) ∧ NoStartD (c == '\n') a' x

theorem noStartD_append (b : Bool) (a₁ a₂ x : List Char)
    (h₁ : NoStartD b a₁ (a₂ ++ x)) (h₂ : NoStartD (flagAfter b a₁) a₂ x) :
    NoStartD b (a₁ ++ a₂) x := by
  induction a₁ generalizing b with
  | nil => exact h₂
  | cons c a' ih =>
    obtain ⟨hh, ht⟩ := h₁
    refine ⟨?_, ih (c == '\n') ht (by rwa [flagAfter_cons] at h₂)⟩
    intro hb
    have hm := hh hb
    simpa only [List.append_eq, List.append_assoc] using hm

theorem dScan_copy (b : Bool) (a x : List Char) (h : NoStartD b a x) :
    dScan b (a ++ x) = a ++ dScan (flagAfter b a) x := by
  induction a generalizing b with
  | nil => rw [flagAfter_nil]; rfl
  | cons c a' ih =>
    obtain ⟨hh, ht⟩ := h
    rw [List.cons_append, flagAfter_cons]
    cases b with
    | false => rw [dScan_false_cons, ih _ ht]; rfl
    | true => rw [dScan_true_cons_none _ _ (hh rfl), ih _ ht]; rfl

theorem noStartD_ws (W x : List Char) (hW : ∀ c ∈ W, isPyWs c = true)
    (hx : dTryCore (x.dropWhile isPyWs) = none) : ∀ b, NoStartD b W x := by
  induction W with
  | nil => intro b; trivial
  | cons c W' ih =>
    intro b
    have htail := fun d hd => hW d (List.mem_cons_of_mem _ hd)
    refine ⟨?_, ih htail (c == '\n')⟩
    intro _
    apply dTryMatch_none_of_core
    have hstrip : (c :: (W' ++ x)).dropWhile isPyWs = x.dropWhile isPyWs := by
      rw [List.dropWhile_cons, if_pos (hW c (List.mem_cons_self _ _))]
      exact dropWhile_append_ws W' x htail
    rw [hstrip]
    exact hx

theorem noStartD_nonl (a x : List Char) (ha : '\n' ∉ a) (b : Bool)
    (hb : b = true → dTryMatch (a ++ x) = none) : NoStartD b a x := by
  induction a generalizing b with
  | nil => trivial
  | cons c a' ih =>
    have hc : c ≠ '\n' := fun h => ha (h ▸ List.mem_cons_self _ _)
    refine ⟨fun h => hb h, ?_⟩
    rw [show (c == '\n') = false by simp [hc]]
    exact ih (fun hd => ha (List.mem_cons_of_mem _ hd)) false
      (fun h => absurd h Bool.false_ne_true)

theorem noStartD_false_single (c : Char) (x : List Char) : NoStartD false [c] x :=
  ⟨fun h => absurd h Bool.false_ne_true, trivial⟩

theorem dTryMatch_lparen (l r rest : List Char) (h : dTryMatch l = some (r, rest)) :
    '(' ∈ l := by
  obtain ⟨w, w1, nm, w2, args, _, _, _, _, _, _, _, hl, _, _⟩ := dTryMatch_some l r rest h
  rw [hl]
  simp

theorem dScan_noLParen : ∀ (b : Bool) (l : List Char), '(' ∉ l → dScan b l = l := by
  intro b l
  induction b, l using dScan.induct with
  | case1 => intro _; exact dScan_nil _
  | case2 c t ih =>
    intro h
    rw [dScan_false_cons, ih (fun hm => h (List.mem_cons_of_mem _ hm))]
  | case3 c t r rest hm ih =>
    intro h
    exact absurd (dTryMatch_lparen _ _ _ hm) h
  | case4 c t hm ih =>
    intro h
    rw [dScan_true_cons_none _ _ hm, ih (fun hmem => h (List.mem_cons_of_mem _ hmem))]

theorem dTryMatch_none_of_noPC (l : List Char)
    (h : ∀ A B : List Char, l ≠ A ++ ')' :: ':' :: B) : dTryMatch l = none := by
  cases hm : dTryMatch l with
  | none => rfl
  | some p =>
    obtain ⟨w, w1, nm, w2, args, _, _, _, _, _, _, _, hl, _, _⟩ :=
      dTryMatch_some l p.1 p.2 (by rw [hm])
    exact absurd (by rw [hl]; simp [List.append_assoc] :
      l = (w ++ (DEFKW ++ (w1 ++ (nm ++ (w2 ++ '(' :: args))))) ++ ')' :: ':' :: p.2)
      (h _ _)

theorem noPC_tail (c : Char) (t : List Char)
    (h : ∀ A B : List Char, c :: t ≠ A ++ ')' :: ':' :: B) :
    ∀ A B : List Char, t ≠ A ++ ')' :: ':' :: B := by
  intro A B heq
  exact h (c :: A) B (by rw [heq]; rfl)

theorem dScan_noPC : ∀ (b : Bool) (l : List Char),
    (∀ A B : List Char, l ≠ A ++ ')' :: ':' :: B) → dScan b l = l := by
  intro b l
  induction b, l using dScan.induct with
  | case1 => intro _; exact dScan_nil _
  | case2 c t ih =>
    intro h
    rw [dScan_false_cons, ih (noPC_tail c t h)]
  | case3 c t r rest hm ih =>
    intro h
    rw [dTryMatch_none_of_noPC _ h] at hm
    cases hm
  | case4 c t hm ih =>
    intro h
    rw [dScan_true_cons_none _ _ hm, ih (noPC_tail c t h)]

/-! ### A3-D: a declaration none-verdict survives the declaration scan -/

theorem dropWhile_defkw_append (Y : List Char) :
    (DEFKW ++ Y).dropWhile isPyWs = DEFKW ++ Y :=
  dropWhile_head_false_eq isPyWs 'd' _ (by decide)

theorem defkw_append_cons (Y : List Char) :
    DEFKW ++ Y = 'd' :: (['e', 'f'] ++ Y) := rfl

theorem defkw_prefix_head (c : Char) (X : List Char)
    (h : DEFKW.isPrefixOf (c :: X) = true) : c = 'd' := by
  have hp := List.isPrefixOf_iff_prefix.mp h
  obtain ⟨t, ht⟩ := hp
  exact (List.cons.inj ht).1.symm

theorem not_defkw_prefix_of_head (c : Char) (X : List Char) (hc : c ≠ 'd') :
    ¬ DEFKW.isPrefixOf (c :: X) = true := by
  intro h
  exact hc (defkw_prefix_head c X h)

theorem takeWhile_nil_decomp {α : Type} (p : α → Bool) (l : List α)
    (h : l.takeWhile p = []) : l = [] ∨ ∃ c t, l = c :: t ∧ p c = false := by
  cases l with
  | nil => exact Or.inl rfl
  | cons c t =>
    right
    refine ⟨c, t, rfl, ?_⟩
    cases hc : p c
    · rfl
    · rw [List.takeWhile_cons, if_pos hc] at h
      cases h

theorem dTryMatch_rparen (l r rest : List Char) (h : dTryMatch l = some (r, rest)) :
    ')' ∈ l := by
  obtain ⟨w, w1, nm, w2, args, _, _, _, _, _, _, _, hl, _, _⟩ := dTryMatch_some l r rest h
  rw [hl]
  simp

theorem dScan_noRParen : ∀ (b : Bool) (l : List Char), ')' ∉ l → dScan b l = l := by
  intro b l
  induction b, l using dScan.induct with
  | case1 => intro _; exact dScan_nil _
  | case2 c t ih =>
    intro h
    rw [dScan_false_cons, ih (fun hm => h (List.mem_cons_of_mem _ hm))]
  | case3 c t r rest hm ih =>
    intro h
    exact absurd (dTryMatch_rparen _ _ _ hm) h
  | case4 c t hm ih =>
    intro h
    rw [dScan_true_cons_none _ _ hm, ih (fun hmem => h (List.mem_cons_of_mem _ hmem))]

theorem lastParen_of (F : List Char) (hF : ')' ∉ F) :
    ∀ (A : List Char) (c : Char) (B : List Char), F ++ [')'] ≠ A ++ ')' :: c :: B := by
  intro A c B heq
  have h1 : breakAtParen (F ++ [')']) = some (F, []) := by
    rw [show F ++ [')'] = F ++ ')' :: ([] : List Char) from rfl]
    exact breakAtParen_append F [] hF
  by_cases hA : ')' ∈ A
  · have hsA := breakAtParen_isSome_of_mem A hA
    cases hbA : breakAtParen A with
    | none => rw [hbA] at hsA; cases hsA
    | some q =>
      obtain ⟨hAd, hAfree⟩ := breakAtParen_some A q.1 q.2 hbA
      have h2 : breakAtParen (F ++ [')']) = some (q.1, q.2 ++ ')' :: c :: B) := by
        rw [heq, hAd, show (q.1 ++ ')' :: q.2) ++ ')' :: c :: B =
          q.1 ++ ')' :: (q.2 ++ ')' :: c :: B) by simp]
        exact breakAtParen_append q.1 _ hAfree
      rw [h1] at h2
      obtain ⟨_, h4⟩ := Prod.mk.inj (Option.some.inj h2)
      simp at h4
  · have h2 : breakAtParen (F ++ [')']) = some (A, c :: B) := by
      rw [heq]
      exact breakAtParen_append A (c :: B) hA
    rw [h1] at h2
    obtain ⟨_, h4⟩ := Prod.mk.inj (Option.some.inj h2)
    cases h4

/-- The prefix of a declaration match up to its `)` is `)`-free. -/
theorem dTryMatch_some_PC (l r rest : List Char) (h : dTryMatch l = some (r, rest)) :
    ∃ A B : List Char, l = A ++ ')' :: ':' :: B ∧ ')' ∉ A := by
  obtain ⟨w, w1, nm, w2, args, hw, _, hw1, _, hnm, hw2, hnopar, hl, _, _⟩ :=
    dTryMatch_some l r rest h
  refine ⟨w ++ (DEFKW ++ (w1 ++ (nm ++ (w2 ++ '(' :: args)))), rest, ?_, ?_⟩
  · rw [hl]; simp [List.append_assoc]
  · intro hmem
    rcases List.mem_append.mp hmem with hm | hmem1
    · exact ws_ne_rparen _ (hw _ hm) rfl
    rcases List.mem_append.mp hmem1 with hm | hmem2
    · exact absurd hm (by decide)
    rcases List.mem_append.mp hmem2 with hm | hmem3
    · exact ws_ne_rparen _ (hw1 _ hm) rfl
    rcases List.mem_append.mp hmem3 with hm | hmem4
    · exact absurd (hnm _ hm) (by decide)
    rcases List.mem_append.mp hmem4 with hm | hmem5
    · exact ws_ne_rparen _ (hw2 _ hm) rfl
    rcases List.mem_cons.mp hmem5 with hm | hm
    · exact absurd hm (by decide)
    · exact hnopar hm

theorem noStartD_PC (c2 : Char) (hc2 : c2 ≠ ':') (R : List Char) :
    ∀ (F : List Char), ')' ∉ F → ∀ (b : Bool), NoStartD b F (')' :: c2 :: R) := by
  intro F
  induction F with
  | nil => intro _ b; trivial
  | cons f F' ih =>
    intro hF b
    have hF' : ')' ∉ F' := fun hm => hF (List.mem_cons_of_mem _ hm)
    refine ⟨?_, ih hF' (f == '\n')⟩
    intro _
    cases hm : dTryMatch (f :: (F' ++ ')' :: c2 :: R)) with
    | none => rfl
    | some p =>
      obtain ⟨A, B, hl, hAfree⟩ := dTryMatch_some_PC _ p.1 p.2 (by rw [hm])
      have h1 : breakAtParen (f :: (F' ++ ')' :: c2 :: R)) = some (f :: F', c2 :: R) := by
        rw [show f :: (F' ++ ')' :: c2 :: R) = (f :: F') ++ ')' :: c2 :: R from rfl]
        exact breakAtParen_append (f :: F') (c2 :: R) hF
      have h2 : breakAtParen (f :: (F' ++ ')' :: c2 :: R)) = some (A, ':' :: B) := by
        rw [hl]
        exact breakAtParen_append A (':' :: B) hAfree
      rw [h1] at h2
      obtain ⟨_, h4⟩ := Prod.mk.inj (Option.some.inj h2)
      exact absurd (List.cons.inj h4).1 hc2

theorem ws_ne_lparen (c : Char) (h : isPyWs c = true) : c ≠ '(' := by
  intro hc
  rw [hc] at h
  simp [isPyWs] at h

theorem wordChar_ne_lparen (c : Char) (h : isWordChar c = true) : c ≠ '(' := by
  intro hc
  rw [hc] at h
  exact absurd h (by decide)

theorem nonword_ne_d (c : Char) (h : isWordChar c = false) : c ≠ 'd' := by
  intro hc
  rw [hc] at h
  exact absurd h (by decide)

theorem dd2_verdict (c₄ : Char) (E : List Char) (hc₄ : isPyWs c₄ = false) :
    dTryCore ((DEFKW ++ (c₄ :: E)).dropWhile isPyWs) = none := by
  rw [dropWhile_defkw_append]
  apply dTryCore_none_d2 _ (defkw_isPrefixOf_append _)
  rw [drop3_defkw_append]
  exact takeWhile_head_false_eq isPyWs c₄ E hc₄

theorem dd3_verdict (w1 : List Char) (c₃ : Char) (E : List Char)
    (hw1ne : w1 ≠ []) (hw1 : ∀ c ∈ w1, isPyWs c = true)
    (hc₃ws : isPyWs c₃ = false) (hc₃w : isWordChar c₃ = false) :
    dTryCore ((DEFKW ++ (w1 ++ (c₃ :: E))).dropWhile isPyWs) = none := by
  rw [dropWhile_defkw_append]
  refine dTryCore_none_d3 _ (defkw_isPrefixOf_append _) ?_ ?_
  · rw [drop3_defkw_append, takeWhile_all_append isPyWs w1 hw1 c₃ hc₃ws E]
    exact hw1ne
  · rw [drop3_defkw_append, dropWhile_all_append isPyWs w1 hw1 c₃ hc₃ws E]
    exact takeWhile_head_false_eq isWordChar c₃ E hc₃w

theorem d5_verdict (W1 NM W2 : List Char) (e : Char) (E : List Char)
    (hW1ne : W1 ≠ []) (hW1 : ∀ c ∈ W1, isPyWs c = true)
    (hNMne : NM ≠ []) (hNM : ∀ c ∈ NM, isWordChar c = true)
    (hW2 : ∀ c ∈ W2, isPyWs c = true)
    (he_ws : isPyWs e = false) (he_par : e ≠ '(')
    (hside : W2 ≠ [] ∨ isWordChar e = false) :
    dTryCore ((DEFKW ++ (W1 ++ (NM ++ (W2 ++ (e :: E))))).dropWhile isPyWs) = none := by
  rw [dropWhile_defkw_append]
  obtain ⟨hp1t, hp1d⟩ := parse_w1 W1 NM (W2 ++ (e :: E)) hW1 hNMne hNM
  have hp2 : (NM ++ (W2 ++ (e :: E))).takeWhile isWordChar = NM ∧
      (NM ++ (W2 ++ (e :: E))).dropWhile isWordChar = W2 ++ (e :: E) := by
    cases W2 with
    | nil =>
      rcases hside with hne | hew
      · exact absurd rfl hne
      · rw [show ([] : List Char) ++ (e :: E) = e :: E from rfl]
        exact ⟨takeWhile_all_append isWordChar NM hNM e hew _,
          dropWhile_all_append isWordChar NM hNM e hew _⟩
    | cons h2 t2 =>
      have hh2 : isWordChar h2 = false := ws_not_wordChar h2 (hW2 h2 (List.mem_cons_self _ _))
      rw [show (h2 :: t2) ++ (e :: E) = h2 :: (t2 ++ (e :: E)) from rfl]
      exact ⟨takeWhile_all_append isWordChar NM hNM h2 hh2 _,
        dropWhile_all_append isWordChar NM hNM h2 hh2 _⟩
  exact dTryCore_none_d5 _ e E (defkw_isPrefixOf_append _)
    (by rw [drop3_defkw_append, hp1t]; exact hW1ne)
    (by rw [drop3_defkw_append, hp1d, hp2.1]; exact hNMne)
    (by rw [drop3_defkw_append, hp1d, hp2.2]
        exact dropWhile_all_append isPyWs W2 hW2 e he_ws E)
    he_par

theorem dd8_verdict (w1 nm w2 args : List Char) (c2 : Char) (E : List Char)
    (hw1ne : w1 ≠ []) (hw1 : ∀ c ∈ w1, isPyWs c = true)
    (hnmne : nm ≠ []) (hnmw : ∀ c ∈ nm, isWordChar c = true)
    (hw2 : ∀ c ∈ w2, isPyWs c = true) (hargs : ')' ∉ args) (hc2 : c2 ≠ ':') :
    dTryCore ((DEFKW ++ (w1 ++ (nm ++ (w2 ++
      ('(' :: (args ++ ')' :: c2 :: E)))))).dropWhile isPyWs) = none := by
  rw [dropWhile_defkw_append]
  obtain ⟨hp1t, hp1d⟩ := parse_w1 w1 nm (w2 ++ ('(' :: (args ++ ')' :: c2 :: E))) hw1 hnmne hnmw
  obtain ⟨hp2t, hp2d⟩ := parse_nm nm w2 (args ++ ')' :: c2 :: E) hnmw hw2
  obtain ⟨hp3t, hp3d⟩ := parse_w2 w2 (args ++ ')' :: c2 :: E) hw2
  exact dTryCore_none_d8 _ (args ++ ')' :: c2 :: E) args c2 E (defkw_isPrefixOf_append _)
    (by rw [drop3_defkw_append, hp1t]; exact hw1ne)
    (by rw [drop3_defkw_append, hp1d, hp2t]; exact hnmne)
    (by rw [drop3_defkw_append, hp1d, hp2d, hp3d])
    (breakAtParen_append args (c2 :: E) hargs) hc2

theorem scan_none_dd1 (zh : Char) (zt : List Char) (b : Bool)
    (hzh : isPyWs zh = false) (hmz : dTryMatch (zh :: zt) = none)
    (hcore : dTryCore (zh :: zt) = none)
    (hpre : ¬ DEFKW.isPrefixOf (zh :: zt) = true) :
    dTryCore ((dScan b (zh :: zt)).dropWhile isPyWs) = none := by
  by_cases hmem : '\n' ∈ zh :: zt
  · obtain ⟨L1, z', hzspl, hL1⟩ := split_first_newline _ hmem
    have hL1ne : L1 ≠ [] := by
      intro h0
      rw [h0, List.nil_append] at hzspl
      have hzh' : zh = '\n' := (List.cons.inj hzspl).1
      rw [hzh'] at hzh
      simp [isPyWs] at hzh
    have hns : NoStartD b (L1 ++ ['\n']) z' := by
      apply noStartD_append
      · apply noStartD_nonl L1 _ hL1 b
        intro _
        rw [show L1 ++ (['\n'] ++ z') = L1 ++ '\n' :: z' from rfl, ← hzspl]
        exact hmz
      · rw [flagAfter_nonl_ne_nil L1 hL1 hL1ne b]
        exact noStartD_false_single '\n' z'
    have hscan : dScan b (zh :: zt) = L1 ++ '\n' :: dScan true z' := by
      conv_lhs => rw [hzspl, show L1 ++ '\n' :: z' = (L1 ++ ['\n']) ++ z' by simp]
      rw [dScan_copy b _ _ hns]
      rw [flagAfter_append, flagAfter_nonl_ne_nil L1 hL1 hL1ne b,
        show flagAfter false ['\n'] = true by decide]
      simp
    obtain ⟨c0, L1t, hL10⟩ : ∃ c0 L1t, L1 = c0 :: L1t := by
      cases L1 with
      | nil => exact absurd rfl hL1ne
      | cons a bs => exact ⟨a, bs, rfl⟩
    have hc0 : c0 = zh := by
      rw [hL10, List.cons_append] at hzspl
      exact (List.cons.inj hzspl).1.symm
    have hout_dw : (L1 ++ '\n' :: dScan true z').dropWhile isPyWs =
        L1 ++ '\n' :: dScan true z' := by
      rw [hL10]
      exact dropWhile_head_false_eq isPyWs c0 _ (by rw [hc0]; exact hzh)
    rw [hscan, hout_dw]
    apply dTryCore_none_d1
    rw [prefix_nonl_agree DEFKW L1 (dScan true z') z' (by decide) hL1, ← hzspl]
    exact hpre
  · have hscan : dScan b (zh :: zt) = zh :: zt := by
      conv_lhs => rw [show zh :: zt = (zh :: zt) ++ [] by simp]
      rw [dScan_copy b _ [] (noStartD_nonl _ [] hmem b
        (fun _ => by rw [List.append_nil]; exact hmz)), dScan_nil]
      simp
    rw [hscan, dropWhile_head_false_eq isPyWs zh zt hzh]
    exact hcore

theorem scan_none_dd2 (zh : Char) (zt : List Char) (b : Bool)
    (hzh : isPyWs zh = false) (hmz : dTryMatch (zh :: zt) = none)
    (hcore : dTryCore (zh :: zt) = none)
    (hpre : DEFKW.isPrefixOf (zh :: zt) = true)
    (htw : ((zh :: zt).drop 3).takeWhile isPyWs = []) :
    dTryCore ((dScan b (zh :: zt)).dropWhile isPyWs) = none := by
  have hzdec := defkw_prefix_decomp _ hpre
  rcases takeWhile_nil_decomp isPyWs ((zh :: zt).drop 3) htw with hnil | ⟨c₄, t₄, hz1, hc₄⟩
  · have hz : zh :: zt = DEFKW ++ [] := by rw [hzdec, hnil]
    have hnp : '(' ∉ zh :: zt := by rw [hz]; decide
    rw [dScan_noLParen b _ hnp, dropWhile_head_false_eq isPyWs zh zt hzh]
    exact hcore
  · have hzdec2 : zh :: zt = DEFKW ++ (c₄ :: t₄) := by rw [hzdec, hz1]
    have hns : NoStartD b (DEFKW ++ [c₄]) t₄ := by
      refine noStartD_nonl _ _ ?_ b ?_
      · intro hmem
        rcases List.mem_append.mp hmem with hm | hm
        · exact absurd hm (by decide)
        · rcases List.mem_cons.mp hm with he | he
          · exact not_newline_of_not_ws hc₄ he.symm
          · cases he
      · intro _
        rw [show (DEFKW ++ [c₄]) ++ t₄ = zh :: zt by rw [hzdec2]; simp]
        exact hmz
    have hscan : dScan b (zh :: zt) =
        DEFKW ++ (c₄ :: dScan (flagAfter b (DEFKW ++ [c₄])) t₄) := by
      conv_lhs => rw [hzdec2, show DEFKW ++ (c₄ :: t₄) = (DEFKW ++ [c₄]) ++ t₄ by simp]
      rw [dScan_copy b _ _ hns]
      simp
    rw [hscan]
    exact dd2_verdict c₄ _ hc₄

theorem scan_none_dd3 (zh : Char) (zt : List Char) (b : Bool)
    (hzh : isPyWs zh = false) (hmz : dTryMatch (zh :: zt) = none)
    (hcore : dTryCore (zh :: zt) = none)
    (hpre : DEFKW.isPrefixOf (zh :: zt) = true)
    (hw1ne : ((zh :: zt).drop 3).takeWhile isPyWs ≠ [])
    (htw3 : (((zh :: zt).drop 3).dropWhile isPyWs).takeWhile isWordChar = []) :
    dTryCore ((dScan b (zh :: zt)).dropWhile isPyWs) = none := by
  have hzdec := defkw_prefix_decomp _ hpre
  have hw1mem := mem_takeWhile_sat isPyWs ((zh :: zt).drop 3)
  rcases takeWhile_nil_decomp isWordChar (((zh :: zt).drop 3).dropWhile isPyWs) htw3 with
    hnil | ⟨c₃, t₃, hr1, hc₃w⟩
  · have hz1ws : ∀ c ∈ (zh :: zt).drop 3, isPyWs c = true := by
      intro c hc
      have hsplit : (zh :: zt).drop 3 = ((zh :: zt).drop 3).takeWhile isPyWs := by
        conv_lhs => rw [← List.takeWhile_append_dropWhile (p := isPyWs)
          (l := (zh :: zt).drop 3)]
        rw [hnil, List.append_nil]
      rw [hsplit] at hc
      exact mem_takeWhile_sat isPyWs _ c hc
    have hnp : '(' ∉ zh :: zt := by
      rw [hzdec]
      intro hmem
      rcases List.mem_append.mp hmem with hm | hm
      · exact absurd hm (by decide)
      · exact ws_ne_lparen '(' (hz1ws '(' hm) rfl
    rw [dScan_noLParen b _ hnp, dropWhile_head_false_eq isPyWs zh zt hzh]
    exact hcore
  · have hc₃ws : isPyWs c₃ = false :=
      dropWhile_head_not isPyWs ((zh :: zt).drop 3) c₃ t₃ hr1
    have hc₃d : c₃ ≠ 'd' := nonword_ne_d c₃ hc₃w
    obtain ⟨w1, hw1eq⟩ : ∃ w1, ((zh :: zt).drop 3).takeWhile isPyWs = w1 := ⟨_, rfl⟩
    rw [hw1eq] at hw1ne hw1mem
    have hzdec2 : zh :: zt = DEFKW ++ (w1 ++ (c₃ :: t₃)) := by
      conv_lhs => rw [hzdec]
      congr 1
      conv_lhs => rw [← List.takeWhile_append_dropWhile (p := isPyWs)
        (l := (zh :: zt).drop 3)]
      rw [hr1, hw1eq]
    have hcoreC : dTryCore ((c₃ :: t₃).dropWhile isPyWs) = none := by
      rw [dropWhile_head_false_eq isPyWs c₃ t₃ hc₃ws]
      exact dTryCore_none_d1 _ (not_defkw_prefix_of_head c₃ t₃ hc₃d)
    have hns : NoStartD b (DEFKW ++ (w1 ++ [c₃])) t₃ := by
      apply noStartD_append
      · refine noStartD_nonl DEFKW _ (by decide) b ?_
        intro _
        rw [show DEFKW ++ ((w1 ++ [c₃]) ++ t₃) = zh :: zt by rw [hzdec2]; simp]
        exact hmz
      · apply noStartD_append
        · exact noStartD_ws _ _ hw1mem hcoreC _
        · exact ⟨fun _ => dTryMatch_none_of_core _ hcoreC, trivial⟩
    have hscan : dScan b (zh :: zt) =
        DEFKW ++ (w1 ++ (c₃ :: dScan (flagAfter b (DEFKW ++ (w1 ++ [c₃]))) t₃)) := by
      conv_lhs => rw [hzdec2,
        show DEFKW ++ (w1 ++ (c₃ :: t₃)) = (DEFKW ++ (w1 ++ [c₃])) ++ t₃ by simp]
      rw [dScan_copy b _ _ hns]
      simp
    rw [hscan]
    exact dd3_verdict w1 c₃ _ hw1ne hw1mem hc₃ws hc₃w

theorem scan_none_dd4 (zh : Char) (zt : List Char) (b : Bool)
    (hzh : isPyWs zh = false)
    (hcore : dTryCore (zh :: zt) = none)
    (hpre : DEFKW.isPrefixOf (zh :: zt) = true)
    (hdw4 : ((((zh :: zt).drop 3).dropWhile isPyWs).dropWhile isWordChar).dropWhile isPyWs
      = []) :
    dTryCore ((dScan b (zh :: zt)).dropWhile isPyWs) = none := by
  have hzdec := defkw_prefix_decomp _ hpre
  have hr2ws := all_sat_of_dropWhile_nil isPyWs
    ((((zh :: zt).drop 3).dropWhile isPyWs).dropWhile isWordChar) hdw4
  have hnp : '(' ∉ zh :: zt := by
    rw [hzdec]
    intro hmem
    rcases List.mem_append.mp hmem with hm | hm
    · exact absurd hm (by decide)
    · have hm1 : ('(' : Char) ∈ ((zh :: zt).drop 3).takeWhile isPyWs ++
          ((zh :: zt).drop 3).dropWhile isPyWs := by
        rw [List.takeWhile_append_dropWhile]
        exact hm
      rcases List.mem_append.mp hm1 with hm2 | hm2
      · exact ws_ne_lparen '(' (mem_takeWhile_sat _ _ '(' hm2) rfl
      · have hm3 : ('(' : Char) ∈
            (((zh :: zt).drop 3).dropWhile isPyWs).takeWhile isWordChar ++
            (((zh :: zt).drop 3).dropWhile isPyWs).dropWhile isWordChar := by
          rw [List.takeWhile_append_dropWhile]
          exact hm2
        rcases List.mem_append.mp hm3 with hm4 | hm4
        · exact wordChar_ne_lparen '(' (mem_takeWhile_sat _ _ '(' hm4) rfl
        · exact ws_ne_lparen '(' (hr2ws '(' hm4) rfl
  rw [dScan_noLParen b _ hnp, dropWhile_head_false_eq isPyWs zh zt hzh]
  exact hcore

theorem dShape_decomp (z : List Char) (z4 : List Char)
    (hpre : DEFKW.isPrefixOf z = true)
    (hdw : (((z.drop 3).dropWhile isPyWs).dropWhile isWordChar).dropWhile isPyWs
      = '(' :: z4) :
    ∃ w1 nm w2, z = DEFKW ++ (w1 ++ (nm ++ (w2 ++ ('(' :: z4)))) ∧
      (∀ c ∈ w1, isPyWs c = true) ∧ (∀ c ∈ nm, isWordChar c = true) ∧
      (∀ c ∈ w2, isPyWs c = true) ∧
      w1 = (z.drop 3).takeWhile isPyWs ∧
      nm = ((z.drop 3).dropWhile isPyWs).takeWhile isWordChar := by
  refine ⟨(z.drop 3).takeWhile isPyWs, ((z.drop 3).dropWhile isPyWs).takeWhile isWordChar,
    (((z.drop 3).dropWhile isPyWs).dropWhile isWordChar).takeWhile isPyWs, ?_,
    mem_takeWhile_sat _ _, mem_takeWhile_sat _ _, mem_takeWhile_sat _ _, rfl, rfl⟩
  conv_lhs => rw [defkw_prefix_decomp z hpre]
  congr 1
  conv_lhs => rw [← List.takeWhile_append_dropWhile (p := isPyWs) (l := z.drop 3)]
  congr 1
  conv_lhs => rw [← List.takeWhile_append_dropWhile (p := isWordChar)
    (l := (z.drop 3).dropWhile isPyWs)]
  congr 1
  conv_lhs => rw [← List.takeWhile_append_dropWhile (p := isPyWs)
    (l := ((z.drop 3).dropWhile isPyWs).dropWhile isWordChar)]
  rw [hdw]

theorem scan_none_dd6 (zh : Char) (zt : List Char) (b : Bool) (z4 : List Char)
    (hzh : isPyWs zh = false)
    (hcore : dTryCore (zh :: zt) = none)
    (hpre : DEFKW.isPrefixOf (zh :: zt) = true)
    (hdw : ((((zh :: zt).drop 3).dropWhile isPyWs).dropWhile isWordChar).dropWhile isPyWs
      = '(' :: z4)
    (hb : breakAtParen z4 = none) :
    dTryCore ((dScan b (zh :: zt)).dropWhile isPyWs) = none := by
  obtain ⟨w1, nm, w2, hdec, hw1m, hnmm, hw2m, _, _⟩ := dShape_decomp _ z4 hpre hdw
  have hz4free : ')' ∉ z4 := (breakAtParen_none_iff z4).mp hb
  have hnp : ')' ∉ zh :: zt := by
    rw [hdec]
    intro hmem
    rcases List.mem_append.mp hmem with hm | hmem1
    · exact absurd hm (by decide)
    rcases List.mem_append.mp hmem1 with hm | hmem2
    · exact ws_ne_rparen _ (hw1m _ hm) rfl
    rcases List.mem_append.mp hmem2 with hm | hmem3
    · exact absurd (hnmm _ hm) (by decide)
    rcases List.mem_append.mp hmem3 with hm | hmem4
    · exact ws_ne_rparen _ (hw2m _ hm) rfl
    rcases List.mem_cons.mp hmem4 with hm | hm
    · exact absurd hm (by decide)
    · exact hz4free hm
  rw [dScan_noRParen b _ hnp, dropWhile_head_false_eq isPyWs zh zt hzh]
  exact hcore

theorem scan_none_dd7 (zh : Char) (zt : List Char) (b : Bool) (z4 args : List Char)
    (hzh : isPyWs zh = false)
    (hcore : dTryCore (zh :: zt) = none)
    (hpre : DEFKW.isPrefixOf (zh :: zt) = true)
    (hdw : ((((zh :: zt).drop 3).dropWhile isPyWs).dropWhile isWordChar).dropWhile isPyWs
      = '(' :: z4)
    (hb : breakAtParen z4 = some (args, [])) :
    dTryCore ((dScan b (zh :: zt)).dropWhile isPyWs) = none := by
  obtain ⟨w1, nm, w2, hdec, hw1m, hnmm, hw2m, _, _⟩ := dShape_decomp _ z4 hpre hdw
  obtain ⟨hz4, hargsfree⟩ := breakAtParen_some z4 args [] hb
  have hFP : zh :: zt =
      (DEFKW ++ (w1 ++ (nm ++ (w2 ++ ('(' :: args))))) ++ [')'] := by
    rw [hdec, hz4]
    simp
  have hFfree : ')' ∉ DEFKW ++ (w1 ++ (nm ++ (w2 ++ ('(' :: args)))) := by
    intro hmem
    rcases List.mem_append.mp hmem with hm | hmem1
    · exact absurd hm (by decide)
    rcases List.mem_append.mp hmem1 with hm | hmem2
    · exact ws_ne_rparen _ (hw1m _ hm) rfl
    rcases List.mem_append.mp hmem2 with hm | hmem3
    · exact absurd (hnmm _ hm) (by decide)
    rcases List.mem_append.mp hmem3 with hm | hmem4
    · exact ws_ne_rparen _ (hw2m _ hm) rfl
    rcases List.mem_cons.mp hmem4 with hm | hm
    · exact absurd hm (by decide)
    · exact hargsfree hm
  have hnoPC : ∀ A B : List Char, zh :: zt ≠ A ++ ')' :: ':' :: B := by
    intro A B heq
    exact lastParen_of _ hFfree A ':' B (by rw [← hFP]; exact heq)
  rw [dScan_noPC b _ hnoPC, dropWhile_head_false_eq isPyWs zh zt hzh]
  exact hcore

theorem scan_none_dd8 (zh : Char) (zt : List Char) (b : Bool) (z4 args : List Char)
    (c2 : Char) (E : List Char)
    (hcore : dTryCore (zh :: zt) = none)
    (hpre : DEFKW.isPrefixOf (zh :: zt) = true)
    (hw1ne : ((zh :: zt).drop 3).takeWhile isPyWs ≠ [])
    (hnmne : (((zh :: zt).drop 3).dropWhile isPyWs).takeWhile isWordChar ≠ [])
    (hdw : ((((zh :: zt).drop 3).dropWhile isPyWs).dropWhile isWordChar).dropWhile isPyWs
      = '(' :: z4)
    (hb : breakAtParen z4 = some (args, c2 :: E)) (hc2 : c2 ≠ ':') :
    dTryCore ((dScan b (zh :: zt)).dropWhile isPyWs) = none := by
  obtain ⟨w1, nm, w2, hdec, hw1m, hnmm, hw2m, hw1eq, hnmeq⟩ := dShape_decomp _ z4 hpre hdw
  rw [← hw1eq] at hw1ne
  rw [← hnmeq] at hnmne
  obtain ⟨hz4, hargsfree⟩ := breakAtParen_some z4 args (c2 :: E) hb
  have hFfree : ')' ∉ DEFKW ++ (w1 ++ (nm ++ (w2 ++ ('(' :: args)))) := by
    intro hmem
    rcases List.mem_append.mp hmem with hm | hmem1
    · exact absurd hm (by decide)
    rcases List.mem_append.mp hmem1 with hm | hmem2
    · exact ws_ne_rparen _ (hw1m _ hm) rfl
    rcases List.mem_append.mp hmem2 with hm | hmem3
    · exact absurd (hnmm _ hm) (by decide)
    rcases List.mem_append.mp hmem3 with hm | hmem4
    · exact ws_ne_rparen _ (hw2m _ hm) rfl
    rcases List.mem_cons.mp hmem4 with hm | hm
    · exact absurd hm (by decide)
    · exact hargsfree hm
  have hcoreRP : dTryCore ((')' :: c2 :: E).dropWhile isPyWs) = none := by
    rw [dropWhile_head_false_eq isPyWs ')' _ (by decide)]
    exact dTryCore_none_d1 _ (not_defkw_prefix_of_head ')' _ (by decide))
  have hns : NoStartD b ((DEFKW ++ (w1 ++ (nm ++ (w2 ++ ('(' :: args))))) ++ [')', c2]) E := by
    apply noStartD_append
    · exact noStartD_PC c2 hc2 E _ hFfree b
    · exact ⟨fun _ => dTryMatch_none_of_core _ hcoreRP,
        fun hco => absurd hco (by decide), trivial⟩
  have hscan : dScan b (zh :: zt) =
      DEFKW ++ (w1 ++ (nm ++ (w2 ++ ('(' :: (args ++ ')' :: c2 ::
        dScan (flagAfter b ((DEFKW ++ (w1 ++ (nm ++ (w2 ++ ('(' :: args))))) ++ [')', c2]))
          E))))) := by
    conv_lhs => rw [hdec, hz4,
      show DEFKW ++ (w1 ++ (nm ++ (w2 ++ ('(' :: (args ++ ')' :: c2 :: E))))) =
        ((DEFKW ++ (w1 ++ (nm ++ (w2 ++ ('(' :: args))))) ++ [')', c2]) ++ E by simp]
    rw [dScan_copy b _ _ hns]
    simp
  rw [hscan]
  exact dd8_verdict w1 nm w2 args c2 _ hw1ne hw1m hnmne hnmm hw2m hargsfree hc2

theorem word_not_newline (c : Char) (h : isWordChar c = true) : c ≠ '\n' := by
  intro hc
  rw [hc] at h
  exact absurd h (by decide)

theorem dShape_decomp5 (z : List Char) (e : Char) (z4 : List Char)
    (hpre : DEFKW.isPrefixOf z = true)
    (hdw : (((z.drop 3).dropWhile isPyWs).dropWhile isWordChar).dropWhile isPyWs
      = e :: z4) :
    ∃ w1 nm w2, z = DEFKW ++ (w1 ++ (nm ++ (w2 ++ (e :: z4)))) ∧
      (∀ c ∈ w1, isPyWs c = true) ∧ (∀ c ∈ nm, isWordChar c = true) ∧
      (∀ c ∈ w2, isPyWs c = true) ∧
      w1 = (z.drop 3).takeWhile isPyWs ∧
      nm = ((z.drop 3).dropWhile isPyWs).takeWhile isWordChar ∧
      (w2 = [] → isWordChar e = false) := by
  refine ⟨(z.drop 3).takeWhile isPyWs, ((z.drop 3).dropWhile isPyWs).takeWhile isWordChar,
    (((z.drop 3).dropWhile isPyWs).dropWhile isWordChar).takeWhile isPyWs, ?_,
    mem_takeWhile_sat _ _, mem_takeWhile_sat _ _, mem_takeWhile_sat _ _, rfl, rfl, ?_⟩
  · conv_lhs => rw [defkw_prefix_decomp z hpre]
    congr 1
    conv_lhs => rw [← List.takeWhile_append_dropWhile (p := isPyWs) (l := z.drop 3)]
    congr 1
    conv_lhs => rw [← List.takeWhile_append_dropWhile (p := isWordChar)
      (l := (z.drop 3).dropWhile isPyWs)]
    congr 1
    conv_lhs => rw [← List.takeWhile_append_dropWhile (p := isPyWs)
      (l := ((z.drop 3).dropWhile isPyWs).dropWhile isWordChar)]
    rw [hdw]
  · intro h0
    have hr2 : ((z.drop 3).dropWhile isPyWs).dropWhile isWordChar = e :: z4 := by
      conv_lhs => rw [← List.takeWhile_append_dropWhile (p := isPyWs)
        (l := ((z.drop 3).dropWhile isPyWs).dropWhile isWordChar)]
      rw [h0, hdw]
      rfl
    exact dropWhile_head_not isWordChar _ e z4 hr2

theorem d5_copy_verdict (zh : Char) (zt : List Char) (b : Bool) (w1 nm w2 : List Char)
    (e : Char) (z4 : List Char)
    (hfull : zh :: zt = DEFKW ++ (w1 ++ (nm ++ (w2 ++ (e :: z4)))))
    (hw1ne : w1 ≠ []) (hw1m : ∀ c ∈ w1, isPyWs c = true)
    (hnmne : nm ≠ []) (hnmm : ∀ c ∈ nm, isWordChar c = true)
    (hw2m : ∀ c ∈ w2, isPyWs c = true)
    (he_ws : isPyWs e = false) (he : e ≠ '(')
    (hside : w2 ≠ [] ∨ isWordChar e = false)
    (hns : NoStartD b (DEFKW ++ (w1 ++ (nm ++ (w2 ++ [e])))) z4) :
    dTryCore ((dScan b (zh :: zt)).dropWhile isPyWs) = none := by
  have hscan : dScan b (zh :: zt) = DEFKW ++ (w1 ++ (nm ++ (w2 ++ (e ::
      dScan (flagAfter b (DEFKW ++ (w1 ++ (nm ++ (w2 ++ [e]))))) z4)))) := by
    conv_lhs => rw [hfull, show DEFKW ++ (w1 ++ (nm ++ (w2 ++ (e :: z4)))) =
      (DEFKW ++ (w1 ++ (nm ++ (w2 ++ [e])))) ++ z4 by simp]
    rw [dScan_copy b _ _ hns]
    simp
  rw [hscan]
  exact d5_verdict w1 nm w2 e _ hw1ne hw1m hnmne hnmm hw2m he_ws he hside

theorem d5_w1match_verdict (zh : Char) (zt : List Char) (b : Bool)
    (w1a w1b nm w2 : List Char) (e : Char) (z4 cm rest1 : List Char)
    (hfull : zh :: zt = DEFKW ++ ((w1a ++ '\n' :: w1b) ++ (nm ++ (w2 ++ (e :: z4)))))
    (hw1am : ∀ c ∈ w1a, isPyWs c = true) (hw1bm : ∀ c ∈ w1b, isPyWs c = true)
    (hnmne : nm ≠ []) (hnmm : ∀ c ∈ nm, isWordChar c = true)
    (hκ : dTryCore (nm ++ (w2 ++ (e :: z4))) = some (cm, rest1))
    (hns : NoStartD b (DEFKW ++ (w1a ++ ['\n'])) (w1b ++ (nm ++ (w2 ++ (e :: z4))))) :
    dTryCore ((dScan b (zh :: zt)).dropWhile isPyWs) = none := by
  obtain ⟨nm0, nmt, hnm0⟩ : ∃ c t, nm = c :: t := by
    cases nm with
    | nil => exact absurd rfl hnmne
    | cons a t => exact ⟨a, t, rfl⟩
  have hnm0ws : isPyWs nm0 = false :=
    wordChar_not_ws nm0 (hnmm nm0 (by rw [hnm0]; exact List.mem_cons_self _ _))
  have hdwu : (w1b ++ (nm ++ (w2 ++ (e :: z4)))).dropWhile isPyWs
      = nm ++ (w2 ++ (e :: z4)) := by
    rw [hnm0]
    exact dropWhile_all_append isPyWs w1b hw1bm nm0 hnm0ws _
  have htwu : (w1b ++ (nm ++ (w2 ++ (e :: z4)))).takeWhile isPyWs = w1b := by
    rw [hnm0]
    exact takeWhile_all_append isPyWs w1b hw1bm nm0 hnm0ws _
  have hmatch : dTryMatch (w1b ++ (nm ++ (w2 ++ (e :: z4)))) = some (w1b ++ cm, rest1) := by
    rw [dTryMatch_reduce _ cm rest1 (by rw [hdwu]; exact hκ), htwu]
  have hflag : flagAfter b (DEFKW ++ (w1a ++ ['\n'])) = true := by
    rw [show DEFKW ++ (w1a ++ ['\n']) = (DEFKW ++ w1a) ++ ['\n'] by simp,
      flagAfter_append_single]
    rfl
  obtain ⟨w1', nm', w2', args', hw1'ne, hw1'm, hnm'ne, hnm'm, hw2'm, hargs'free, hzeq, hcm⟩ :=
    dTryCore_some _ cm rest1 hκ
  obtain ⟨e0, nm't, hnm'0⟩ : ∃ c t, nm' = c :: t := by
    cases nm' with
    | nil => exact absurd rfl hnm'ne
    | cons a t => exact ⟨a, t, rfl⟩
  have he0w : isWordChar e0 = true := hnm'm e0 (by rw [hnm'0]; exact List.mem_cons_self _ _)
  have hscan : dScan b (zh :: zt) =
      DEFKW ++ ((w1a ++ '\n' :: w1b) ++ (DEFKW ++ (w1' ++ (e0 ::
        (nm't ++ (w2' ++ ('(' :: (normArgs args' ++
          (')' :: ':' :: dScan false rest1))))))))) := by
    conv_lhs => rw [hfull,
      show DEFKW ++ ((w1a ++ '\n' :: w1b) ++ (nm ++ (w2 ++ (e :: z4)))) =
        (DEFKW ++ (w1a ++ ['\n'])) ++ (w1b ++ (nm ++ (w2 ++ (e :: z4)))) by simp]
    rw [dScan_copy b _ _ hns, hflag, dScan_true_match _ _ _ hmatch, hcm, hnm'0]
    simp
  rw [hscan]
  exact d5_verdict (w1a ++ '\n' :: w1b) DEFKW w1' e0 _
    (fun h => by simp at h)
    (by
      intro c hc
      rcases List.mem_append.mp hc with h1 | h2
      · exact hw1am c h1
      rcases List.mem_cons.mp h2 with hh | hh
      · rw [hh]; decide
      · exact hw1bm c hh)
    (by decide) (by decide) hw1'm
    (wordChar_not_ws e0 he0w) (wordChar_ne_lparen e0 he0w) (Or.inl hw1'ne)

theorem d5_w2match_verdict (zh : Char) (zt : List Char) (b : Bool)
    (w1 nm w2a w2b : List Char) (e : Char) (z4 cm rest1 : List Char)
    (hfull : zh :: zt = DEFKW ++ (w1 ++ (nm ++ ((w2a ++ '\n' :: w2b) ++ (e :: z4)))))
    (hw1ne : w1 ≠ []) (hw1m : ∀ c ∈ w1, isPyWs c = true)
    (hnmne : nm ≠ []) (hnmm : ∀ c ∈ nm, isWordChar c = true)
    (hw2am : ∀ c ∈ w2a, isPyWs c = true) (hw2bm : ∀ c ∈ w2b, isPyWs c = true)
    (he_ws : isPyWs e = false)
    (hκ : dTryCore (e :: z4) = some (cm, rest1))
    (hns : NoStartD b (DEFKW ++ (w1 ++ (nm ++ (w2a ++ ['\n'])))) (w2b ++ (e :: z4))) :
    dTryCore ((dScan b (zh :: zt)).dropWhile isPyWs) = none := by
  have hdwv : (w2b ++ (e :: z4)).dropWhile isPyWs = e :: z4 :=
    dropWhile_all_append isPyWs w2b hw2bm e he_ws z4
  have htwv : (w2b ++ (e :: z4)).takeWhile isPyWs = w2b :=
    takeWhile_all_append isPyWs w2b hw2bm e he_ws z4
  have hmatch : dTryMatch (w2b ++ (e :: z4)) = some (w2b ++ cm, rest1) := by
    rw [dTryMatch_reduce _ cm rest1 (by rw [hdwv]; exact hκ), htwv]
  have hflag : flagAfter b (DEFKW ++ (w1 ++ (nm ++ (w2a ++ ['\n'])))) = true := by
    rw [show DEFKW ++ (w1 ++ (nm ++ (w2a ++ ['\n']))) =
      (DEFKW ++ (w1 ++ (nm ++ w2a))) ++ ['\n'] by simp, flagAfter_append_single]
    rfl
  obtain ⟨w1', nm', w2', args', hw1'ne, hw1'm, hnm'ne, hnm'm, hw2'm, hargs'free, hzeq, hcm⟩ :=
    dTryCore_some _ cm rest1 hκ
  have hscan : dScan b (zh :: zt) =
      DEFKW ++ (w1 ++ (nm ++ ((w2a ++ '\n' :: w2b) ++ ('d' :: ('e' :: 'f' ::
        (w1' ++ (nm' ++ (w2' ++ ('(' :: (normArgs args' ++
          (')' :: ':' :: dScan false rest1))))))))))) := by
    conv_lhs => rw [hfull,
      show DEFKW ++ (w1 ++ (nm ++ ((w2a ++ '\n' :: w2b) ++ (e :: z4)))) =
        (DEFKW ++ (w1 ++ (nm ++ (w2a ++ ['\n'])))) ++ (w2b ++ (e :: z4)) by simp]
    rw [dScan_copy b _ _ hns, hflag, dScan_true_match _ _ _ hmatch, hcm]
    simp [DEFKW]
  rw [hscan]
  exact d5_verdict w1 nm (w2a ++ '\n' :: w2b) 'd' _
    hw1ne hw1m hnmne hnmm
    (by
      intro c hc
      rcases List.mem_append.mp hc with h1 | h2
      · exact hw2am c h1
      rcases List.mem_cons.mp h2 with hh | hh
      · rw [hh]; decide
      · exact hw2bm c hh)
    (by decide) (by decide) (Or.inl (fun h => by simp at h))

theorem scan_none_dd5 (zh : Char) (zt : List Char) (b : Bool) (e : Char) (z4 : List Char)
    (hmz : dTryMatch (zh :: zt) = none)
    (hpre : DEFKW.isPrefixOf (zh :: zt) = true)
    (hw1ne : ((zh :: zt).drop 3).takeWhile isPyWs ≠ [])
    (hnmne : (((zh :: zt).drop 3).dropWhile isPyWs).takeWhile isWordChar ≠ [])
    (hdw : ((((zh :: zt).drop 3).dropWhile isPyWs).dropWhile isWordChar).dropWhile isPyWs
      = e :: z4)
    (he : e ≠ '(') :
    dTryCore ((dScan b (zh :: zt)).dropWhile isPyWs) = none := by
  obtain ⟨w1, nm, w2, hfull, hw1m, hnmm, hw2m, hw1eq, hnmeq, hw2imp⟩ :=
    dShape_decomp5 _ e z4 hpre hdw
  rw [← hw1eq] at hw1ne
  rw [← hnmeq] at hnmne
  have he_ws : isPyWs e = false := dropWhile_head_not isPyWs _ e z4 hdw
  have hside : w2 ≠ [] ∨ isWordChar e = false := by
    by_cases h0 : w2 = []
    · exact Or.inr (hw2imp h0)
    · exact Or.inl h0
  have hnmnl : '\n' ∉ nm := fun hm => word_not_newline '\n' (hnmm _ hm) rfl
  have hφ₁ : flagAfter b DEFKW = false :=
    flagAfter_nonl_ne_nil DEFKW (by decide) (by decide) b
  have hentry : DEFKW ++ ((w1 ++ (nm ++ (w2 ++ [e]))) ++ z4) = zh :: zt := by
    rw [hfull]
    simp
  obtain ⟨nm0, nmt, hnm0⟩ : ∃ c t, nm = c :: t := by
    cases nm with
    | nil => exact absurd rfl hnmne
    | cons a t => exact ⟨a, t, rfl⟩
  have hnm0ws : isPyWs nm0 = false :=
    wordChar_not_ws nm0 (hnmm nm0 (by rw [hnm0]; exact List.mem_cons_self _ _))
  have hdwnm : ∀ X : List Char, (nm ++ X).dropWhile isPyWs = nm ++ X := by
    intro X
    rw [hnm0]
    exact dropWhile_head_false_eq isPyWs nm0 _ hnm0ws
  by_cases hw1nl : '\n' ∈ w1
  · cases hκ₁ : dTryCore (nm ++ (w2 ++ (e :: z4))) with
    | some p =>
      obtain ⟨cm, rest1⟩ := p
      obtain ⟨w1a, w1b, hw1spl, hw1anl⟩ := split_first_newline w1 hw1nl
      have hw1am : ∀ c ∈ w1a, isPyWs c = true := fun c hc =>
        hw1m c (by rw [hw1spl]; exact List.mem_append_left _ hc)
      have hw1bm : ∀ c ∈ w1b, isPyWs c = true := fun c hc =>
        hw1m c (by rw [hw1spl]; exact List.mem_append_right _ (List.mem_cons_of_mem _ hc))
      have hfull2 : zh :: zt =
          DEFKW ++ ((w1a ++ '\n' :: w1b) ++ (nm ++ (w2 ++ (e :: z4)))) := by
        rw [hfull, hw1spl]
      refine d5_w1match_verdict zh zt b w1a w1b nm w2 e z4 cm rest1 hfull2
        hw1am hw1bm hnmne hnmm hκ₁ ?_
      apply noStartD_append
      · refine noStartD_nonl DEFKW _ (by decide) b ?_
        intro _
        rw [show DEFKW ++ ((w1a ++ ['\n']) ++ (w1b ++ (nm ++ (w2 ++ (e :: z4))))) =
          zh :: zt by rw [hfull2]; simp]
        exact hmz
      · rw [hφ₁]
        apply noStartD_append
        · exact noStartD_nonl w1a _ hw1anl false (fun h => absurd h Bool.false_ne_true)
        · rw [flagAfter_nonl w1a hw1anl]
          exact noStartD_false_single '\n' _
    | none =>
      by_cases hw2nl : '\n' ∈ w2
      · cases hκ₂ : dTryCore (e :: z4) with
        | some p =>
          obtain ⟨cm, rest1⟩ := p
          obtain ⟨w2a, w2b, hw2spl, hw2anl⟩ := split_first_newline w2 hw2nl
          have hw2am : ∀ c ∈ w2a, isPyWs c = true := fun c hc =>
            hw2m c (by rw [hw2spl]; exact List.mem_append_left _ hc)
          have hw2bm : ∀ c ∈ w2b, isPyWs c = true := fun c hc =>
            hw2m c (by rw [hw2spl]; exact List.mem_append_right _ (List.mem_cons_of_mem _ hc))
          have hfull2 : zh :: zt =
              DEFKW ++ (w1 ++ (nm ++ ((w2a ++ '\n' :: w2b) ++ (e :: z4)))) := by
            rw [hfull, hw2spl]
          refine d5_w2match_verdict zh zt b w1 nm w2a w2b e z4 cm rest1 hfull2
            hw1ne hw1m hnmne hnmm hw2am hw2bm he_ws hκ₂ ?_
          apply noStartD_append
          · refine noStartD_nonl DEFKW _ (by decide) b ?_
            intro _
            rw [show DEFKW ++ ((w1 ++ (nm ++ (w2a ++ ['\n']))) ++ (w2b ++ (e :: z4))) =
              zh :: zt by rw [hfull2]; simp]
            exact hmz
          · rw [hφ₁]
            apply noStartD_append
            · refine noStartD_ws w1 _ hw1m ?_ _
              rw [show ((nm ++ (w2a ++ ['\n'])) ++ (w2b ++ (e :: z4)) : List Char) =
                nm ++ (w2 ++ (e :: z4)) by rw [hw2spl]; simp, hdwnm]
              exact hκ₁
            · apply noStartD_append
              · refine noStartD_nonl nm _ hnmnl _ ?_
                intro _
                apply dTryMatch_none_of_core
                rw [show (nm ++ ((w2a ++ ['\n']) ++ (w2b ++ (e :: z4))) : List Char) =
                  nm ++ (w2 ++ (e :: z4)) by rw [hw2spl]; simp, hdwnm]
                exact hκ₁
              · rw [flagAfter_nonl_ne_nil nm hnmnl hnmne _]
                apply noStartD_append
                · exact noStartD_nonl w2a _ hw2anl false (fun h => absurd h Bool.false_ne_true)
                · rw [flagAfter_nonl w2a hw2anl]
                  exact noStartD_false_single '\n' _
        | none =>
          refine d5_copy_verdict zh zt b w1 nm w2 e z4 hfull
            hw1ne hw1m hnmne hnmm hw2m he_ws he hside ?_
          apply noStartD_append
          · refine noStartD_nonl DEFKW _ (by decide) b ?_
            intro _
            rw [hentry]
            exact hmz
          · rw [hφ₁]
            apply noStartD_append
            · refine noStartD_ws w1 _ hw1m ?_ _
              rw [show ((nm ++ (w2 ++ [e])) ++ z4 : List Char) =
                nm ++ (w2 ++ (e :: z4)) by simp, hdwnm]
              exact hκ₁
            · apply noStartD_append
              · refine noStartD_nonl nm _ hnmnl _ ?_
                intro _
                apply dTryMatch_none_of_core
                rw [show (nm ++ ((w2 ++ [e]) ++ z4) : List Char) =
                  nm ++ (w2 ++ (e :: z4)) by simp, hdwnm]
                exact hκ₁
              · rw [flagAfter_nonl_ne_nil nm hnmnl hnmne _]
                apply noStartD_append
                · refine noStartD_ws w2 _ hw2m ?_ _
                  rw [show ([e] ++ z4 : List Char) = e :: z4 from rfl,
                    dropWhile_head_false_eq isPyWs e z4 he_ws]
                  exact hκ₂
                · exact ⟨fun _ => dTryMatch_none_of_core _
                    (by rw [show (e :: ([] ++ z4) : List Char) = e :: z4 from rfl,
                      dropWhile_head_false_eq isPyWs e z4 he_ws]; exact hκ₂), trivial⟩
      · refine d5_copy_verdict zh zt b w1 nm w2 e z4 hfull
          hw1ne hw1m hnmne hnmm hw2m he_ws he hside ?_
        apply noStartD_append
        · refine noStartD_nonl DEFKW _ (by decide) b ?_
          intro _
          rw [hentry]
          exact hmz
        · rw [hφ₁]
          apply noStartD_append
          · refine noStartD_ws w1 _ hw1m ?_ _
            rw [show ((nm ++ (w2 ++ [e])) ++ z4 : List Char) =
              nm ++ (w2 ++ (e :: z4)) by simp, hdwnm]
            exact hκ₁
          · apply noStartD_append
            · refine noStartD_nonl nm _ hnmnl _ ?_
              intro _
              apply dTryMatch_none_of_core
              rw [show (nm ++ ((w2 ++ [e]) ++ z4) : List Char) =
                nm ++ (w2 ++ (e :: z4)) by simp, hdwnm]
              exact hκ₁
            · rw [flagAfter_nonl_ne_nil nm hnmnl hnmne _]
              refine noStartD_nonl (w2 ++ [e]) z4 ?_ false
                (fun h => absurd h Bool.false_ne_true)
              intro hm
              rcases List.mem_append.mp hm with h1 | h2
              · exact hw2nl h1
              rcases List.mem_cons.mp h2 with hh | hh
              · exact (not_newline_of_not_ws he_ws) hh.symm
              · cases hh
  · by_cases hw2nl : '\n' ∈ w2
    · cases hκ₂ : dTryCore (e :: z4) with
      | some p =>
        obtain ⟨cm, rest1⟩ := p
        obtain ⟨w2a, w2b, hw2spl, hw2anl⟩ := split_first_newline w2 hw2nl
        have hw2am : ∀ c ∈ w2a, isPyWs c = true := fun c hc =>
          hw2m c (by rw [hw2spl]; exact List.mem_append_left _ hc)
        have hw2bm : ∀ c ∈ w2b, isPyWs c = true := fun c hc =>
          hw2m c (by rw [hw2spl]; exact List.mem_append_right _ (List.mem_cons_of_mem _ hc))
        have hfull2 : zh :: zt =
            DEFKW ++ (w1 ++ (nm ++ ((w2a ++ '\n' :: w2b) ++ (e :: z4)))) := by
          rw [hfull, hw2spl]
        refine d5_w2match_verdict zh zt b w1 nm w2a w2b e z4 cm rest1 hfull2
          hw1ne hw1m hnmne hnmm hw2am hw2bm he_ws hκ₂ ?_
        apply noStartD_append
        · refine noStartD_nonl DEFKW _ (by decide) b ?_
          intro _
          rw [show DEFKW ++ ((w1 ++ (nm ++ (w2a ++ ['\n']))) ++ (w2b ++ (e :: z4))) =
            zh :: zt by rw [hfull2]; simp]
          exact hmz
        · rw [hφ₁]
          apply noStartD_append
          · exact noStartD_nonl w1 _ hw1nl false (fun h => absurd h Bool.false_ne_true)
          · rw [flagAfter_nonl w1 hw1nl]
            apply noStartD_append
            · exact noStartD_nonl nm _ hnmnl false (fun h => absurd h Bool.false_ne_true)
            · rw [flagAfter_nonl nm hnmnl]
              apply noStartD_append
              · exact noStartD_nonl w2a _ hw2anl false (fun h => absurd h Bool.false_ne_true)
              · rw [flagAfter_nonl w2a hw2anl]
                exact noStartD_false_single '\n' _
      | none =>
        refine d5_copy_verdict zh zt b w1 nm w2 e z4 hfull
          hw1ne hw1m hnmne hnmm hw2m he_ws he hside ?_
        apply noStartD_append
        · refine noStartD_nonl DEFKW _ (by decide) b ?_
          intro _
          rw [hentry]
          exact hmz
        · rw [hφ₁]
          apply noStartD_append
          · exact noStartD_nonl w1 _ hw1nl false (fun h => absurd h Bool.false_ne_true)
          · rw [flagAfter_nonl w1 hw1nl]
            apply noStartD_append
            · exact noStartD_nonl nm _ hnmnl false (fun h => absurd h Bool.false_ne_true)
            · rw [flagAfter_nonl nm hnmnl]
              apply noStartD_append
              · refine noStartD_ws w2 _ hw2m ?_ _
                rw [show ([e] ++ z4 : List Char) = e :: z4 from rfl,
                  dropWhile_head_false_eq isPyWs e z4 he_ws]
                exact hκ₂
              · exact ⟨fun _ => dTryMatch_none_of_core _
                  (by rw [show (e :: ([] ++ z4) : List Char) = e :: z4 from rfl,
                    dropWhile_head_false_eq isPyWs e z4 he_ws]; exact hκ₂), trivial⟩
    · refine d5_copy_verdict zh zt b w1 nm w2 e z4 hfull
        hw1ne hw1m hnmne hnmm hw2m he_ws he hside ?_
      refine noStartD_nonl _ z4 ?_ b ?_
      · intro hm
        rcases List.mem_append.mp hm with h1 | h2
        · exact absurd h1 (by decide)
        rcases List.mem_append.mp h2 with h3 | h4
        · exact hw1nl h3
        rcases List.mem_append.mp h4 with h5 | h6
        · exact hnmnl h5
        rcases List.mem_append.mp h6 with h7 | h8
        · exact hw2nl h7
        rcases List.mem_cons.mp h8 with hh | hh
        · exact (not_newline_of_not_ws he_ws) hh.symm
        · cases hh
      · intro _
        rw [show (DEFKW ++ (w1 ++ (nm ++ (w2 ++ [e])))) ++ z4 = zh :: zt by
          rw [hfull]; simp]
        exact hmz

theorem dTryCore_none_cases (z : List Char) (h : dTryCore z = none) :
    (¬ DEFKW.isPrefixOf z = true) ∨
    (DEFKW.isPrefixOf z = true ∧ (z.drop 3).takeWhile isPyWs = []) ∨
    (DEFKW.isPrefixOf z = true ∧ (z.drop 3).takeWhile isPyWs ≠ [] ∧
      ((z.drop 3).dropWhile isPyWs).takeWhile isWordChar = []) ∨
    (DEFKW.isPrefixOf z = true ∧ (z.drop 3).takeWhile isPyWs ≠ [] ∧
      ((z.drop 3).dropWhile isPyWs).takeWhile isWordChar ≠ [] ∧
      ((((z.drop 3).dropWhile isPyWs).dropWhile isWordChar).dropWhile isPyWs) = []) ∨
    (∃ c z4, DEFKW.isPrefixOf z = true ∧ (z.drop 3).takeWhile isPyWs ≠ [] ∧
      ((z.drop 3).dropWhile isPyWs).takeWhile isWordChar ≠ [] ∧
      ((((z.drop 3).dropWhile isPyWs).dropWhile isWordChar).dropWhile isPyWs) = c :: z4 ∧
      c ≠ '(') ∨
    (∃ z4, DEFKW.isPrefixOf z = true ∧ (z.drop 3).takeWhile isPyWs ≠ [] ∧
      ((z.drop 3).dropWhile isPyWs).takeWhile isWordChar ≠ [] ∧
      ((((z.drop 3).dropWhile isPyWs).dropWhile isWordChar).dropWhile isPyWs) = '(' :: z4 ∧
      breakAtParen z4 = none) ∨
    (∃ z4 args, DEFKW.isPrefixOf z = true ∧ (z.drop 3).takeWhile isPyWs ≠ [] ∧
      ((z.drop 3).dropWhile isPyWs).takeWhile isWordChar ≠ [] ∧
      ((((z.drop 3).dropWhile isPyWs).dropWhile isWordChar).dropWhile isPyWs) = '(' :: z4 ∧
      breakAtParen z4 = some (args, [])) ∨
    (∃ z4 args c2 E, DEFKW.isPrefixOf z = true ∧ (z.drop 3).takeWhile isPyWs ≠ [] ∧
      ((z.drop 3).dropWhile isPyWs).takeWhile isWordChar ≠ [] ∧
      ((((z.drop 3).dropWhile isPyWs).dropWhile isWordChar).dropWhile isPyWs) = '(' :: z4 ∧
      breakAtParen z4 = some (args, c2 :: E) ∧ c2 ≠ ':') := by
  by_cases hpre : DEFKW.isPrefixOf z = true
  · by_cases hw1 : (z.drop 3).takeWhile isPyWs = []
    · exact Or.inr (Or.inl ⟨hpre, hw1⟩)
    · by_cases hnm : ((z.drop 3).dropWhile isPyWs).takeWhile isWordChar = []
      · exact Or.inr (Or.inr (Or.inl ⟨hpre, hw1, hnm⟩))
      · cases hdw : ((((z.drop 3).dropWhile isPyWs).dropWhile isWordChar).dropWhile isPyWs)
          with
        | nil => exact Or.inr (Or.inr (Or.inr (Or.inl ⟨hpre, hw1, hnm, rfl⟩)))
        | cons c z4 =>
          by_cases hc : c = '('
          · subst hc
            cases hb : breakAtParen z4 with
            | none =>
              exact Or.inr (Or.inr (Or.inr (Or.inr (Or.inr (Or.inl
                ⟨z4, hpre, hw1, hnm, rfl, hb⟩)))))
            | some p =>
              obtain ⟨args, after⟩ := p
              cases after with
              | nil =>
                exact Or.inr (Or.inr (Or.inr (Or.inr (Or.inr (Or.inr (Or.inl
                  ⟨z4, args, hpre, hw1, hnm, rfl, hb⟩))))))
              | cons c2 E =>
                by_cases hc2 : c2 = ':'
                · subst hc2
                  rw [dTryCore_reduce z '(' z4 hpre hw1 hnm hdw, if_pos rfl, hb] at h
                  simp at h
                · exact Or.inr (Or.inr (Or.inr (Or.inr (Or.inr (Or.inr (Or.inr
                    ⟨z4, args, c2, E, hpre, hw1, hnm, rfl, hb, hc2⟩))))))
          · exact Or.inr (Or.inr (Or.inr (Or.inr (Or.inl
              ⟨c, z4, hpre, hw1, hnm, rfl, hc⟩))))
  · exact Or.inl hpre

/-- A3-D: if the declaration pattern does not match at a line start, it
still does not match there after the remainder has been scanned. -/
theorem dTryMatch_none_scan (l : List Char) (h : dTryMatch l = none) :
    dTryMatch (dScan true l) = none := by
  have hcore : dTryCore (l.dropWhile isPyWs) = none := dTryMatch_none_core l h
  have hW := mem_takeWhile_sat isPyWs l
  have hzdw : (l.dropWhile isPyWs).dropWhile isPyWs = l.dropWhile isPyWs :=
    dropWhile_idem isPyWs l
  have hns := noStartD_ws (l.takeWhile isPyWs) (l.dropWhile isPyWs) hW
    (by rw [hzdw]; exact hcore) true
  have hscan : dScan true l = l.takeWhile isPyWs ++
      dScan (flagAfter true (l.takeWhile isPyWs)) (l.dropWhile isPyWs) := by
    conv_lhs => rw [← List.takeWhile_append_dropWhile (p := isPyWs) (l := l)]
    exact dScan_copy true _ _ hns
  rw [hscan]
  apply dTryMatch_none_of_core
  rw [dropWhile_append_ws _ _ hW]
  cases hz : l.dropWhile isPyWs with
  | nil =>
    rw [dScan_nil]
    exact dTryCore_none_d1 [] (by decide)
  | cons zh zt =>
    have hzh : isPyWs zh = false := dropWhile_head_not isPyWs l zh zt hz
    have hcore' : dTryCore (zh :: zt) = none := by rw [← hz]; exact hcore
    have hmz : dTryMatch (zh :: zt) = none := by
      apply dTryMatch_none_of_core
      rw [dropWhile_head_false_eq isPyWs zh zt hzh]
      exact hcore'
    rcases dTryCore_none_cases _ hcore' with hpre | ⟨hpre, htw⟩ | ⟨hpre, hw1ne, htw3⟩ |
      ⟨hpre, hw1ne, hnmne, hdw4⟩ | ⟨c, z4, hpre, hw1ne, hnmne, hdw, hc⟩ |
      ⟨z4, hpre, hw1ne, hnmne, hdw, hb⟩ | ⟨z4, args, hpre, hw1ne, hnmne, hdw, hb⟩ |
      ⟨z4, args, c2, E, hpre, hw1ne, hnmne, hdw, hb, hc2⟩
    · exact scan_none_dd1 zh zt _ hzh hmz hcore' hpre
    · exact scan_none_dd2 zh zt _ hzh hmz hcore' hpre htw
    · exact scan_none_dd3 zh zt _ hzh hmz hcore' hpre hw1ne htw3
    · exact scan_none_dd4 zh zt _ hzh hcore' hpre hdw4
    · exact scan_none_dd5 zh zt _ c z4 hmz hpre hw1ne hnmne hdw hc
    · exact scan_none_dd6 zh zt _ z4 hzh hcore' hpre hdw hb
    · exact scan_none_dd7 zh zt _ z4 args hzh hcore' hpre hdw hb
    · exact scan_none_dd8 zh zt _ z4 args c2 E hcore' hpre hw1ne hnmne hdw hb hc2

/-! ### Normal form: declaration scan output is stable -/

theorem normArgs_no_newline (a : List Char) : '\n' ∉ normArgs a := by
  intro hx
  rcases mem_commaSub _ '\n' hx with hm | hs | hc
  · have hf := (List.mem_filter.mp (mem_stripWs _ '\n' hm)).2
    simp at hf
  · exact absurd hs (by decide)
  · exact absurd hc (by decide)

theorem takeWhile_append_all {α : Type} (p : α → Bool) :
    ∀ (A : List α), (∀ c ∈ A, p c = true) → ∀ B : List α,
      (A ++ B).takeWhile p = A ++ B.takeWhile p := by
  intro A
  induction A with
  | nil => intro _ B; rfl
  | cons c A' ih =>
    intro hA B
    rw [List.cons_append, List.takeWhile_cons, if_pos (hA c (List.mem_cons_self _ _)),
      ih (fun d hd => hA d (List.mem_cons_of_mem _ hd)) B]
    rfl

/-- At this position, any match of the declaration pattern consumes and
reproduces exactly itself. -/
def GoodD (l : List Char) : Prop :=
  ∀ r rest, dTryMatch l = some (r, rest) → l = r ++ rest

/-- Every line-start suffix (tracked by the flag) is good. -/
def AllGoodD : Bool → List Char → Prop
  | _, [] => True
  | b, c :: t => (b = true → GoodD (c :: t)) ∧ AllGoodD (c == '\n') t

theorem allGoodD_drop : ∀ (a : List Char) (b : Bool) (x : List Char),
    AllGoodD b (a ++ x) → AllGoodD (flagAfter b a) x := by
  intro a
  induction a with
  | nil => intro b x h; exact h
  | cons c a' ih =>
    intro b x h
    rw [flagAfter_cons]
    exact ih (c == '\n') x h.2

/-- All line-start positions strictly within the region `a` are good. -/
def GoodStartsD : Bool → List Char → List Char → Prop
  | _, [], _ => True
  | b, c :: a', x => (b = true → GoodD (c :: (a' ++ x))) ∧ GoodStartsD (c == '\n') a' x

theorem goodStartsD_append (b : Bool) (a₁ a₂ x : List Char)
    (h₁ : GoodStartsD b a₁ (a₂ ++ x)) (h₂ : GoodStartsD (flagAfter b a₁) a₂ x) :
    GoodStartsD b (a₁ ++ a₂) x := by
  induction a₁ generalizing b with
  | nil => exact h₂
  | cons c a' ih =>
    obtain ⟨hh, ht⟩ := h₁
    refine ⟨?_, ih (c == '\n') ht (by rwa [flagAfter_cons] at h₂)⟩
    intro hb
    have hm := hh hb
    simpa only [List.append_eq, List.append_assoc] using hm

theorem allGoodD_of_goodStarts : ∀ (a : List Char) (b : Bool) (x : List Char),
    GoodStartsD b a x → AllGoodD (flagAfter b a) x → AllGoodD b (a ++ x) := by
  intro a
  induction a with
  | nil => intro b x _ h₂; exact h₂
  | cons c a' ih =>
    intro b x h₁ h₂
    refine ⟨h₁.1, ih (c == '\n') x h₁.2 (by rwa [flagAfter_cons] at h₂)⟩

theorem goodStartsD_of_noStart : ∀ (a : List Char) (b : Bool) (x : List Char),
    NoStartD b a x → GoodStartsD b a x := by
  intro a
  induction a with
  | nil => intro b x _; trivial
  | cons c a' ih =>
    intro b x h
    refine ⟨?_, ih (c == '\n') x h.2⟩
    intro hb r rest hm
    rw [h.1 hb] at hm
    cases hm

theorem goodStartsD_ws_of_core (W x repl₀ S : List Char)
    (hW : ∀ c ∈ W, isPyWs c = true)
    (hdwx : x.dropWhile isPyWs = x) (htwx : x.takeWhile isPyWs = [])
    (hcore : dTryCore x = some (repl₀, S))
    (hgood : repl₀ ++ S = x) : ∀ b, GoodStartsD b W x := by
  induction W with
  | nil => intro b; trivial
  | cons c W' ih =>
    intro b
    have htail := fun d hd => hW d (List.mem_cons_of_mem _ hd)
    refine ⟨?_, ih htail (c == '\n')⟩
    intro _ r rest hm
    have hM : dTryMatch (c :: (W' ++ x)) = some ((c :: W') ++ repl₀, S) := by
      rw [dTryMatch_reduce _ repl₀ S
        (by rw [List.dropWhile_cons, if_pos (hW c (List.mem_cons_self _ _)),
          dropWhile_append_ws W' x htail, hdwx]; exact hcore),
        List.takeWhile_cons, if_pos (hW c (List.mem_cons_self _ _)),
        takeWhile_append_all isPyWs W' htail x, htwx, List.append_nil]
    rw [hM] at hm
    obtain ⟨h1, h2⟩ := Prod.mk.inj (Option.some.inj hm)
    rw [← h1, ← h2, List.append_assoc, hgood]
    rfl

/-- A word-run position (a declaration name) never starts a match. -/
theorem core_none_at_name (nm w2 Q : List Char)
    (hnmne : nm ≠ []) (hnmm : ∀ c ∈ nm, isWordChar c = true)
    (hw2m : ∀ c ∈ w2, isPyWs c = true) :
    dTryCore (nm ++ (w2 ++ ('(' :: Q))) = none := by
  cases hc : dTryCore (nm ++ (w2 ++ ('(' :: Q))) with
  | none => rfl
  | some p =>
    obtain ⟨w1', nm', w2', args', hw1'ne, hw1'm, hnm'ne, hnm'm, hw2'm, hfree', hshape, _⟩ :=
      dTryCore_some _ p.1 p.2 (by rw [hc])
    obtain ⟨h1', t1', hw1'0⟩ : ∃ c t, w1' = c :: t := by
      cases w1' with
      | nil => exact absurd rfl hw1'ne
      | cons a t => exact ⟨a, t, rfl⟩
    have hh1'ws : isPyWs h1' = true := hw1'm h1' (by rw [hw1'0]; exact List.mem_cons_self _ _)
    have hh1'w : isWordChar h1' = false := ws_not_wordChar h1' hh1'ws
    obtain ⟨hLt, hLd⟩ := parse_nm nm w2 Q hnmm hw2m
    have hRd : (nm ++ (w2 ++ ('(' :: Q))).dropWhile isWordChar =
        w1' ++ (nm' ++ (w2' ++ ('(' :: (args' ++ ')' :: ':' :: p.2)))) := by
      rw [hshape, hw1'0]
      exact dropWhile_all_append isWordChar DEFKW (by decide) h1' hh1'w _
    rw [hLd] at hRd
    obtain ⟨hp1t, hp1d⟩ := parse_w1 w1' nm' (w2' ++ ('(' :: (args' ++ ')' :: ':' :: p.2)))
      hw1'm hnm'ne hnm'm
    have hw2eq : (w2 ++ ('(' :: Q)).dropWhile isPyWs = '(' :: Q :=
      dropWhile_all_append isPyWs w2 hw2m '(' (by decide) Q
    have hRd2 : ('(' :: Q : List Char) = nm' ++ (w2' ++ ('(' :: (args' ++ ')' :: ':' :: p.2))) := by
      rw [← hw2eq, hRd, hp1d]
    obtain ⟨n0', nt', hnm'0⟩ : ∃ c t, nm' = c :: t := by
      cases nm' with
      | nil => exact absurd rfl hnm'ne
      | cons a t => exact ⟨a, t, rfl⟩
    rw [hnm'0] at hRd2
    have hn0' : n0' = '(' := by
      have := (List.cons.inj hRd2).1
      exact this.symm
    have hw : isWordChar '(' = true := by
      rw [← hn0']
      exact hnm'm n0' (by rw [hnm'0]; exact List.mem_cons_self _ _)
    exact absurd hw (by decide)

/-- M2-D: on an all-good input the declaration scan is the identity. -/
theorem allGoodD_scan_id : ∀ (b : Bool) (l : List Char), AllGoodD b l → dScan b l = l := by
  intro b l
  induction b, l using dScan.induct with
  | case1 => intro _; exact dScan_nil _
  | case2 c t ih =>
    intro h
    rw [dScan_false_cons, ih h.2]
  | case3 c t r rest hm ih =>
    intro h
    have hl : c :: t = r ++ rest := h.1 rfl r rest hm
    obtain ⟨w, w1, nm, w2, args, _, _, _, _, _, _, _, _, hr, _⟩ := dTryMatch_some _ _ _ hm
    have hflag : flagAfter true r = false := by
      rw [hr, show w ++ (DEFKW ++ (w1 ++ (nm ++ (w2 ++ ('(' ::
        (normArgs args ++ [')', ':'])))))) = (w ++ (DEFKW ++ (w1 ++ (nm ++ (w2 ++
        ('(' :: (normArgs args ++ [')']))))))) ++ [':'] by simp,
        flagAfter_append_single]
      decide
    have hrest : AllGoodD false rest := by
      have hd := allGoodD_drop r true rest (by rw [← hl]; exact h)
      rwa [hflag] at hd
    rw [dScan_true_cons_match c t r rest hm, ih hrest, ← hl]
  | case4 c t hm ih =>
    intro h
    rw [dScan_true_cons_none c t hm, ih h.2]

/-- M1-D: the declaration scan output is all-good. -/
theorem scan_allGoodD : ∀ (b : Bool) (l : List Char), AllGoodD b (dScan b l) := by
  intro b l
  induction b, l using dScan.induct with
  | case1 => rw [dScan_nil]; trivial
  | case2 c t ih =>
    rw [dScan_false_cons]
    exact ⟨fun hb => absurd hb Bool.false_ne_true, ih⟩
  | case3 c t r rest hm ih =>
    rw [dScan_true_cons_match c t r rest hm]
    obtain ⟨w, w1, nm, w2, args, hw, hw1ne, hw1m, hnmne, hnmm, hw2m, hfree, _, hr, _⟩ :=
      dTryMatch_some _ _ _ hm
    have hQfree : ')' ∉ normArgs args := normArgs_paren_free args hfree
    have hQnl : '\n' ∉ normArgs args := normArgs_no_newline args
    obtain ⟨nm0, nmt, hnm0⟩ : ∃ c t, nm = c :: t := by
      cases nm with
      | nil => exact absurd rfl hnmne
      | cons a t => exact ⟨a, t, rfl⟩
    have hnm0ws : isPyWs nm0 = false :=
      wordChar_not_ws nm0 (hnmm nm0 (by rw [hnm0]; exact List.mem_cons_self _ _))
    have hnmnl : '\n' ∉ nm := fun hmem => word_not_newline '\n' (hnmm _ hmem) rfl
    -- the replacement re-parses as an identity match before any suffix
    have hcoreRepl : ∀ S : List Char,
        dTryCore (DEFKW ++ (w1 ++ (nm ++ (w2 ++ ('(' :: (normArgs args ++
          ')' :: ':' :: S)))))) = some (DEFKW ++ (w1 ++ (nm ++ (w2 ++
          ('(' :: (normArgs args ++ [')', ':']))))), S) := by
      intro S
      rw [dTryCore_build w1 nm w2 (normArgs args) S hw1ne hw1m hnmne hnmm hw2m hQfree,
        normArgs_idem]
    set S := dScan false rest with hS
    have hshape : r ++ S = w ++ (DEFKW ++ (w1 ++ (nm ++ (w2 ++ ('(' ::
        (normArgs args ++ ')' :: ':' :: S)))))) := by
      rw [hr]
      simp
    have hxdw : (DEFKW ++ (w1 ++ (nm ++ (w2 ++ ('(' :: (normArgs args ++
        ')' :: ':' :: S)))))).dropWhile isPyWs = DEFKW ++ (w1 ++ (nm ++ (w2 ++
        ('(' :: (normArgs args ++ ')' :: ':' :: S))))) :=
      dropWhile_defkw_append _
    have hxtw : (DEFKW ++ (w1 ++ (nm ++ (w2 ++ ('(' :: (normArgs args ++
        ')' :: ':' :: S)))))).takeWhile isPyWs = [] :=
      takeWhile_head_false_eq isPyWs 'd' _ (by decide)
    have hgoodx : (DEFKW ++ (w1 ++ (nm ++ (w2 ++ ('(' ::
        (normArgs args ++ [')', ':'])))))) ++ S = DEFKW ++ (w1 ++ (nm ++ (w2 ++
        ('(' :: (normArgs args ++ ')' :: ':' :: S))))) := by
      simp
    have hdwX₁ : ((nm ++ (w2 ++ ('(' :: (normArgs args ++ [')', ':'])))) ++ S).dropWhile
        isPyWs = nm ++ (w2 ++ ('(' :: (normArgs args ++ ')' :: ':' :: S))) := by
      rw [show ((nm ++ (w2 ++ ('(' :: (normArgs args ++ [')', ':'])))) ++ S : List Char) =
        nm ++ (w2 ++ ('(' :: (normArgs args ++ ')' :: ':' :: S))) by simp, hnm0]
      exact dropWhile_head_false_eq isPyWs nm0 _ hnm0ws
    have hcoreName : dTryCore (nm ++ (w2 ++ ('(' :: (normArgs args ++
        ')' :: ':' :: S)))) = none :=
      core_none_at_name nm w2 _ hnmne hnmm hw2m
    -- assemble goodness over the replacement region, then the scanned rest
    have hGS : GoodStartsD true r S := by
      rw [hr]
      apply goodStartsD_append
      · refine goodStartsD_ws_of_core w _ (DEFKW ++ (w1 ++ (nm ++ (w2 ++ ('(' ::
          (normArgs args ++ [')', ':'])))))) S hw ?_ ?_ ?_ ?_ true
        · rw [show ((DEFKW ++ (w1 ++ (nm ++ (w2 ++ ('(' :: (normArgs args ++
            [')', ':'])))))) ++ S : List Char) = DEFKW ++ (w1 ++ (nm ++ (w2 ++
            ('(' :: (normArgs args ++ ')' :: ':' :: S))))) by simp]
          exact hxdw
        · rw [show ((DEFKW ++ (w1 ++ (nm ++ (w2 ++ ('(' :: (normArgs args ++
            [')', ':'])))))) ++ S : List Char) = DEFKW ++ (w1 ++ (nm ++ (w2 ++
            ('(' :: (normArgs args ++ ')' :: ':' :: S))))) by simp]
          exact hxtw
        · rw [show ((DEFKW ++ (w1 ++ (nm ++ (w2 ++ ('(' :: (normArgs args ++
            [')', ':'])))))) ++ S : List Char) = DEFKW ++ (w1 ++ (nm ++ (w2 ++
            ('(' :: (normArgs args ++ ')' :: ':' :: S))))) by simp]
          exact hcoreRepl S
        · simp
      · apply goodStartsD_append
        · -- the `def` keyword region: entry is an identity match
          refine ⟨?_, fun h => absurd h (by decide), fun h => absurd h (by decide), trivial⟩
          intro _ r' rest' hm'
          have hM : dTryMatch (DEFKW ++ ((w1 ++ (nm ++ (w2 ++ ('(' ::
              (normArgs args ++ [')', ':']))))) ++ S)) = some (DEFKW ++ (w1 ++ (nm ++
              (w2 ++ ('(' :: (normArgs args ++ [')', ':']))))), S) := by
            rw [show (DEFKW ++ ((w1 ++ (nm ++ (w2 ++ ('(' :: (normArgs args ++
              [')', ':']))))) ++ S) : List Char) = DEFKW ++ (w1 ++ (nm ++ (w2 ++
              ('(' :: (normArgs args ++ ')' :: ':' :: S))))) by simp]
            rw [dTryMatch_reduce _ _ _ (by rw [hxdw]; exact hcoreRepl S), hxtw]
            rfl
          rw [show ('d' :: (['e', 'f'] ++ ((w1 ++ (nm ++ (w2 ++ ('(' ::
            (normArgs args ++ [')', ':']))))) ++ S)) : List Char) = DEFKW ++
            ((w1 ++ (nm ++ (w2 ++ ('(' :: (normArgs args ++ [')', ':']))))) ++ S)
            from rfl, hM] at hm'
          obtain ⟨h1, h2⟩ := Prod.mk.inj (Option.some.inj hm')
          rw [show ('d' :: (['e', 'f'] ++ ((w1 ++ (nm ++ (w2 ++ ('(' ::
            (normArgs args ++ [')', ':']))))) ++ S)) : List Char) = DEFKW ++
            ((w1 ++ (nm ++ (w2 ++ ('(' :: (normArgs args ++ [')', ':']))))) ++ S)
            from rfl, ← h1, ← h2]
          simp
        · apply goodStartsD_append
          · -- the leading whitespace run of the header: no match starts here
            apply goodStartsD_of_noStart
            refine noStartD_ws w1 _ hw1m ?_ _
            rw [hdwX₁]
            exact hcoreName
          · apply goodStartsD_append
            · -- the declaration name: no match starts here
              apply goodStartsD_of_noStart
              refine noStartD_nonl nm _ hnmnl _ ?_
              intro _
              apply dTryMatch_none_of_core
              rw [show (nm ++ ((w2 ++ ('(' :: (normArgs args ++ [')', ':']))) ++ S)
                : List Char) = (nm ++ (w2 ++ ('(' :: (normArgs args ++ [')', ':'])))) ++ S
                by simp, hdwX₁]
              exact hcoreName
            · apply goodStartsD_append
              · -- whitespace before the parenthesis: no match starts here
                apply goodStartsD_of_noStart
                refine noStartD_ws w2 _ hw2m ?_ _
                rw [show (('(' :: (normArgs args ++ [')', ':'])) ++ S : List Char) =
                  '(' :: ((normArgs args ++ [')', ':']) ++ S) from rfl,
                  dropWhile_head_false_eq isPyWs '(' _ (by decide)]
                exact dTryCore_none_d1 _ (not_defkw_prefix_of_head '(' _ (by decide))
              · -- the normalised argument list: newline-free, no match starts here
                apply goodStartsD_of_noStart
                refine noStartD_nonl ('(' :: (normArgs args ++ [')', ':'])) S ?_ _ ?_
                · intro hmem
                  rcases List.mem_cons.mp hmem with hh | hh
                  · exact absurd hh (by decide)
                  rcases List.mem_append.mp hh with h1 | h2
                  · exact hQnl h1
                  rcases List.mem_cons.mp h2 with he | he
                  · exact absurd he (by decide)
                  rcases List.mem_cons.mp he with he2 | he2
                  · exact absurd he2 (by decide)
                  · cases he2
                · intro _
                  apply dTryMatch_none_of_core
                  rw [show (('(' :: (normArgs args ++ [')', ':'])) ++ S : List Char) =
                    '(' :: ((normArgs args ++ [')', ':']) ++ S) from rfl,
                    dropWhile_head_false_eq isPyWs '(' _ (by decide)]
                  exact dTryCore_none_d1 _ (not_defkw_prefix_of_head '(' _ (by decide))
    have hflag : flagAfter true r = false := by
      rw [hr, show w ++ (DEFKW ++ (w1 ++ (nm ++ (w2 ++ ('(' ::
        (normArgs args ++ [')', ':'])))))) = (w ++ (DEFKW ++ (w1 ++ (nm ++ (w2 ++
        ('(' :: (normArgs args ++ [')']))))))) ++ [':'] by simp,
        flagAfter_append_single]
      decide
    refine allGoodD_of_goodStarts r true S hGS ?_
    rw [hflag]
    exact ih
  | case4 c t hm ih =>
    rw [dScan_true_cons_none c t hm]
    refine ⟨fun _ => ?_, ih⟩
    intro r' rest' hm'
    rw [← dScan_true_cons_none c t hm, dTryMatch_none_scan _ hm] at hm'
    cases hm'

/-- Idempotence of the declaration rewrite. -/
theorem dScan_idem (l : List Char) : dScan true (dScan true l) = dScan true l :=
  allGoodD_scan_id true _ (scan_allGoodD true l)

/-! ### Interaction of the two rewrites -/

theorem not_ret_prefix_of_head (c : Char) (X : List Char) (hc : c ≠ 'r') :
    ¬ RET.isPrefixOf (c :: X) = true := by
  intro h
  obtain ⟨t, ht⟩ := List.isPrefixOf_iff_prefix.mp h
  exact hc (List.cons.inj ht).1.symm

theorem flagAfter_true_decomp (b : Bool) (p : List Char)
    (h : flagAfter b p = true) (hne : p ≠ []) : ∃ q, p = q ++ ['\n'] := by
  rcases List.eq_nil_or_concat p with h0 | ⟨q, c, hqc⟩
  · exact absurd h0 hne
  · rw [List.concat_eq_append] at hqc
    subst hqc
    rw [flagAfter_append_single] at h
    have hc : c = '\n' := by simpa using h
    exact ⟨q, by rw [hc]⟩

theorem rScan_first_match : ∀ (b : Bool) (l : List Char), rScan b l = l ∨
    ∃ p m rest, l = p ++ (m ++ rest) ∧ flagAfter b p = true ∧
      rTryMatch (m ++ rest) = some (m, rest) ∧
      rScan b l = p ++ (collapse m ++ rScan false rest) := by
  intro b l
  induction b, l using rScan.induct with
  | case1 => exact Or.inl (rScan_nil _)
  | case2 c t ih =>
    rcases ih with hid | ⟨p, m, rest, hdec, hflag, hmm, hout⟩
    · exact Or.inl (by rw [rScan_false_cons, hid])
    · refine Or.inr ⟨c :: p, m, rest, by rw [hdec]; rfl, ?_, hmm, ?_⟩
      · rw [flagAfter_cons]
        exact hflag
      · rw [rScan_false_cons, hout]
        rfl
  | case3 c t m rest hm ih =>
    obtain ⟨hl, _⟩ := rTryMatch_some_decomp _ _ _ hm
    refine Or.inr ⟨[], m, rest, by rw [← hl]; rfl, rfl, by rw [← hl]; exact hm, ?_⟩
    rw [rScan_true_cons_match c t m rest hm]
    rfl
  | case4 c t hm ih =>
    rcases ih with hid | ⟨p, m, rest, hdec, hflag, hmm, hout⟩
    · exact Or.inl (by rw [rScan_true_cons_none c t hm, hid])
    · refine Or.inr ⟨c :: p, m, rest, by rw [hdec]; rfl,
        by rw [flagAfter_cons]; exact hflag, hmm, ?_⟩
      rw [rScan_true_cons_none c t hm, hout]
      rfl

theorem collapse_of_stable (a : List Char) (h : normArgs a = a) : collapse a = a := by
  have hnl : '\n' ∉ a := by
    rw [← h]
    exact normArgs_no_newline a
  unfold collapse
  rw [nlSub_of_no_newline a hnl]
  conv_lhs => rw [← h]
  rw [show normArgs a = commaSub (stripWs (a.filter (fun c => c != '\n'))) from rfl,
    commaSub_idem]
  exact h

theorem allGoodD_append_nonl : ∀ (a : List Char), '\n' ∉ a → ∀ (b : Bool) (x : List Char),
    AllGoodD false x → (b = true → GoodD (a ++ x)) → AllGoodD b (a ++ x) := by
  intro a
  induction a with
  | nil =>
    intro _ b x hx hg
    cases x with
    | nil => trivial
    | cons c x' => exact ⟨fun hb => hg hb, hx.2⟩
  | cons c a' ih =>
    intro ha b x hx hg
    have hc : c ≠ '\n' := fun h => ha (h ▸ List.mem_cons_self _ _)
    refine ⟨fun hb => hg hb, ?_⟩
    rw [show (c == '\n') = false by simp [hc]]
    exact ih (fun h => ha (List.mem_cons_of_mem _ h)) false x hx
      (fun h => absurd h Bool.false_ne_true)

theorem goodD_span_copy (W w1 nm w2 args rest0 : List Char)
    (hW : ∀ c ∈ W, isPyWs c = true)
    (hw1ne : w1 ≠ []) (hw1m : ∀ c ∈ w1, isPyWs c = true)
    (hnmne : nm ≠ []) (hnmm : ∀ c ∈ nm, isWordChar c = true)
    (hw2m : ∀ c ∈ w2, isPyWs c = true) (hfree : ')' ∉ args)
    (hstable : normArgs args = args)
    (hns : NoStart true (W ++ (DEFKW ++ (w1 ++ (nm ++ (w2 ++
      ('(' :: (args ++ [')', ':']))))))) rest0) :
    GoodD (rScan true (W ++ (DEFKW ++ (w1 ++ (nm ++ (w2 ++
      ('(' :: (args ++ ')' :: ':' :: rest0)))))))) := by
  have hflagP : flagAfter true (W ++ (DEFKW ++ (w1 ++ (nm ++ (w2 ++
      ('(' :: (args ++ [')', ':']))))))) = false := by
    rw [show W ++ (DEFKW ++ (w1 ++ (nm ++ (w2 ++ ('(' :: (args ++ [')', ':'])))))) =
      (W ++ (DEFKW ++ (w1 ++ (nm ++ (w2 ++ ('(' :: (args ++ [')']))))))) ++ [':'] by simp,
      flagAfter_append_single]
    decide
  have houteq : rScan true (W ++ (DEFKW ++ (w1 ++ (nm ++ (w2 ++
      ('(' :: (args ++ ')' :: ':' :: rest0))))))) =
      (W ++ (DEFKW ++ (w1 ++ (nm ++ (w2 ++ ('(' :: (args ++ [')', ':']))))))) ++
        rScan false rest0 := by
    conv_lhs => rw [show W ++ (DEFKW ++ (w1 ++ (nm ++ (w2 ++
      ('(' :: (args ++ ')' :: ':' :: rest0)))))) =
      (W ++ (DEFKW ++ (w1 ++ (nm ++ (w2 ++ ('(' :: (args ++ [')', ':']))))))) ++ rest0
      by simp]
    rw [rScan_copy true _ rest0 hns, hflagP]
  have hM : dTryMatch ((W ++ (DEFKW ++ (w1 ++ (nm ++ (w2 ++
      ('(' :: (args ++ [')', ':']))))))) ++ rScan false rest0) =
      some (W ++ (DEFKW ++ (w1 ++ (nm ++ (w2 ++ ('(' :: (args ++ [')', ':'])))))),
        rScan false rest0) := by
    rw [show (W ++ (DEFKW ++ (w1 ++ (nm ++ (w2 ++ ('(' :: (args ++ [')', ':'])))))))
      ++ rScan false rest0 = W ++ (DEFKW ++ (w1 ++ (nm ++ (w2 ++
      ('(' :: (args ++ ')' :: ':' :: rScan false rest0)))))) by simp,
      dTryMatch_build W w1 nm w2 args (rScan false rest0) hW hw1ne hw1m hnmne hnmm
        hw2m hfree, hstable]
  intro r rest hm
  rw [houteq] at hm ⊢
  rw [hM] at hm
  obtain ⟨h1, h2⟩ := Prod.mk.inj (Option.some.inj hm)
  rw [← h1, ← h2]

/-- K1b: at a position where the declaration pattern matches and is
already normalised, the return-statement scan leaves the verdict an
identity match. -/
theorem goodD_rscan_of_identity (u r0 rest0 : List Char)
    (hD : dTryMatch u = some (r0, rest0)) (hid : u = r0 ++ rest0) :
    GoodD (rScan true u) := by
  obtain ⟨W, w1, nm, w2, args, hW, hw1ne, hw1m, hnmne, hnmm, hw2m, hfree, hu, hr0, _⟩ :=
    dTryMatch_some u r0 rest0 hD
  have heqargs : args ++ ')' :: ':' :: rest0 = normArgs args ++ ')' :: ':' :: rest0 := by
    have h0 := hid
    rw [hu, hr0] at h0
    simpa using h0
  have hb1 : breakAtParen (args ++ ')' :: ':' :: rest0) = some (args, ':' :: rest0) :=
    breakAtParen_append args _ hfree
  have hb2 : breakAtParen (args ++ ')' :: ':' :: rest0) =
      some (normArgs args, ':' :: rest0) := by
    rw [heqargs]
    exact breakAtParen_append _ _ (normArgs_paren_free args hfree)
  have hstable : normArgs args = args := by
    rw [hb1] at hb2
    exact ((Prod.mk.inj (Option.some.inj hb2)).1).symm
  have hnlargs : '\n' ∉ args := by
    rw [← hstable]
    exact normArgs_no_newline args
  have hcollargs : collapse args = args := collapse_of_stable args hstable
  have hnmnl : '\n' ∉ nm := fun hmem => word_not_newline '\n' (hnmm _ hmem) rfl
  obtain ⟨nm0, nmt, hnm0⟩ : ∃ c t, nm = c :: t := by
    cases nm with
    | nil => exact absurd rfl hnmne
    | cons a t => exact ⟨a, t, rfl⟩
  have hnm0ws : isPyWs nm0 = false :=
    wordChar_not_ws nm0 (hnmm nm0 (by rw [hnm0]; exact List.mem_cons_self _ _))
  have hτ₀ : ∀ Z : List Char, rTryCore (DEFKW ++ Z) = none := fun Z =>
    rTryCore_none_noRet _ (not_ret_prefix_of_head 'd' (['e', 'f'] ++ Z) (by decide))
  have hMdef : ∀ Z : List Char, rTryMatch (DEFKW ++ Z) = none := fun Z =>
    rTryMatch_none_of_core _ (by rw [dropWhile_defkw_append]; exact hτ₀ _)
  have hκ : ∀ Z : List Char, rTryCore ('(' :: Z) = none := fun Z =>
    rTryCore_none_noRet _ (not_ret_prefix_of_head '(' Z (by decide))
  have hMparen : ∀ Z : List Char, rTryMatch ('(' :: Z) = none := fun Z =>
    rTryMatch_none_of_core _
      (by rw [dropWhile_head_false_eq isPyWs '(' Z (by decide)]; exact hκ Z)
  rw [hu]
  by_cases hw1nl : '\n' ∈ w1
  · cases hτ : rTryCore (nm ++ (w2 ++ ('(' :: (args ++ ')' :: ':' :: rest0)))) with
    | none =>
      apply goodD_span_copy W w1 nm w2 args rest0 hW hw1ne hw1m hnmne hnmm hw2m hfree
        hstable
      apply noStart_append
      · exact noStart_ws W _ hW (by
          rw [show ((DEFKW ++ (w1 ++ (nm ++ (w2 ++ ('(' :: (args ++ [')', ':']))))))
            ++ rest0 : List Char) = DEFKW ++ ((w1 ++ (nm ++ (w2 ++
            ('(' :: (args ++ [')', ':']))))) ++ rest0) by simp, dropWhile_defkw_append]
          exact hτ₀ _) true
      · apply noStart_append
        · refine noStart_nonl DEFKW _ (by decide) _ ?_
          intro _
          exact hMdef _
        · rw [flagAfter_nonl_ne_nil DEFKW (by decide) (by decide) _]
          apply noStart_append
          · refine noStart_ws w1 _ hw1m ?_ false
            rw [show ((nm ++ (w2 ++ ('(' :: (args ++ [')', ':'])))) ++ rest0 : List Char)
              = nm ++ (w2 ++ ('(' :: (args ++ ')' :: ':' :: rest0))) by simp, hnm0]
            rw [show List.dropWhile isPyWs (nm0 :: nmt ++ (w2 ++ ('(' ::
              (args ++ ')' :: ':' :: rest0)))) = nm0 :: nmt ++ (w2 ++ ('(' ::
              (args ++ ')' :: ':' :: rest0)))
              from dropWhile_head_false_eq isPyWs nm0 _ hnm0ws, ← hnm0]
            exact hτ
          · apply noStart_append
            · refine noStart_nonl nm _ hnmnl _ ?_
              intro _
              apply rTryMatch_none_of_core
              rw [show (nm ++ ((w2 ++ ('(' :: (args ++ [')', ':']))) ++ rest0)
                : List Char) = nm ++ (w2 ++ ('(' :: (args ++ ')' :: ':' :: rest0)))
                by simp, hnm0]
              rw [show List.dropWhile isPyWs (nm0 :: nmt ++ (w2 ++ ('(' ::
                (args ++ ')' :: ':' :: rest0)))) = nm0 :: nmt ++ (w2 ++ ('(' ::
                (args ++ ')' :: ':' :: rest0)))
                from dropWhile_head_false_eq isPyWs nm0 _ hnm0ws, ← hnm0]
              exact hτ
            · rw [flagAfter_nonl_ne_nil nm hnmnl hnmne _]
              apply noStart_append
              · refine noStart_ws w2 _ hw2m ?_ false
                rw [show (('(' :: (args ++ [')', ':'])) ++ rest0 : List Char) =
                  '(' :: ((args ++ [')', ':']) ++ rest0) from rfl,
                  dropWhile_head_false_eq isPyWs '(' _ (by decide)]
                exact hκ _
              · refine noStart_nonl ('(' :: (args ++ [')', ':'])) rest0 ?_ _ ?_
                · intro hmem
                  rcases List.mem_cons.mp hmem with hh | hh
                  · exact absurd hh (by decide)
                  rcases List.mem_append.mp hh with h1 | h2
                  · exact hnlargs h1
                  rcases List.mem_cons.mp h2 with he | he
                  · exact absurd he (by decide)
                  rcases List.mem_cons.mp he with he2 | he2
                  · exact absurd he2 (by decide)
                  · cases he2
                · intro _
                  exact hMparen _
    | some q =>
      obtain ⟨cm', rest'⟩ := q
      obtain ⟨w2'', inside'', hw2''m, hfree'', hshape'', hcm'⟩ :=
        rTryCore_some _ cm' rest' hτ
      -- the matched name must be exactly the return keyword
      have ht1 := (parse_nm nm w2 (args ++ ')' :: ':' :: rest0) hnmm hw2m).1
      rw [hshape'',
        (parse_nm RET w2'' (inside'' ++ ')' :: rest') (by decide) hw2''m).1] at ht1
      have hnmRET : nm = RET := ht1.symm
      have hd1 := (parse_nm nm w2 (args ++ ')' :: ':' :: rest0) hnmm hw2m).2
      rw [hshape'',
        (parse_nm RET w2'' (inside'' ++ ')' :: rest') (by decide) hw2''m).2] at hd1
      have hw2t := congrArg (List.takeWhile isPyWs) hd1
      rw [(parse_w2 w2'' (inside'' ++ ')' :: rest') hw2''m).1,
        (parse_w2 w2 (args ++ ')' :: ':' :: rest0) hw2m).1] at hw2t
      have hw2d := congrArg (List.dropWhile isPyWs) hd1
      rw [(parse_w2 w2'' (inside'' ++ ')' :: rest') hw2''m).2,
        (parse_w2 w2 (args ++ ')' :: ':' :: rest0) hw2m).2] at hw2d
      have hY : inside'' ++ ')' :: rest' = args ++ ')' :: ':' :: rest0 :=
        (List.cons.inj hw2d).2
      have hbk : (some (inside'', rest') : Option (List Char × List Char)) =
          some (args, ':' :: rest0) := by
        rw [← breakAtParen_append inside'' rest' hfree'', hY, hb1]
      have hins : inside'' = args := (Prod.mk.inj (Option.some.inj hbk)).1
      have hrest' : rest' = ':' :: rest0 := (Prod.mk.inj (Option.some.inj hbk)).2
      obtain ⟨w1a, w1b, hw1spl, hw1anl⟩ := split_first_newline w1 hw1nl
      have hw1am : ∀ c ∈ w1a, isPyWs c = true := fun c hc =>
        hw1m c (by rw [hw1spl]; exact List.mem_append_left _ hc)
      have hw1bm : ∀ c ∈ w1b, isPyWs c = true := fun c hc =>
        hw1m c (by rw [hw1spl]; exact List.mem_append_right _ (List.mem_cons_of_mem _ hc))
      have hv : rTryMatch (w1b ++ (nm ++ (w2 ++ ('(' :: (args ++ ')' :: ':' :: rest0)))))
          = some (w1b ++ cm', rest') := by
        rw [hnmRET]
        rw [rTryMatch_reduce _ cm' rest' (by
          rw [show (w1b ++ (RET ++ (w2 ++ ('(' :: (args ++ ')' :: ':' :: rest0))))
            : List Char) = w1b ++ 'r' :: (['e', 't', 'u', 'r', 'n'] ++ (w2 ++
            ('(' :: (args ++ ')' :: ':' :: rest0)))) from rfl,
            dropWhile_all_append isPyWs w1b hw1bm 'r' (by decide) _]
          rw [hnmRET] at hτ
          exact hτ)]
        rw [show (w1b ++ (RET ++ (w2 ++ ('(' :: (args ++ ')' :: ':' :: rest0))))
          : List Char) = w1b ++ 'r' :: (['e', 't', 'u', 'r', 'n'] ++ (w2 ++
          ('(' :: (args ++ ')' :: ':' :: rest0)))) from rfl,
          takeWhile_all_append isPyWs w1b hw1bm 'r' (by decide) _]
      have hns_p : NoStart true (W ++ (DEFKW ++ (w1a ++ ['\n'])))
          (w1b ++ (nm ++ (w2 ++ ('(' :: (args ++ ')' :: ':' :: rest0))))) := by
        apply noStart_append
        · exact noStart_ws W _ hW (by
            rw [show ((DEFKW ++ (w1a ++ ['\n'])) ++ (w1b ++ (nm ++ (w2 ++
              ('(' :: (args ++ ')' :: ':' :: rest0))))) : List Char) = DEFKW ++
              ((w1a ++ ['\n']) ++ (w1b ++ (nm ++ (w2 ++
              ('(' :: (args ++ ')' :: ':' :: rest0)))))) by simp, dropWhile_defkw_append]
            exact hτ₀ _) true
        · apply noStart_append
          · refine noStart_nonl DEFKW _ (by decide) _ ?_
            intro _
            exact hMdef _
          · rw [flagAfter_nonl_ne_nil DEFKW (by decide) (by decide) _]
            apply noStart_append
            · exact noStart_nonl w1a _ hw1anl false (fun h => absurd h Bool.false_ne_true)
            · rw [flagAfter_nonl w1a hw1anl]
              exact noStart_false_single '\n' _
      have hflag_p : flagAfter true (W ++ (DEFKW ++ (w1a ++ ['\n']))) = true := by
        rw [show W ++ (DEFKW ++ (w1a ++ ['\n'])) = (W ++ (DEFKW ++ w1a)) ++ ['\n']
          by simp, flagAfter_append_single]
        rfl
      have hcol : collapse (w1b ++ cm') = wsColl w1b ++ (RET ++ (wsColl w2 ++
          ('(' :: (args ++ [')'])))) := by
        rw [hcm', hw2t, hins, collapse_match_shape w1b w2 args hw1bm hw2m, hcollargs]
      have hrsc : rScan false rest' = ':' :: rScan false rest0 := by
        rw [hrest', rScan_false_cons, show ((':' : Char) == '\n') = false by decide]
      have houteq2 : rScan true (W ++ (DEFKW ++ (w1 ++ (nm ++ (w2 ++
          ('(' :: (args ++ ')' :: ':' :: rest0))))))) = W ++ (DEFKW ++
          ((w1a ++ '\n' :: wsColl w1b) ++ (RET ++ (wsColl w2 ++
          ('(' :: (args ++ ')' :: ':' :: rScan false rest0)))))) := by
        conv_lhs => rw [hw1spl, show W ++ (DEFKW ++ ((w1a ++ '\n' :: w1b) ++ (nm ++
          (w2 ++ ('(' :: (args ++ ')' :: ':' :: rest0)))))) = (W ++ (DEFKW ++
          (w1a ++ ['\n']))) ++ (w1b ++ (nm ++ (w2 ++
          ('(' :: (args ++ ')' :: ':' :: rest0))))) by simp]
        rw [rScan_copy true _ _ hns_p, hflag_p, rScan_true_match _ _ _ hv, hcol, hrsc]
        simp
      have hmem1 : ∀ c ∈ w1a ++ '\n' :: wsColl w1b, isPyWs c = true := by
        intro c hc
        rcases List.mem_append.mp hc with h1 | h2
        · exact hw1am c h1
        rcases List.mem_cons.mp h2 with hh | hh
        · rw [hh]; decide
        · exact wsColl_all_ws w1b hw1bm c hh
      have hM := dTryMatch_build W (w1a ++ '\n' :: wsColl w1b) RET (wsColl w2) args
        (rScan false rest0) hW (fun h => by simp at h) hmem1 (by decide) (by decide)
        (wsColl_all_ws w2 hw2m) hfree
      rw [hstable] at hM
      intro r rest hmg
      rw [houteq2] at hmg ⊢
      rw [hM] at hmg
      obtain ⟨h1, h2⟩ := Prod.mk.inj (Option.some.inj hmg)
      rw [← h1, ← h2]
      simp
  · apply goodD_span_copy W w1 nm w2 args rest0 hW hw1ne hw1m hnmne hnmm hw2m hfree
      hstable
    apply noStart_append
    · exact noStart_ws W _ hW (by
        rw [show ((DEFKW ++ (w1 ++ (nm ++ (w2 ++ ('(' :: (args ++ [')', ':']))))))
          ++ rest0 : List Char) = DEFKW ++ ((w1 ++ (nm ++ (w2 ++
          ('(' :: (args ++ [')', ':']))))) ++ rest0) by simp, dropWhile_defkw_append]
        exact hτ₀ _) true
    · apply noStart_append
      · refine noStart_nonl DEFKW _ (by decide) _ ?_
        intro _
        exact hMdef _
      · rw [flagAfter_nonl_ne_nil DEFKW (by decide) (by decide) _]
        apply noStart_append
        · exact noStart_nonl w1 _ hw1nl false (fun h => absurd h Bool.false_ne_true)
        · rw [flagAfter_nonl w1 hw1nl]
          apply noStart_append
          · exact noStart_nonl nm _ hnmnl false (fun h => absurd h Bool.false_ne_true)
          · rw [flagAfter_nonl nm hnmnl]
            apply noStart_append
            · refine noStart_ws w2 _ hw2m ?_ false
              rw [show (('(' :: (args ++ [')', ':'])) ++ rest0 : List Char) =
                '(' :: ((args ++ [')', ':']) ++ rest0) from rfl,
                dropWhile_head_false_eq isPyWs '(' _ (by decide)]
              exact hκ _
            · refine noStart_nonl ('(' :: (args ++ [')', ':'])) rest0 ?_ _ ?_
              · intro hmem
                rcases List.mem_cons.mp hmem with hh | hh
                · exact absurd hh (by decide)
                rcases List.mem_append.mp hh with h1 | h2
                · exact hnlargs h1
                rcases List.mem_cons.mp h2 with he | he
                · exact absurd he (by decide)
                rcases List.mem_cons.mp he with he2 | he2
                · exact absurd he2 (by decide)
                · cases he2
              · intro _
                exact hMparen _

theorem defkw_prefix_agree (c : Char) (P2 X Y : List Char) :
    DEFKW.isPrefixOf (c :: (P2 ++ ('\n' :: X))) =
    DEFKW.isPrefixOf (c :: (P2 ++ ('\n' :: Y))) := by
  by_cases hnl : '\n' ∈ c :: P2
  · obtain ⟨L, Pr, hspl, hLnl⟩ := split_first_newline _ hnl
    rw [show (c :: (P2 ++ ('\n' :: X)) : List Char) = L ++ ('\n' :: (Pr ++ ('\n' :: X)))
      by rw [show c :: (P2 ++ ('\n' :: X)) = (c :: P2) ++ ('\n' :: X) from rfl, hspl]; simp,
      show (c :: (P2 ++ ('\n' :: Y)) : List Char) = L ++ ('\n' :: (Pr ++ ('\n' :: Y)))
      by rw [show c :: (P2 ++ ('\n' :: Y)) = (c :: P2) ++ ('\n' :: Y) from rfl, hspl]; simp]
    exact prefix_nonl_agree DEFKW L _ _ (by decide) hLnl
  · rw [show (c :: (P2 ++ ('\n' :: X)) : List Char) = (c :: P2) ++ ('\n' :: X) from rfl,
      show (c :: (P2 ++ ('\n' :: Y)) : List Char) = (c :: P2) ++ ('\n' :: Y) from rfl]
    exact prefix_nonl_agree DEFKW (c :: P2) X Y (by decide) hnl

theorem break_corr (P w' w2' inside' rest S : List Char)
    (hw' : ∀ c ∈ w', isPyWs c = true) (hw2' : ∀ c ∈ w2', isPyWs c = true)
    (hin : ')' ∉ inside')
    (hheads : (rest = [] ∧ S = []) ∨ ∃ c₂ rt rt', rest = c₂ :: rt ∧ S = c₂ :: rt') :
    (∃ aIn aOut,
      breakAtParen (P ++ ('\n' :: (w' ++ (RET ++ (w2' ++
        ('(' :: (inside' ++ (')' :: rest)))))))) = some (aIn, []) ∧
      breakAtParen (P ++ ('\n' :: (wsColl w' ++ (RET ++ (wsColl w2' ++
        ('(' :: (collapse inside' ++ (')' :: S)))))))) = some (aOut, [])) ∨
    (∃ aIn aOut c₂ rIn rOut,
      breakAtParen (P ++ ('\n' :: (w' ++ (RET ++ (w2' ++
        ('(' :: (inside' ++ (')' :: rest)))))))) = some (aIn, c₂ :: rIn) ∧
      breakAtParen (P ++ ('\n' :: (wsColl w' ++ (RET ++ (wsColl w2' ++
        ('(' :: (collapse inside' ++ (')' :: S)))))))) = some (aOut, c₂ :: rOut)) := by
  by_cases hP : ')' ∈ P
  · have hs := breakAtParen_isSome_of_mem P hP
    cases hbP : breakAtParen P with
    | none => rw [hbP] at hs; cases hs
    | some q =>
      obtain ⟨hPd, hPfree⟩ := breakAtParen_some P q.1 q.2 hbP
      have hbI : breakAtParen (P ++ ('\n' :: (w' ++ (RET ++ (w2' ++
          ('(' :: (inside' ++ (')' :: rest)))))))) =
          some (q.1, q.2 ++ ('\n' :: (w' ++ (RET ++ (w2' ++
          ('(' :: (inside' ++ (')' :: rest)))))))) := by
        conv_lhs => rw [hPd, show (q.1 ++ ')' :: q.2) ++ ('\n' :: (w' ++ (RET ++ (w2' ++
          ('(' :: (inside' ++ (')' :: rest))))))) = q.1 ++ ')' :: (q.2 ++ ('\n' :: (w' ++
          (RET ++ (w2' ++ ('(' :: (inside' ++ (')' :: rest)))))))) by simp]
        exact breakAtParen_append q.1 _ hPfree
      have hbO : breakAtParen (P ++ ('\n' :: (wsColl w' ++ (RET ++ (wsColl w2' ++
          ('(' :: (collapse inside' ++ (')' :: S)))))))) =
          some (q.1, q.2 ++ ('\n' :: (wsColl w' ++ (RET ++ (wsColl w2' ++
          ('(' :: (collapse inside' ++ (')' :: S)))))))) := by
        conv_lhs => rw [hPd, show (q.1 ++ ')' :: q.2) ++ ('\n' :: (wsColl w' ++ (RET ++
          (wsColl w2' ++ ('(' :: (collapse inside' ++ (')' :: S))))))) = q.1 ++ ')' ::
          (q.2 ++ ('\n' :: (wsColl w' ++ (RET ++ (wsColl w2' ++
          ('(' :: (collapse inside' ++ (')' :: S)))))))) by simp]
        exact breakAtParen_append q.1 _ hPfree
      cases hq2 : q.2 with
      | nil =>
        refine Or.inr ⟨q.1, q.1, '\n',
          w' ++ (RET ++ (w2' ++ ('(' :: (inside' ++ (')' :: rest))))),
          wsColl w' ++ (RET ++ (wsColl w2' ++ ('(' :: (collapse inside' ++ (')' :: S))))),
          ?_, ?_⟩
        · rw [hbI, hq2]; rfl
        · rw [hbO, hq2]; rfl
      | cons g G' =>
        refine Or.inr ⟨q.1, q.1, g,
          G' ++ ('\n' :: (w' ++ (RET ++ (w2' ++ ('(' :: (inside' ++ (')' :: rest))))))),
          G' ++ ('\n' :: (wsColl w' ++ (RET ++ (wsColl w2' ++
            ('(' :: (collapse inside' ++ (')' :: S))))))),
          ?_, ?_⟩
        · rw [hbI, hq2]; rfl
        · rw [hbO, hq2]; rfl
  · have hspanInFree : ')' ∉ P ++ ('\n' :: (w' ++ (RET ++ (w2' ++ ('(' :: inside'))))) := by
      intro hmem
      rcases List.mem_append.mp hmem with h1 | h2
      · exact hP h1
      rcases List.mem_cons.mp h2 with hh | hh
      · exact absurd hh (by decide)
      rcases List.mem_append.mp hh with h3 | h4
      · exact ws_ne_rparen _ (hw' _ h3) rfl
      rcases List.mem_append.mp h4 with h5 | h6
      · exact absurd h5 (by decide)
      rcases List.mem_append.mp h6 with h7 | h8
      · exact ws_ne_rparen _ (hw2' _ h7) rfl
      rcases List.mem_cons.mp h8 with he | he
      · exact absurd he (by decide)
      · exact hin he
    have hspanOutFree : ')' ∉ P ++ ('\n' :: (wsColl w' ++ (RET ++ (wsColl w2' ++
        ('(' :: collapse inside'))))) := by
      intro hmem
      rcases List.mem_append.mp hmem with h1 | h2
      · exact hP h1
      rcases List.mem_cons.mp h2 with hh | hh
      · exact absurd hh (by decide)
      rcases List.mem_append.mp hh with h3 | h4
      · exact ws_ne_rparen _ (wsColl_all_ws w' hw' _ h3) rfl
      rcases List.mem_append.mp h4 with h5 | h6
      · exact absurd h5 (by decide)
      rcases List.mem_append.mp h6 with h7 | h8
      · exact ws_ne_rparen _ (wsColl_all_ws w2' hw2' _ h7) rfl
      rcases List.mem_cons.mp h8 with he | he
      · exact absurd he (by decide)
      · exact collapse_paren_free inside' hin he
    have hbI : breakAtParen (P ++ ('\n' :: (w' ++ (RET ++ (w2' ++
        ('(' :: (inside' ++ (')' :: rest)))))))) =
        some (P ++ ('\n' :: (w' ++ (RET ++ (w2' ++ ('(' :: inside'))))), rest) := by
      conv_lhs => rw [show P ++ ('\n' :: (w' ++ (RET ++ (w2' ++
        ('(' :: (inside' ++ (')' :: rest))))))) = (P ++ ('\n' :: (w' ++ (RET ++ (w2' ++
        ('(' :: inside')))))) ++ ')' :: rest by simp]
      exact breakAtParen_append _ rest hspanInFree
    have hbO : breakAtParen (P ++ ('\n' :: (wsColl w' ++ (RET ++ (wsColl w2' ++
        ('(' :: (collapse inside' ++ (')' :: S)))))))) =
        some (P ++ ('\n' :: (wsColl w' ++ (RET ++ (wsColl w2' ++
        ('(' :: collapse inside'))))), S) := by
      conv_lhs => rw [show P ++ ('\n' :: (wsColl w' ++ (RET ++ (wsColl w2' ++
        ('(' :: (collapse inside' ++ (')' :: S))))))) = (P ++ ('\n' :: (wsColl w' ++
        (RET ++ (wsColl w2' ++ ('(' :: collapse inside')))))) ++ ')' :: S by simp]
      exact breakAtParen_append _ S hspanOutFree
    rcases hheads with ⟨hrnil, hSnil⟩ | ⟨c₂, rt, rt', hrc, hSc⟩
    · exact Or.inl ⟨_, _, by rw [hbI, hrnil], by rw [hbO, hSnil]⟩
    · exact Or.inr ⟨_, _, c₂, rt, rt', by rw [hbI, hrc], by rw [hbO, hSc]⟩

theorem d_paren_corr (zI zO : List Char) (P w' w2' inside' rest S : List Char)
    (hw' : ∀ c ∈ w', isPyWs c = true) (hw2' : ∀ c ∈ w2', isPyWs c = true)
    (hin : ')' ∉ inside')
    (hheads : (rest = [] ∧ S = []) ∨ ∃ c₂ rt rt', rest = c₂ :: rt ∧ S = c₂ :: rt')
    (hpreI : DEFKW.isPrefixOf zI = true) (hpreO : DEFKW.isPrefixOf zO = true)
    (htwI : (zI.drop 3).takeWhile isPyWs ≠ []) (htwO : (zO.drop 3).takeWhile isPyWs ≠ [])
    (hnmI : ((zI.drop 3).dropWhile isPyWs).takeWhile isWordChar ≠ [])
    (hnmO : ((zO.drop 3).dropWhile isPyWs).takeWhile isWordChar ≠ [])
    (hchI : (((zI.drop 3).dropWhile isPyWs).dropWhile isWordChar).dropWhile isPyWs =
      '(' :: (P ++ ('\n' :: (w' ++ (RET ++ (w2' ++ ('(' :: (inside' ++ (')' :: rest)))))))))
    (hchO : (((zO.drop 3).dropWhile isPyWs).dropWhile isWordChar).dropWhile isPyWs =
      '(' :: (P ++ ('\n' :: (wsColl w' ++ (RET ++ (wsColl w2' ++
        ('(' :: (collapse inside' ++ (')' :: S)))))))))
    (hIn : dTryCore zI = none) : dTryCore zO = none := by
  rcases break_corr P w' w2' inside' rest S hw' hw2' hin hheads with
    ⟨aIn, aOut, hbI, hbO⟩ | ⟨aIn, aOut, c₂, rIn, rOut, hbI, hbO⟩
  · exact dTryCore_none_d7 zO _ aOut hpreO htwO hnmO hchO hbO
  · have hc₂ : c₂ ≠ ':' := by
      intro hcc
      subst hcc
      rw [dTryCore_reduce zI '(' _ hpreI htwI hnmI hchI, if_pos rfl, hbI] at hIn
      simp at hIn
    exact dTryCore_none_d8 zO _ aOut c₂ rOut hpreO htwO hnmO hchO hbO hc₂

theorem dropWhile_stops {α : Type} (p : α → Bool) (B : List α) (x : α) (T : List α)
    (hB : B = B.takeWhile p ++ (x :: T)) (hx : p x = false) :
    ∀ X : List α, (B ++ X).dropWhile p = x :: (T ++ X) := by
  intro X
  conv_lhs => rw [hB]
  rw [show (B.takeWhile p ++ (x :: T)) ++ X = B.takeWhile p ++ (x :: (T ++ X)) by simp]
  exact dropWhile_all_append p _ (mem_takeWhile_sat _ _) x hx _

theorem takeWhile_stops {α : Type} (p : α → Bool) (B : List α) (x : α) (T : List α)
    (hB : B = B.takeWhile p ++ (x :: T)) (hx : p x = false) :
    ∀ X : List α, (B ++ X).takeWhile p = B.takeWhile p := by
  intro X
  conv_lhs => rw [hB]
  rw [show (B.takeWhile p ++ (x :: T)) ++ X = B.takeWhile p ++ (x :: (T ++ X)) by simp]
  rw [takeWhile_all_append p _ (mem_takeWhile_sat _ _) x hx _]

theorem dCore_corr_main (P3 w' w2' inside' rest S : List Char)
    (hw' : ∀ c ∈ w', isPyWs c = true) (hw2' : ∀ c ∈ w2', isPyWs c = true)
    (hin : ')' ∉ inside')
    (hheads : (rest = [] ∧ S = []) ∨ ∃ c₂ rt rt', rest = c₂ :: rt ∧ S = c₂ :: rt')
    (hIn : dTryCore (DEFKW ++ (P3 ++ ('\n' :: (w' ++ (RET ++ (w2' ++
      ('(' :: (inside' ++ (')' :: rest))))))))) = none) :
    dTryCore (DEFKW ++ (P3 ++ ('\n' :: (wsColl w' ++ (RET ++ (wsColl w2' ++
      ('(' :: (collapse inside' ++ (')' :: S))))))))) = none := by
  have hwoutm : ∀ c ∈ wsColl w', isPyWs c = true := wsColl_all_ws w' hw'
  have hw2outm : ∀ c ∈ wsColl w2', isPyWs c = true := wsColl_all_ws w2' hw2'
  have hcollfree : ')' ∉ collapse inside' := collapse_paren_free inside' hin
  have hpreI : DEFKW.isPrefixOf (DEFKW ++ (P3 ++ ('\n' :: (w' ++ (RET ++ (w2' ++
      ('(' :: (inside' ++ (')' :: rest))))))))) = true := defkw_isPrefixOf_append _
  have hpreO : DEFKW.isPrefixOf (DEFKW ++ (P3 ++ ('\n' :: (wsColl w' ++ (RET ++
      (wsColl w2' ++ ('(' :: (collapse inside' ++ (')' :: S))))))))) = true :=
    defkw_isPrefixOf_append _
  have htwT_in : (w' ++ (RET ++ (w2' ++ ('(' :: (inside' ++
      (')' :: rest)))))).takeWhile isPyWs = w' :=
    takeWhile_all_append isPyWs w' hw' 'r' (by decide) _
  have hdwT_in : (w' ++ (RET ++ (w2' ++ ('(' :: (inside' ++
      (')' :: rest)))))).dropWhile isPyWs =
      RET ++ (w2' ++ ('(' :: (inside' ++ (')' :: rest)))) :=
    dropWhile_all_append isPyWs w' hw' 'r' (by decide) _
  have htwT_out : (wsColl w' ++ (RET ++ (wsColl w2' ++ ('(' :: (collapse inside' ++
      (')' :: S)))))).takeWhile isPyWs = wsColl w' :=
    takeWhile_all_append isPyWs _ hwoutm 'r' (by decide) _
  have hdwT_out : (wsColl w' ++ (RET ++ (wsColl w2' ++ ('(' :: (collapse inside' ++
      (')' :: S)))))).dropWhile isPyWs =
      RET ++ (wsColl w2' ++ ('(' :: (collapse inside' ++ (')' :: S)))) :=
    dropWhile_all_append isPyWs _ hwoutm 'r' (by decide) _
  cases hdP3 : P3.dropWhile isPyWs with
  | nil =>
    have hP3m : ∀ c ∈ P3, isPyWs c = true := all_sat_of_dropWhile_nil isPyWs P3 hdP3
    have htwA_in : (P3 ++ ('\n' :: (w' ++ (RET ++ (w2' ++ ('(' :: (inside' ++
        (')' :: rest)))))))).takeWhile isPyWs = P3 ++ ('\n' :: w') := by
      rw [takeWhile_append_all isPyWs P3 hP3m, List.takeWhile_cons,
        if_pos (by decide : isPyWs '\n' = true), htwT_in]
    have hdwA_in : (P3 ++ ('\n' :: (w' ++ (RET ++ (w2' ++ ('(' :: (inside' ++
        (')' :: rest)))))))).dropWhile isPyWs =
        RET ++ (w2' ++ ('(' :: (inside' ++ (')' :: rest)))) := by
      rw [dropWhile_append_ws P3 _ hP3m, List.dropWhile_cons,
        if_pos (by decide : isPyWs '\n' = true), hdwT_in]
    have htwA_out : (P3 ++ ('\n' :: (wsColl w' ++ (RET ++ (wsColl w2' ++
        ('(' :: (collapse inside' ++ (')' :: S)))))))).takeWhile isPyWs =
        P3 ++ ('\n' :: wsColl w') := by
      rw [takeWhile_append_all isPyWs P3 hP3m, List.takeWhile_cons,
        if_pos (by decide : isPyWs '\n' = true), htwT_out]
    have hdwA_out : (P3 ++ ('\n' :: (wsColl w' ++ (RET ++ (wsColl w2' ++
        ('(' :: (collapse inside' ++ (')' :: S)))))))).dropWhile isPyWs =
        RET ++ (wsColl w2' ++ ('(' :: (collapse inside' ++ (')' :: S)))) := by
      rw [dropWhile_append_ws P3 _ hP3m, List.dropWhile_cons,
        if_pos (by decide : isPyWs '\n' = true), hdwT_out]
    have hw1neI : ((DEFKW ++ (P3 ++ ('\n' :: (w' ++ (RET ++ (w2' ++ ('(' :: (inside' ++
        (')' :: rest))))))))).drop 3).takeWhile isPyWs ≠ [] := by
      rw [drop3_defkw_append, htwA_in]
      simp
    have hw1neO : ((DEFKW ++ (P3 ++ ('\n' :: (wsColl w' ++ (RET ++ (wsColl w2' ++
        ('(' :: (collapse inside' ++ (')' :: S))))))))).drop 3).takeWhile isPyWs ≠ [] := by
      rw [drop3_defkw_append, htwA_out]
      simp
    have hnmneI : (((DEFKW ++ (P3 ++ ('\n' :: (w' ++ (RET ++ (w2' ++ ('(' :: (inside' ++
        (')' :: rest))))))))).drop 3).dropWhile isPyWs).takeWhile isWordChar ≠ [] := by
      rw [drop3_defkw_append, hdwA_in,
        (parse_nm RET w2' (inside' ++ (')' :: rest)) (by decide) hw2').1]
      decide
    have hnmneO : (((DEFKW ++ (P3 ++ ('\n' :: (wsColl w' ++ (RET ++ (wsColl w2' ++
        ('(' :: (collapse inside' ++ (')' :: S))))))))).drop 3).dropWhile
        isPyWs).takeWhile isWordChar ≠ [] := by
      rw [drop3_defkw_append, hdwA_out,
        (parse_nm RET (wsColl w2') (collapse inside' ++ (')' :: S)) (by decide) hw2outm).1]
      decide
    have hchainI : ((((DEFKW ++ (P3 ++ ('\n' :: (w' ++ (RET ++ (w2' ++ ('(' :: (inside' ++
        (')' :: rest))))))))).drop 3).dropWhile isPyWs).dropWhile
        isWordChar).dropWhile isPyWs = '(' :: (inside' ++ (')' :: rest)) := by
      rw [drop3_defkw_append, hdwA_in,
        (parse_nm RET w2' (inside' ++ (')' :: rest)) (by decide) hw2').2,
        (parse_w2 w2' (inside' ++ (')' :: rest)) hw2').2]
    have hchainO : ((((DEFKW ++ (P3 ++ ('\n' :: (wsColl w' ++ (RET ++ (wsColl w2' ++
        ('(' :: (collapse inside' ++ (')' :: S))))))))).drop 3).dropWhile
        isPyWs).dropWhile isWordChar).dropWhile isPyWs =
        '(' :: (collapse inside' ++ (')' :: S)) := by
      rw [drop3_defkw_append, hdwA_out,
        (parse_nm RET (wsColl w2') (collapse inside' ++ (')' :: S)) (by decide) hw2outm).2,
        (parse_w2 (wsColl w2') (collapse inside' ++ (')' :: S)) hw2outm).2]
    rw [dTryCore_reduce _ '(' (collapse inside' ++ (')' :: S)) hpreO hw1neO hnmneO hchainO,
      if_pos rfl, breakAtParen_append (collapse inside') S hcollfree]
    rcases hheads with ⟨hrnil, hSnil⟩ | ⟨c₂, rt, rt', hrc, hSc⟩
    · rw [hSnil]
    · rw [hSc]
      have hc₂ : c₂ ≠ ':' := by
        intro hcc
        subst hcc
        rw [dTryCore_reduce _ '(' (inside' ++ (')' :: rest)) hpreI hw1neI hnmneI hchainI,
          if_pos rfl, breakAtParen_append inside' rest hin, hrc] at hIn
        simp at hIn
      exact if_neg hc₂
  | cons x₁ P4 =>
    have hx₁ws : isPyWs x₁ = false := dropWhile_head_not isPyWs P3 x₁ P4 hdP3
    have hB1 : P3 = P3.takeWhile isPyWs ++ (x₁ :: P4) := by
      conv_lhs => rw [← List.takeWhile_append_dropWhile (p := isPyWs) (l := P3)]
      rw [hdP3]
    have htw_sh : ∀ X : List Char, (P3 ++ X).takeWhile isPyWs = P3.takeWhile isPyWs :=
      takeWhile_stops isPyWs P3 x₁ P4 hB1 hx₁ws
    have hdw_sh : ∀ X : List Char, (P3 ++ X).dropWhile isPyWs = x₁ :: (P4 ++ X) :=
      dropWhile_stops isPyWs P3 x₁ P4 hB1 hx₁ws
    by_cases ht₁ : P3.takeWhile isPyWs = []
    · exact dTryCore_none_d2 _ hpreO (by rw [drop3_defkw_append, htw_sh]; exact ht₁)
    · have hw1neI : ((DEFKW ++ (P3 ++ ('\n' :: (w' ++ (RET ++ (w2' ++ ('(' :: (inside' ++
          (')' :: rest))))))))).drop 3).takeWhile isPyWs ≠ [] := by
        rw [drop3_defkw_append, htw_sh]
        exact ht₁
      have hw1neO : ((DEFKW ++ (P3 ++ ('\n' :: (wsColl w' ++ (RET ++ (wsColl w2' ++
          ('(' :: (collapse inside' ++ (')' :: S))))))))).drop 3).takeWhile isPyWs ≠ [] := by
        rw [drop3_defkw_append, htw_sh]
        exact ht₁
      cases hx₁w : isWordChar x₁ with
      | false =>
        refine dTryCore_none_d3 _ hpreO ?_ ?_
        · rw [drop3_defkw_append, htw_sh]
          exact ht₁
        · rw [drop3_defkw_append, hdw_sh]
          exact takeWhile_head_false_eq isWordChar x₁ _ hx₁w
      | true =>
        cases hdw2 : (x₁ :: P4).dropWhile isWordChar with
        | nil =>
          have hP4w : ∀ c ∈ x₁ :: P4, isWordChar c = true :=
            all_sat_of_dropWhile_nil isWordChar _ hdw2
          have hdwwO : (x₁ :: (P4 ++ ('\n' :: (wsColl w' ++ (RET ++ (wsColl w2' ++
              ('(' :: (collapse inside' ++ (')' :: S))))))))).dropWhile isWordChar =
              '\n' :: (wsColl w' ++ (RET ++ (wsColl w2' ++
              ('(' :: (collapse inside' ++ (')' :: S)))))) :=
            dropWhile_all_append isWordChar (x₁ :: P4) hP4w '\n' (by decide) _
          refine dTryCore_none_d5 _ 'r' (['e', 't', 'u', 'r', 'n'] ++ (wsColl w2' ++
            ('(' :: (collapse inside' ++ (')' :: S))))) hpreO hw1neO ?_ ?_ (by decide)
          · rw [drop3_defkw_append, hdw_sh, List.takeWhile_cons, if_pos hx₁w]
            exact List.cons_ne_nil _ _
          · rw [drop3_defkw_append, hdw_sh, hdwwO, List.dropWhile_cons,
              if_pos (by decide : isPyWs '\n' = true), hdwT_out]
            rfl
        | cons x₂ P5 =>
          have hx₂w : isWordChar x₂ = false :=
            dropWhile_head_not isWordChar (x₁ :: P4) x₂ P5 hdw2
          have hB2 : x₁ :: P4 = (x₁ :: P4).takeWhile isWordChar ++ (x₂ :: P5) := by
            conv_lhs => rw [← List.takeWhile_append_dropWhile (p := isWordChar)
              (l := x₁ :: P4)]
            rw [hdw2]
          have hdw2_sh : ∀ X : List Char,
              (x₁ :: (P4 ++ X)).dropWhile isWordChar = x₂ :: (P5 ++ X) :=
            fun X => dropWhile_stops isWordChar (x₁ :: P4) x₂ P5 hB2 hx₂w X
          have htw2_sh : ∀ X : List Char,
              (x₁ :: (P4 ++ X)).takeWhile isWordChar = (x₁ :: P4).takeWhile isWordChar :=
            fun X => takeWhile_stops isWordChar (x₁ :: P4) x₂ P5 hB2 hx₂w X
          have ht₂ne : (x₁ :: P4).takeWhile isWordChar ≠ [] := by
            rw [List.takeWhile_cons, if_pos hx₁w]
            exact List.cons_ne_nil _ _
          have hnmneI : (((DEFKW ++ (P3 ++ ('\n' :: (w' ++ (RET ++ (w2' ++
              ('(' :: (inside' ++ (')' :: rest))))))))).drop 3).dropWhile
              isPyWs).takeWhile isWordChar ≠ [] := by
            rw [drop3_defkw_append, hdw_sh, htw2_sh]
            exact ht₂ne
          have hnmneO : (((DEFKW ++ (P3 ++ ('\n' :: (wsColl w' ++ (RET ++ (wsColl w2' ++
              ('(' :: (collapse inside' ++ (')' :: S))))))))).drop 3).dropWhile
              isPyWs).takeWhile isWordChar ≠ [] := by
            rw [drop3_defkw_append, hdw_sh, htw2_sh]
            exact ht₂ne
          cases hx₂ws : isPyWs x₂ with
          | false =>
            by_cases hx₂p : x₂ = '('
            · subst hx₂p
              refine d_paren_corr _ _ P5 w' w2' inside' rest S hw' hw2' hin hheads
                hpreI hpreO hw1neI hw1neO hnmneI hnmneO ?_ ?_ hIn
              · rw [drop3_defkw_append, hdw_sh, hdw2_sh,
                  dropWhile_head_false_eq isPyWs '(' _ (by decide)]
              · rw [drop3_defkw_append, hdw_sh, hdw2_sh,
                  dropWhile_head_false_eq isPyWs '(' _ (by decide)]
            · refine dTryCore_none_d5 _ x₂ (P5 ++ ('\n' :: (wsColl w' ++ (RET ++
                (wsColl w2' ++ ('(' :: (collapse inside' ++ (')' :: S))))))))
                hpreO hw1neO hnmneO ?_ hx₂p
              rw [drop3_defkw_append, hdw_sh, hdw2_sh,
                dropWhile_head_false_eq isPyWs x₂ _ hx₂ws]
          | true =>
            cases hdw3 : (x₂ :: P5).dropWhile isPyWs with
            | nil =>
              have hP5m : ∀ c ∈ x₂ :: P5, isPyWs c = true :=
                all_sat_of_dropWhile_nil isPyWs _ hdw3
              have hdwO : (x₂ :: (P5 ++ ('\n' :: (wsColl w' ++ (RET ++ (wsColl w2' ++
                  ('(' :: (collapse inside' ++ (')' :: S))))))))).dropWhile isPyWs =
                  ('\n' :: (wsColl w' ++ (RET ++ (wsColl w2' ++
                  ('(' :: (collapse inside' ++ (')' :: S))))))).dropWhile isPyWs :=
                dropWhile_append_ws (x₂ :: P5) _ hP5m
              refine dTryCore_none_d5 _ 'r' (['e', 't', 'u', 'r', 'n'] ++ (wsColl w2' ++
                ('(' :: (collapse inside' ++ (')' :: S))))) hpreO hw1neO hnmneO ?_
                (by decide)
              rw [drop3_defkw_append, hdw_sh, hdw2_sh, hdwO, List.dropWhile_cons,
                if_pos (by decide : isPyWs '\n' = true), hdwT_out]
              rfl
            | cons x₃ P6 =>
              have hx₃ws : isPyWs x₃ = false :=
                dropWhile_head_not isPyWs (x₂ :: P5) x₃ P6 hdw3
              have hB3 : x₂ :: P5 = (x₂ :: P5).takeWhile isPyWs ++ (x₃ :: P6) := by
                conv_lhs => rw [← List.takeWhile_append_dropWhile (p := isPyWs)
                  (l := x₂ :: P5)]
                rw [hdw3]
              have hdw3_sh : ∀ X : List Char,
                  (x₂ :: (P5 ++ X)).dropWhile isPyWs = x₃ :: (P6 ++ X) :=
                fun X => dropWhile_stops isPyWs (x₂ :: P5) x₃ P6 hB3 hx₃ws X
              by_cases hx₃p : x₃ = '('
              · subst hx₃p
                refine d_paren_corr _ _ P6 w' w2' inside' rest S hw' hw2' hin hheads
                  hpreI hpreO hw1neI hw1neO hnmneI hnmneO ?_ ?_ hIn
                · rw [drop3_defkw_append, hdw_sh, hdw2_sh, hdw3_sh]
                · rw [drop3_defkw_append, hdw_sh, hdw2_sh, hdw3_sh]
              · refine dTryCore_none_d5 _ x₃ (P6 ++ ('\n' :: (wsColl w' ++ (RET ++
                  (wsColl w2' ++ ('(' :: (collapse inside' ++ (')' :: S))))))))
                  hpreO hw1neO hnmneO ?_ hx₃p
                rw [drop3_defkw_append, hdw_sh, hdw2_sh, hdw3_sh]

theorem dCore_corr (zh : Char) (P2 w' w2' inside' rest S : List Char)
    (hw' : ∀ c ∈ w', isPyWs c = true) (hw2' : ∀ c ∈ w2', isPyWs c = true)
    (hin : ')' ∉ inside')
    (hheads : (rest = [] ∧ S = []) ∨ ∃ c₂ rt rt', rest = c₂ :: rt ∧ S = c₂ :: rt')
    (hIn : dTryCore (zh :: (P2 ++ ('\n' :: (w' ++ (RET ++ (w2' ++
      ('(' :: (inside' ++ (')' :: rest))))))))) = none) :
    dTryCore (zh :: (P2 ++ ('\n' :: (wsColl w' ++ (RET ++ (wsColl w2' ++
      ('(' :: (collapse inside' ++ (')' :: S))))))))) = none := by
  by_cases hpre : DEFKW.isPrefixOf (zh :: (P2 ++ ('\n' :: (w' ++ (RET ++ (w2' ++
      ('(' :: (inside' ++ (')' :: rest))))))))) = true
  · obtain ⟨t, ht⟩ := List.isPrefixOf_iff_prefix.mp hpre
    cases P2 with
    | nil =>
      exfalso
      have h2 := (List.cons.inj ht).2
      exact absurd (List.cons.inj h2).1 (by decide)
    | cons c1 P2' =>
      cases P2' with
      | nil =>
        exfalso
        have h2 := (List.cons.inj ht).2
        have h3 := (List.cons.inj h2).2
        exact absurd (List.cons.inj h3).1 (by decide)
      | cons c2 P3 =>
        have h1 := List.cons.inj ht
        have h2 := List.cons.inj h1.2
        have h3 := List.cons.inj h2.2
        rw [← h1.1, ← h2.1, ← h3.1] at hIn ⊢
        exact dCore_corr_main P3 w' w2' inside' rest S hw' hw2' hin hheads hIn
  · have hagree := defkw_prefix_agree zh P2
      (w' ++ (RET ++ (w2' ++ ('(' :: (inside' ++ (')' :: rest))))))
      (wsColl w' ++ (RET ++ (wsColl w2' ++ ('(' :: (collapse inside' ++ (')' :: S))))))
    exact dTryCore_none_d1 _ (by rw [← hagree]; exact hpre)

/-- K1a: a declaration none-verdict survives the return-statement scan. -/
theorem dTryMatch_none_rscan (u : List Char) (h : dTryMatch u = none) :
    dTryMatch (rScan true u) = none := by
  rcases rScan_first_match true u with hid | ⟨p, m, rest, hdec, hflag, hm, hout⟩
  · rw [hid]
    exact h
  · obtain ⟨w', w2', inside', hw', hw2', hin', hlshape, hmshape, _⟩ :=
      rTryMatch_some _ m rest hm
    have hu2 : u = p ++ (w' ++ (RET ++ (w2' ++ ('(' :: (inside' ++ (')' :: rest)))))) := by
      rw [hdec, hlshape]
    have hcol : collapse m = wsColl w' ++ (RET ++ (wsColl w2' ++
        ('(' :: (collapse inside' ++ [')'])))) := by
      rw [hmshape]
      exact collapse_match_shape w' w2' inside' hw' hw2'
    have hout2 : rScan true u = p ++ (wsColl w' ++ (RET ++ (wsColl w2' ++
        ('(' :: (collapse inside' ++ (')' :: rScan false rest)))))) := by
      rw [hout, hcol]
      simp
    have hheads : (rest = [] ∧ rScan false rest = []) ∨
        ∃ c₂ rt rt', rest = c₂ :: rt ∧ rScan false rest = c₂ :: rt' := by
      cases rest with
      | nil => exact Or.inl ⟨rfl, rScan_nil false⟩
      | cons c₂ rt =>
        exact Or.inr ⟨c₂, rt, rScan (c₂ == '\n') rt, rfl, rScan_false_cons c₂ rt⟩
    have hcoreIn : dTryCore (u.dropWhile isPyWs) = none := dTryMatch_none_core u h
    apply dTryMatch_none_of_core
    rw [hout2]
    by_cases hp : p = []
    · subst hp
      have hdw : (wsColl w' ++ (RET ++ (wsColl w2' ++ ('(' :: (collapse inside' ++
          (')' :: rScan false rest)))))).dropWhile isPyWs = RET ++ (wsColl w2' ++
          ('(' :: (collapse inside' ++ (')' :: rScan false rest)))) :=
        dropWhile_all_append isPyWs _ (wsColl_all_ws w' hw') 'r' (by decide) _
      rw [List.nil_append, hdw]
      exact dTryCore_none_d1 _ (not_defkw_prefix_of_head 'r' _ (by decide))
    · obtain ⟨q, hq⟩ := flagAfter_true_decomp true p hflag hp
      subst hq
      have hu3 : u = q ++ ('\n' :: (w' ++ (RET ++ (w2' ++
          ('(' :: (inside' ++ (')' :: rest))))))) := by
        rw [hu2]
        simp
      cases hqd : q.dropWhile isPyWs with
      | nil =>
        have hqm := all_sat_of_dropWhile_nil isPyWs q hqd
        have hdwOut : ((q ++ ['\n']) ++ (wsColl w' ++ (RET ++ (wsColl w2' ++
            ('(' :: (collapse inside' ++ (')' :: rScan false rest))))))).dropWhile isPyWs =
            RET ++ (wsColl w2' ++ ('(' :: (collapse inside' ++
            (')' :: rScan false rest)))) := by
          rw [show ((q ++ ['\n']) ++ (wsColl w' ++ (RET ++ (wsColl w2' ++
            ('(' :: (collapse inside' ++ (')' :: rScan false rest)))))) : List Char) =
            q ++ ('\n' :: (wsColl w' ++ (RET ++ (wsColl w2' ++
            ('(' :: (collapse inside' ++ (')' :: rScan false rest))))))) by simp,
            dropWhile_append_ws q _ hqm, List.dropWhile_cons,
            if_pos (by decide : isPyWs '\n' = true)]
          exact dropWhile_all_append isPyWs _ (wsColl_all_ws w' hw') 'r' (by decide) _
        rw [hdwOut]
        exact dTryCore_none_d1 _ (not_defkw_prefix_of_head 'r' _ (by decide))
      | cons zh P2 =>
        have hzh : isPyWs zh = false := dropWhile_head_not isPyWs q zh P2 hqd
        have hBq : q = q.takeWhile isPyWs ++ (zh :: P2) := by
          conv_lhs => rw [← List.takeWhile_append_dropWhile (p := isPyWs) (l := q)]
          rw [hqd]
        have hdwq : ∀ X : List Char, (q ++ X).dropWhile isPyWs = zh :: (P2 ++ X) :=
          dropWhile_stops isPyWs q zh P2 hBq hzh
        have hInCore : dTryCore (zh :: (P2 ++ ('\n' :: (w' ++ (RET ++ (w2' ++
            ('(' :: (inside' ++ (')' :: rest))))))))) = none := by
          rw [← hdwq ('\n' :: (w' ++ (RET ++ (w2' ++ ('(' :: (inside' ++
            (')' :: rest))))))), ← hu3]
          exact hcoreIn
        have hdwOut : ((q ++ ['\n']) ++ (wsColl w' ++ (RET ++ (wsColl w2' ++
            ('(' :: (collapse inside' ++ (')' :: rScan false rest))))))).dropWhile isPyWs =
            zh :: (P2 ++ ('\n' :: (wsColl w' ++ (RET ++ (wsColl w2' ++
            ('(' :: (collapse inside' ++ (')' :: rScan false rest)))))))) := by
          rw [show ((q ++ ['\n']) ++ (wsColl w' ++ (RET ++ (wsColl w2' ++
            ('(' :: (collapse inside' ++ (')' :: rScan false rest)))))) : List Char) =
            q ++ ('\n' :: (wsColl w' ++ (RET ++ (wsColl w2' ++
            ('(' :: (collapse inside' ++ (')' :: rScan false rest))))))) by simp]
          exact hdwq _
        rw [hdwOut]
        exact dCore_corr zh P2 w' w2' inside' rest (rScan false rest) hw' hw2' hin'
          hheads hInCore

/-- K1: the return-statement scan preserves declaration-goodness of every
line-start position. -/
theorem rScan_preserves_allGoodD : ∀ (b : Bool) (l : List Char),
    AllGoodD b l → AllGoodD b (rScan b l) := by
  intro b l
  induction b, l using rScan.induct with
  | case1 =>
    intro _
    rw [rScan_nil]
    trivial
  | case2 c t ih =>
    intro h
    rw [rScan_false_cons]
    exact ⟨fun hb => absurd hb Bool.false_ne_true, ih h.2⟩
  | case3 c t m rest hm ih =>
    intro h
    rw [rScan_true_cons_match c t m rest hm]
    obtain ⟨hl, _⟩ := rTryMatch_some_decomp _ _ _ hm
    obtain ⟨w, w2, inside, hw, hw2, hin, _, hmshape, _⟩ := rTryMatch_some _ _ _ hm
    have hflag : flagAfter true m = false := by
      rw [hmshape, show w ++ (RET ++ (w2 ++ ('(' :: (inside ++ [')'])))) =
        (w ++ (RET ++ (w2 ++ ('(' :: inside)))) ++ [')'] by simp, flagAfter_append_single]
      decide
    have hrest : AllGoodD false rest := by
      have hd := allGoodD_drop m true rest (by rw [← hl]; exact h)
      rwa [hflag] at hd
    have hcol : collapse m = wsColl w ++ (RET ++ (wsColl w2 ++
        ('(' :: (collapse inside ++ [')'])))) := by
      rw [hmshape]
      exact collapse_match_shape w w2 inside hw hw2
    apply allGoodD_append_nonl (collapse m) (collapse_no_newline m) true _ (ih hrest)
    intro _ r' rest' hm'
    have hdw : (wsColl w ++ (RET ++ (wsColl w2 ++ ('(' :: (collapse inside ++
        (')' :: rScan false rest)))))).dropWhile isPyWs = RET ++ (wsColl w2 ++
        ('(' :: (collapse inside ++ (')' :: rScan false rest)))) :=
      dropWhile_all_append isPyWs _ (wsColl_all_ws w hw) 'r' (by decide) _
    have hnone : dTryMatch (collapse m ++ rScan false rest) = none := by
      apply dTryMatch_none_of_core
      rw [hcol, show (wsColl w ++ (RET ++ (wsColl w2 ++ ('(' :: (collapse inside ++
        [')']))))) ++ rScan false rest = wsColl w ++ (RET ++ (wsColl w2 ++
        ('(' :: (collapse inside ++ (')' :: rScan false rest))))) by simp, hdw]
      exact dTryCore_none_d1 _ (not_defkw_prefix_of_head 'r' _ (by decide))
    rw [hnone] at hm'
    cases hm'
  | case4 c t hm ih =>
    intro h
    rw [rScan_true_cons_none c t hm]
    refine ⟨fun _ => ?_, ih h.2⟩
    rw [← rScan_true_cons_none c t hm]
    cases hdm : dTryMatch (c :: t) with
    | none =>
      intro r' rest' hm'
      rw [dTryMatch_none_rscan _ hdm] at hm'
      cases hm'
    | some q₀ =>
      exact goodD_rscan_of_identity (c :: t) q₀.1 q₀.2 (by rw [hdm])
        (h.1 rfl q₀.1 q₀.2 (by rw [hdm]))

/-- The declaration rewrite is a no-op on any output of the composed
pipeline: the return scan preserves declaration-normality. -/
theorem dScan_stable_after_rscan (l : List Char) :
    dScan true (rScan true (dScan true l)) = rScan true (dScan true l) :=
  allGoodD_scan_id true _ (rScan_preserves_allGoodD true _ (scan_allGoodD true l))

/-- `re.sub` of the return-statement pattern, at string level
(`format_return_statements_to_single_line` in `cli.py`). -/
def format_return_statements_to_single_line (s : String) : String :=
  String.mk (rScan true s.toList)

/-- `re.sub` of the declaration-header pattern, at string level
(`format_function_declarations_to_single_line` in `cli.py`). -/
def format_function_declarations_to_single_line (s : String) : String :=
  String.mk (dScan true s.toList)

/-- The Line-Joiner as applied by `yield_next_function_block`: first the
declaration-header rewrite, then the return-statement rewrite. -/
def lineJoiner (s : String) : String :=
  format_return_statements_to_single_line (format_function_declarations_to_single_line s)

theorem rScan_idem_string (s : String) :
    format_return_statements_to_single_line (format_return_statements_to_single_line s) =
      format_return_statements_to_single_line s := by
  unfold format_return_statements_to_single_line
  rw [show (String.mk (rScan true s.toList)).toList = rScan true s.toList from rfl,
    rScan_idem]

theorem dScan_idem_string (s : String) :
    format_function_declarations_to_single_line
        (format_function_declarations_to_single_line s) =
      format_function_declarations_to_single_line s := by
  unfold format_function_declarations_to_single_line
  rw [show (String.mk (dScan true s.toList)).toList = dScan true s.toList from rfl,
    dScan_idem]

/-- C5: The Line-Joiner is idempotent: applying the composition of the
declaration-header rewrite and the return-statement rewrite twice yields
the same text as applying it once, and re-applying either rewrite to
already-normalized text is a no-op. -/
theorem lineJoiner_idempotent :
    (∀ s : String, lineJoiner (lineJoiner s) = lineJoiner s) ∧
    (∀ s : String, format_return_statements_to_single_line
        (format_return_statements_to_single_line s) =
      format_return_statements_to_single_line s) ∧
    (∀ s : String, format_function_declarations_to_single_line
        (format_function_declarations_to_single_line s) =
      format_function_declarations_to_single_line s) := by
  refine ⟨?_, rScan_idem_string, dScan_idem_string⟩
  intro s
  show String.mk (rScan true (dScan true (rScan true (dScan true s.toList)))) =
    String.mk (rScan true (dScan true s.toList))
  rw [dScan_stable_after_rscan, rScan_idem]

end MarimoAnywhere
